import Mathlib

/-!
# loganalyzer: the route statistics tree, its flattening and the line formats

Shallow embedding of `src/loganalyzer.go` (`stats`, `stats.addRequest`,
`stats.flatten`, `buildRe`, `guessFormatRe`, `sortByCall`, `sortBy404`,
`sortBy5xx`) and the properties proved about it.

Modelling conventions.

* Go strings are modelled by `String`; the operations the source applies to
  them (`strings.Split` on "/", `strings.Join`, `strings.Count` of "-",
  `strconv.Atoi`, concatenation, comparison) only look at ASCII characters, so
  they act on characters as they act on UTF-8 bytes.
* `map[string]*stats` is an association list in insertion order; a `nil` map
  and an empty map are both the empty list (the source never tells them
  apart: it tests `s.subRoutes == nil || len(s.subRoutes) == 0`).  `range`
  over the map enumerates the list in its order.
* The counters are `Nat`: one request adds at most one to a counter, so the
  64-bit `int` of the source cannot wrap on any log that can be read.
* `float32` is a type parameter `F` with an addition and a zero: nothing
  proved here depends on how durations add up.
* `*stats` values returned by `flatten` are pointers into the tree; a pointer
  is modelled by the path of child positions leading from a node to one of
  its descendants, and `flatten` returns the pointers together with the tree
  as it has left it.
* The maps `formats` and `patterns` are lists in the order of the source, and
  the functions that `range` over them take the enumeration order as an
  argument.
* The standard library is outside the source: `regexp` matching is a
  predicate given as an argument, `sort.Sort` a function given as an argument
  together with what its documentation promises, and `len` of a string is its
  number of UTF-8 bytes.
-/

set_option linter.unusedVariables false

namespace LogAnalyzer

/-! ## Strings -/

/-- Characters of `strings.Split(s, "/")`: the pieces between the slashes. -/
def splitChars : List Char → List (List Char)
  | [] => [[]]
  | c :: cs =>
    if c = '/' then [] :: splitChars cs
    else
      match splitChars cs with
      | [] => [[c]]
      | p :: ps => (c :: p) :: ps

/-- Go `strings.Split(url, "/")`. -/
def split (url : String) : List String :=
  (splitChars url.data).map String.mk

/-- Go `strings.Join(parts, "/")`. -/
def join : List String → String
  | [] => ""
  | [p] => p
  | p :: q :: rest => p ++ "/" ++ join (q :: rest)

/-- Go `strings.Count(s, "-")`. -/
def countDash (s : String) : Nat :=
  s.data.count '-'

/-- Value of a decimal digit, `none` for any other character. -/
def digitVal (c : Char) : Option Nat :=
  if 48 ≤ c.toNat ∧ c.toNat ≤ 57 then some (c.toNat - 48) else none

/-- Value of a run of decimal digits, `none` when a character is not a digit. -/
def parseDigits : List Char → Nat → Option Nat
  | [], acc => some acc
  | c :: cs, acc =>
    match digitVal c with
    | some d => parseDigits cs (acc * 10 + d)
    | none => none

/-- Go `strconv.Atoi` on a 64-bit platform: an optional sign, then at least one
decimal digit and nothing else, the value within `[-2^63, 2^63 - 1]`; `none`
stands for `err != nil` (syntax or range error). -/
def atoi (s : String) : Option Int :=
  match s.data with
  | [] => none
  | c :: cs =>
    let neg := decide (c = '-')
    let ds := if c = '-' ∨ c = '+' then cs else c :: cs
    if ds = [] then none
    else
      match parseDigits ds 0 with
      | none => none
      | some n =>
        if neg then (if n ≤ 2 ^ 63 then some (-(n : Int)) else none)
        else (if n < 2 ^ 63 then some (n : Int) else none)

/-! ## Maps -/

/-- Lookup `m[k]` with its `found` flag. -/
def mapGet {α : Type} : List (String × α) → String → Option α
  | [], _ => none
  | (k, v) :: rest, key => if k = key then some v else mapGet rest key

/-- Assignment `m[k] = v`: replaces the entry of `k`, or adds one. -/
def mapSet {α : Type} : List (String × α) → String → α → List (String × α)
  | [], key, x => [(key, x)]
  | (k, v) :: rest, key, x =>
    if k = key then (k, x) :: rest else (k, v) :: mapSet rest key x

/-! ## The tree -/

/-- Go `type stats struct`. -/
inductive Stats (F : Type) where
  | mk (route : String) (subIsMerged : Bool) (subRoutes : List (String × Stats F))
      (call error5xx error404 : Nat) (duration : F) : Stats F

namespace Stats

variable {F : Type}

/-- Field `route`. -/
def route : Stats F → String
  | mk r _ _ _ _ _ _ => r

/-- Field `subIsMerged`. -/
def subIsMerged : Stats F → Bool
  | mk _ b _ _ _ _ _ => b

/-- Field `subRoutes`. -/
def subRoutes : Stats F → List (String × Stats F)
  | mk _ _ subs _ _ _ _ => subs

/-- Field `call`. -/
def call : Stats F → Nat
  | mk _ _ _ c _ _ _ => c

/-- Field `error5xx`. -/
def error5xx : Stats F → Nat
  | mk _ _ _ _ e _ _ => e

/-- Field `error404`. -/
def error404 : Stats F → Nat
  | mk _ _ _ _ _ e _ => e

/-- Field `duration`. -/
def duration : Stats F → F
  | mk _ _ _ _ _ _ d => d

/-- Assignment `s.route = r`. -/
def setRoute (r : String) : Stats F → Stats F
  | mk _ b subs c e5 e4 d => mk r b subs c e5 e4 d

/-- Assignment `s.subRoutes = subs`. -/
def setSubRoutes (subs : List (String × Stats F)) : Stats F → Stats F
  | mk r b _ c e5 e4 d => mk r b subs c e5 e4 d

/-- Go `&stats{}`: the zero value. -/
def empty [Zero F] : Stats F :=
  mk "" false [] 0 0 0 0

end Stats

/-- One added to `error404` by a request of this status. -/
def inc404 (status : String) : Nat :=
  if status = "404" then 1 else 0

/-- One added to `error5xx` by a request of this status. -/
def inc5xx (status : String) : Nat :=
  if status = "500" ∨ status = "502" ∨ status = "503" ∨ status = "504" then 1 else 0

/-- The `subUrl` of `addRequest`: "/" and the joined rest when `len(parts) > 2`. -/
def subUrl (rest : List String) : String :=
  if rest = [] then "" else "/" ++ join rest

/-! ## Facts about `split` needed to define `addRequest` -/

theorem splitChars_ne_nil (cs : List Char) : splitChars cs ≠ [] := by
  induction cs with
  | nil => simp [splitChars]
  | cons c cs ih =>
    unfold splitChars
    split
    · simp
    · split <;> simp

theorem splitChars_noSlash (cs : List Char) : ∀ p ∈ splitChars cs, '/' ∉ p := by
  induction cs with
  | nil => simp [splitChars]
  | cons c cs ih =>
    unfold splitChars
    split
    · intro p hp
      rcases List.mem_cons.1 hp with rfl | hp
      · simp
      · exact ih p hp
    · rename_i hc
      split
      · intro p hp
        simp only [List.mem_singleton] at hp
        subst hp
        simpa using Ne.symm hc
      · rename_i q qs hq
        intro p hp
        rw [hq] at ih
        rcases List.mem_cons.1 hp with rfl | hp
        · have := ih q (by simp)
          simp only [List.mem_cons, not_or]
          exact ⟨Ne.symm hc, this⟩
        · exact ih p (by simp [hp])

theorem splitChars_self (k : List Char) (hk : '/' ∉ k) : splitChars k = [k] := by
  induction k with
  | nil => simp [splitChars]
  | cons c cs ih =>
    simp only [List.mem_cons, not_or] at hk
    unfold splitChars
    rw [if_neg (Ne.symm hk.1), ih hk.2]

theorem splitChars_append (k cs : List Char) (hk : '/' ∉ k) :
    splitChars (k ++ '/' :: cs) = k :: splitChars cs := by
  induction k with
  | nil => simp [splitChars]
  | cons c k ih =>
    simp only [List.mem_cons, not_or] at hk
    simp only [List.cons_append]
    rw [splitChars, if_neg (Ne.symm hk.1), ih hk.2]

/-- No "/" in the string. -/
def noSlash (s : String) : Prop := '/' ∉ s.data

theorem split_ne_nil (url : String) : split url ≠ [] := by
  simp [split, splitChars_ne_nil]

theorem split_noSlash (url : String) : ∀ p ∈ split url, noSlash p := by
  intro p hp
  simp only [split, List.mem_map] at hp
  obtain ⟨q, hq, rfl⟩ := hp
  exact splitChars_noSlash _ q hq

theorem split_self (k : String) (hk : noSlash k) : split k = [k] := by
  simp [split, splitChars_self k.data hk]

theorem split_append (k u : String) (hk : noSlash k) :
    split (k ++ "/" ++ u) = k :: split u := by
  have h : (k ++ "/" ++ u).data = k.data ++ '/' :: u.data := by
    simp [String.data_append]
  simp [split, h, splitChars_append k.data u.data hk]

theorem split_join (rest : List String) (hne : rest ≠ [])
    (hrest : ∀ r ∈ rest, noSlash r) : split (join rest) = rest := by
  induction rest with
  | nil => exact absurd rfl hne
  | cons p rest ih =>
    cases rest with
    | nil => simpa [join] using split_self p (hrest p (by simp))
    | cons q rest =>
      rw [join, split_append p _ (hrest p (by simp)),
        ih (by simp) (fun r hr => hrest r (by simp [hr]))]

theorem split_child (k : String) (rest : List String) (hk : noSlash k)
    (hrest : ∀ r ∈ rest, noSlash r) : split (k ++ subUrl rest) = k :: rest := by
  unfold subUrl
  split
  · rename_i h
    subst h
    simpa using split_self k hk
  · rename_i h
    rw [← String.append_assoc, split_append k _ hk, split_join rest h hrest]

section Definition

variable {F : Type} [Add F] [Zero F]

theorem noSlash_xxx : noSlash "xxx" := by
  unfold noSlash
  decide

/-! ## `addRequest` -/

/-- Go `func (s *stats) addRequest(url, status string, duration float32)`.
The `switch status` is `inc404` and `inc5xx`; `s.subRoutes[k]` preceded by its
`if !found { s.subRoutes[k] = &stats{} }` is the lookup defaulting to the
zero value, and the call on the pointer writes the node back under `k`.
`strings.Split` never returns an empty slice, so the first case is never
taken. The recursion is on the number of segments of `url`. -/
def addRequest (s : Stats F) (url status : String) (duration : F) : Stats F :=
  match s with
  | .mk _ merged subs call e5 e4 dur =>
    let call := call + 1
    let e4 := e4 + inc404 status
    let e5 := e5 + inc5xx status
    let dur := dur + duration
    match h : split url with
    | [] => .mk "" merged subs call e5 e4 dur
    | [p0] => .mk p0 merged subs call e5 e4 dur
    | p0 :: p1 :: rest =>
      if p1 = "" then .mk p0 merged subs call e5 e4 dur
      else
        let merged := if countDash p1 ≥ 3 then true else merged
        let merged := if (atoi p1).isSome then true else merged
        let subs := mapSet subs "xxx"
          (addRequest ((mapGet subs "xxx").getD Stats.empty) ("xxx" ++ subUrl rest)
            status duration)
        let subs :=
          if merged = false then
            mapSet subs p1
              (addRequest ((mapGet subs p1).getD Stats.empty) (p1 ++ subUrl rest)
                status duration)
          else subs
        .mk p0 merged subs call e5 e4 dur
termination_by (split url).length
decreasing_by
  all_goals simp_wf
  · have hr : ∀ r ∈ rest, noSlash r := fun r hr =>
      split_noSlash url r (by rw [h]; simp [hr])
    rw [h, split_child "xxx" rest noSlash_xxx hr]
    simp
  · have hr : ∀ r ∈ rest, noSlash r := fun r hr =>
      split_noSlash url r (by rw [h]; simp [hr])
    have h1 : noSlash p1 := split_noSlash url p1 (by rw [h]; simp)
    rw [h, split_child p1 rest h1 hr]
    simp

/-- The body of `addRequest` on a URL already split: `label` is `parts[0]`,
`segs` is `parts[1:]`. -/
def addParts : List String → Stats F → String → String → F → Stats F
  | [], .mk _ merged subs call e5 e4 dur, label, status, duration =>
    .mk label merged subs (call + 1) (e5 + inc5xx status) (e4 + inc404 status)
      (dur + duration)
  | p1 :: rest, .mk _ merged subs call e5 e4 dur, label, status, duration =>
    if p1 = "" then
      .mk label merged subs (call + 1) (e5 + inc5xx status) (e4 + inc404 status)
        (dur + duration)
    else
      let merged := if countDash p1 ≥ 3 then true else merged
      let merged := if (atoi p1).isSome then true else merged
      let subs := mapSet subs "xxx"
        (addParts rest ((mapGet subs "xxx").getD Stats.empty) "xxx" status duration)
      let subs :=
        if merged = false then
          mapSet subs p1
            (addParts rest ((mapGet subs p1).getD Stats.empty) p1 status duration)
        else subs
      .mk label merged subs (call + 1) (e5 + inc5xx status) (e4 + inc404 status)
        (dur + duration)

theorem addRequest_eq_addParts (segs : List String) :
    ∀ (s : Stats F) (url p0 status : String) (duration : F), split url = p0 :: segs →
      addRequest s url status duration = addParts segs s p0 status duration := by
  induction segs with
  | nil =>
    intro s url p0 status duration h
    cases s
    rw [addRequest]
    split
    · rename_i h2; rw [h] at h2; cases h2
    · rename_i h2; rw [h] at h2; cases h2; rfl
    · rename_i h2; rw [h] at h2; cases h2
  | cons p1 rest ih =>
    intro s url p0 status duration h
    have hr : ∀ r ∈ rest, noSlash r := fun r hr =>
      split_noSlash url r (by rw [h]; simp [hr])
    have h1 : noSlash p1 := split_noSlash url p1 (by rw [h]; simp)
    cases s
    rw [addRequest]
    split
    · rename_i h2; rw [h] at h2; cases h2
    · rename_i h2; rw [h] at h2; cases h2
    · rename_i h2
      rw [h] at h2
      cases h2
      simp only [addParts]
      rw [ih _ _ "xxx" _ _ (split_child "xxx" rest noSlash_xxx hr)]
      simp only [ih _ _ p1 _ _ (split_child p1 rest h1 hr)]

end Definition

/-! ## `flatten` -/

/-- Run-time panics `flatten` can raise. -/
inductive Panic where
  | divideByZero
  | nilDereference
  deriving DecidableEq, Repr

/-- A `*stats` pointing into a tree: the positions of the children to follow
from the node, in order. The empty path is the node itself. -/
abbrev Ptr := List Nat

/-- The same descendant seen from a list of children that has one more entry
in front. -/
def shift : Ptr → Ptr
  | [] => []
  | i :: p => (i + 1) :: p

namespace Stats

variable {F : Type}

/-- Read through a pointer: `*p`. -/
def deref : Stats F → Ptr → Option (Stats F)
  | s, [] => some s
  | s, i :: p =>
    match s.subRoutes[i]? with
    | none => none
    | some kv => deref kv.2 p

/-- Write through a pointer: `*p = f(*p)`; the rest of the tree is kept. -/
def update (f : Stats F → Stats F) : Stats F → Ptr → Stats F
  | s, [] => f s
  | s, i :: p =>
    match s.subRoutes[i]? with
    | none => s
    | some kv => s.setSubRoutes (s.subRoutes.set i (kv.1, update f kv.2 p))

end Stats

variable {F : Type}

/-- The assignment `f.route = r + "/" + f.route`. -/
def addPrefix (r : String) (f : Stats F) : Stats F :=
  f.setRoute (r ++ "/" ++ f.route)

/-- The closing loop of `flatten`:
`for _, f := range flat { f.route = s.route + "/" + f.route }`. -/
def prefixRoutes (flat : List Ptr) (s : Stats F) : Stats F :=
  flat.foldl (fun t f => t.update (addPrefix t.route) f) s

mutual

/-- Go `func (s *stats) flatten() statsList`, with `cfg.RouteMergeFactor` as `m`.
Returns the pointers of `flat` (relative to `s`) and the tree under `s` as the
call leaves it. -/
def flatten (m : Int) : Stats F → Except Panic (List Ptr × Stats F)
  | .mk route merged subs call e5 e4 dur =>
    if subs.length = 0 then .ok ([[]], .mk route merged subs call e5 e4 dur)
    else if m = 0 then .error .divideByZero
    else
      match (if (subs.length : Int) > Int.tdiv (call : Int) m then flattenXxx m subs
        else flattenRange m (subs.length == 1) subs) with
      | .error e => .error e
      | .ok (flat, subs1) =>
        .ok (flat, prefixRoutes flat (.mk route merged subs1 call e5 e4 dur))

/-- The branch `s.subRoutes["xxx"].flatten()`: the entry of "xxx" is looked up
and flattened in place; a missing entry is a nil pointer. -/
def flattenXxx (m : Int) :
    List (String × Stats F) → Except Panic (List Ptr × List (String × Stats F))
  | [] => .error .nilDereference
  | (k, v) :: rest =>
    if k = "xxx" then
      match flatten m v with
      | .error e => .error e
      | .ok (ps, v1) => .ok (ps.map (fun p => 0 :: p), (k, v1) :: rest)
    else
      match flattenXxx m rest with
      | .error e => .error e
      | .ok (ps, rest1) => .ok (ps.map shift, (k, v) :: rest1)

/-- The branch `for k, sub := range s.subRoutes`, `single` being
`len(s.subRoutes) == 1`. -/
def flattenRange (m : Int) (single : Bool) :
    List (String × Stats F) → Except Panic (List Ptr × List (String × Stats F))
  | [] => .ok ([], [])
  | (k, v) :: rest =>
    if k ≠ "xxx" ∨ single = true then
      match flatten m v with
      | .error e => .error e
      | .ok (ps, v1) =>
        match flattenRange m single rest with
        | .error e => .error e
        | .ok (qs, rest1) =>
          .ok (ps.map (fun p => 0 :: p) ++ qs.map shift, (k, v1) :: rest1)
    else
      match flattenRange m single rest with
      | .error e => .error e
      | .ok (qs, rest1) => .ok (qs.map shift, (k, v) :: rest1)

end

/-- The rows a `flatten` result holds: what its pointers point to. -/
def rows (r : List Ptr × Stats F) : List (Stats F) :=
  r.1.filterMap r.2.deref

/-- Feeding a list of `(url, status, duration)` to `addRequest`, first to last. -/
def addRequests [Add F] [Zero F] (s : Stats F) (reqs : List (String × String × F)) : Stats F :=
  reqs.foldl (fun t r => addRequest t r.1 r.2.1 r.2.2) s


/-- The rows `flatten` returns, read through its pointers once it has returned. -/
def flattenRows {F : Type} (m : Int) (s : Stats F) : Except Panic (List (Stats F)) :=
  (flatten m s).map rows

mutual

/-- Every node of the tree under `s`, `s` first. -/
def Stats.nodes {F : Type} : Stats F → List (Stats F)
  | .mk route merged subs call e5 e4 dur =>
    .mk route merged subs call e5 e4 dur :: nodesOf subs

/-- Every node of the trees under the children of a map. -/
def nodesOf {F : Type} : List (String × Stats F) → List (Stats F)
  | [] => []
  | (_, v) :: rest => Stats.nodes v ++ nodesOf rest

end


/-! ## Maps: lookup after assignment -/

theorem mapGet_mapSet_self {α : Type} (l : List (String × α)) (k : String) (x : α) :
    mapGet (mapSet l k x) k = some x := by
  induction l with
  | nil => simp [mapSet, mapGet]
  | cons kv rest ih =>
    obtain ⟨k1, v1⟩ := kv
    by_cases h : k1 = k
    · simp [mapSet, mapGet, h]
    · simp [mapSet, mapGet, h, ih]

theorem mapGet_mapSet_ne {α : Type} (l : List (String × α)) (k k2 : String) (x : α)
    (h : k ≠ k2) : mapGet (mapSet l k x) k2 = mapGet l k2 := by
  induction l with
  | nil => simp [mapSet, mapGet, h]
  | cons kv rest ih =>
    obtain ⟨k1, v1⟩ := kv
    by_cases h1 : k1 = k
    · subst h1
      simp [mapSet, mapGet, h]
    · by_cases h2 : k1 = k2
      · subst h2
        simp [mapSet, mapGet, h1]
      · simp [mapSet, mapGet, h1, h2, ih]

theorem mapSet_ne_nil {α : Type} (l : List (String × α)) (k : String) (x : α) :
    mapSet l k x ≠ [] := by
  cases l with
  | nil => simp [mapSet]
  | cons kv rest =>
    obtain ⟨k1, v1⟩ := kv
    by_cases h : k1 = k <;> simp [mapSet, h]

theorem mapGet_mem {α : Type} (l : List (String × α)) (k : String) (x : α)
    (h : mapGet l k = some x) : (k, x) ∈ l := by
  induction l with
  | nil => simp [mapGet] at h
  | cons kv rest ih =>
    obtain ⟨k1, v1⟩ := kv
    by_cases h1 : k1 = k
    · simp [mapGet, h1] at h
      simp [h1, h]
    · simp [mapGet, h1] at h
      simp [ih h]

/-! ## Nodes of a tree -/

theorem nodes_self (s : Stats F) : s ∈ s.nodes := by
  cases s
  simp [Stats.nodes]

theorem nodes_eq (s : Stats F) : s.nodes = s :: nodesOf s.subRoutes := by
  cases s
  simp [Stats.nodes, Stats.subRoutes]

theorem nodesOf_mem (l : List (String × Stats F)) (k : String) (v n : Stats F)
    (hv : (k, v) ∈ l) (hn : n ∈ v.nodes) : n ∈ nodesOf l := by
  induction l with
  | nil => simp at hv
  | cons kv rest ih =>
    obtain ⟨k1, v1⟩ := kv
    simp only [nodesOf, List.mem_append]
    rcases List.mem_cons.1 hv with h | h
    · cases h
      exact Or.inl hn
    · exact Or.inr (ih h)

theorem nodesOf_mapSet (l : List (String × Stats F)) (k : String) (v n : Stats F)
    (hn : n ∈ nodesOf (mapSet l k v)) : n ∈ nodesOf l ∨ n ∈ v.nodes := by
  induction l with
  | nil => simpa [mapSet, nodesOf] using hn
  | cons kv rest ih =>
    obtain ⟨k1, v1⟩ := kv
    by_cases h1 : k1 = k
    · simp only [mapSet, h1, if_true, nodesOf, List.mem_append] at hn ⊢
      rcases hn with h | h
      · exact Or.inr h
      · exact Or.inl (Or.inr h)
    · simp only [mapSet, h1, if_false, nodesOf, List.mem_append] at hn ⊢
      rcases hn with h | h
      · exact Or.inl (Or.inl h)
      · rcases ih h with h | h
        · exact Or.inl (Or.inr h)
        · exact Or.inr h

theorem nodes_empty [Zero F] (n : Stats F) (h : n ∈ (Stats.empty : Stats F).nodes) :
    n = Stats.empty := by
  simpa [Stats.empty, Stats.nodes, nodesOf] using h

section AddRequest

variable [Add F] [Zero F]

/-! ## `addRequest` unfolded -/

/-- The segment is taken for a slug or a page number: the two tests of
`addRequest` that set `subIsMerged`. -/
def highCard (p : String) : Bool :=
  decide (countDash p ≥ 3) || (atoi p).isSome

/-- One child of a node after a request went through it: the child under `k`
(the zero value when there is none) has received the rest of the request. -/
def childStep (rest : List String) (subs : List (String × Stats F)) (k status : String)
    (d : F) : List (String × Stats F) :=
  mapSet subs k (addParts rest ((mapGet subs k).getD Stats.empty) k status d)

theorem addParts_nil (route : String) (merged : Bool) (subs : List (String × Stats F))
    (call e5 e4 : Nat) (dur : F) (label status : String) (d : F) :
    addParts [] (.mk route merged subs call e5 e4 dur) label status d =
      .mk label merged subs (call + 1) (e5 + inc5xx status) (e4 + inc404 status)
        (dur + d) := by
  simp [addParts]

theorem addParts_cons_stop (rest : List String) (route : String) (merged : Bool)
    (subs : List (String × Stats F)) (call e5 e4 : Nat) (dur : F) (label status : String)
    (d : F) :
    addParts ("" :: rest) (.mk route merged subs call e5 e4 dur) label status d =
      .mk label merged subs (call + 1) (e5 + inc5xx status) (e4 + inc404 status)
        (dur + d) := by
  simp [addParts]

theorem addParts_cons_merged (p1 : String) (rest : List String) (route : String)
    (merged : Bool) (subs : List (String × Stats F)) (call e5 e4 : Nat) (dur : F)
    (label status : String) (d : F) (hp : p1 ≠ "") (hm : (highCard p1 || merged) = true) :
    addParts (p1 :: rest) (.mk route merged subs call e5 e4 dur) label status d =
      .mk label true (childStep rest subs "xxx" status d) (call + 1) (e5 + inc5xx status)
        (e4 + inc404 status) (dur + d) := by
  simp only [addParts, if_neg hp, childStep]
  simp only [highCard, Bool.or_eq_true, decide_eq_true_eq] at hm
  by_cases h1 : countDash p1 ≥ 3
  · by_cases h2 : (atoi p1).isSome = true <;> simp [h1, h2]
  · by_cases h2 : (atoi p1).isSome = true
    · simp [h1, h2]
    · have hm2 : merged = true := by
        rcases hm with (h | h) | h
        · exact absurd h h1
        · exact absurd h h2
        · exact h
      simp [h1, h2, hm2]

theorem addParts_cons_literal (p1 : String) (rest : List String) (route : String)
    (subs : List (String × Stats F)) (call e5 e4 : Nat) (dur : F)
    (label status : String) (d : F) (hp : p1 ≠ "") (hc : highCard p1 = false) :
    addParts (p1 :: rest) (.mk route false subs call e5 e4 dur) label status d =
      .mk label false (childStep rest (childStep rest subs "xxx" status d) p1 status d)
        (call + 1) (e5 + inc5xx status) (e4 + inc404 status) (dur + d) := by
  simp only [addParts, if_neg hp, childStep]
  simp only [highCard, Bool.or_eq_false_iff, decide_eq_false_iff_not] at hc
  have h2 : (atoi p1).isSome = false := hc.2
  simp [hc.1, h2]

/-! ## What `addRequest` does to the node it is called on -/

theorem addParts_call (segs : List String) (s : Stats F) (label status : String) (d : F) :
    (addParts segs s label status d).call = s.call + 1 := by
  cases s
  cases segs with
  | nil => simp [addParts, Stats.call]
  | cons p1 rest =>
    simp only [addParts]
    split <;> simp [Stats.call]

theorem addParts_error404 (segs : List String) (s : Stats F) (label status : String)
    (d : F) : (addParts segs s label status d).error404 = s.error404 + inc404 status := by
  cases s
  cases segs with
  | nil => simp [addParts, Stats.error404]
  | cons p1 rest =>
    simp only [addParts]
    split <;> simp [Stats.error404]

theorem addParts_error5xx (segs : List String) (s : Stats F) (label status : String)
    (d : F) : (addParts segs s label status d).error5xx = s.error5xx + inc5xx status := by
  cases s
  cases segs with
  | nil => simp [addParts, Stats.error5xx]
  | cons p1 rest =>
    simp only [addParts]
    split <;> simp [Stats.error5xx]

theorem addParts_route (segs : List String) (s : Stats F) (label status : String) (d : F) :
    (addParts segs s label status d).route = label := by
  cases s
  cases segs with
  | nil => simp [addParts, Stats.route]
  | cons p1 rest =>
    simp only [addParts]
    split <;> simp [Stats.route]

theorem addRequest_eq (s : Stats F) (url status : String) (duration : F) :
    addRequest s url status duration =
      addParts (split url).tail s ((split url).headD "") status duration := by
  cases h : split url with
  | nil => exact absurd h (split_ne_nil url)
  | cons p0 segs => exact addRequest_eq_addParts segs s url p0 status duration h

theorem addRequests_append (s : Stats F) (reqs : List (String × String × F))
    (r : String × String × F) :
    addRequests s (reqs ++ [r]) = addRequest (addRequests s reqs) r.1 r.2.1 r.2.2 := by
  simp [addRequests, List.foldl_append]

theorem inc_le_one (status : String) : inc404 status + inc5xx status ≤ 1 := by
  unfold inc404 inc5xx
  by_cases h : status = "404"
  · subst h
    decide
  · simp [h]
    split <;> simp

/-! ## Invariants of the trees `addRequest` builds -/

/-- The nodes of the children of a node a request went through are nodes of the
children it had, or nodes of a child the request was passed to. -/
theorem nodesOf_childStep (rest : List String) (subs : List (String × Stats F))
    (k status : String) (d : F) (n : Stats F)
    (hn : n ∈ nodesOf (childStep rest subs k status d)) :
    n ∈ nodesOf subs ∨
      n ∈ (addParts rest ((mapGet subs k).getD Stats.empty) k status d).nodes :=
  nodesOf_mapSet _ _ _ _ hn

/-- A property of nodes that holds of the zero value and that `addRequest`
re-establishes at the node it is called on, for the requests whose segments
satisfy `Q`, holds at every node after `addRequest`. -/
theorem addParts_all (P : Stats F → Prop) (Q : List String → Prop)
    (hQ : ∀ p rest, Q (p :: rest) → Q rest) (hempty : P Stats.empty)
    (hstep : ∀ (segs : List String) (s : Stats F) (label status : String) (d : F),
      Q segs → (∀ n ∈ s.nodes, P n) → P (addParts segs s label status d))
    (segs : List String) :
    ∀ (s : Stats F) (label status : String) (d : F), Q segs →
      (∀ n ∈ s.nodes, P n) → ∀ n ∈ (addParts segs s label status d).nodes, P n := by
  induction segs with
  | nil =>
    intro s label status d hq hs n hn
    have hroot := hstep [] s label status d hq hs
    cases s with
    | mk route merged subs call e5 e4 dur =>
      rw [addParts_nil] at hn hroot
      simp only [Stats.nodes, List.mem_cons] at hn
      rcases hn with rfl | hn
      · exact hroot
      · exact hs n (by simp [Stats.nodes, hn])
  | cons p1 rest ih =>
    intro s label status d hq hs n hn
    have hroot := hstep (p1 :: rest) s label status d hq hs
    have hget : ∀ (l : List (String × Stats F)) (k : String),
        (∀ n ∈ nodesOf l, P n) →
        ∀ n ∈ ((mapGet l k).getD Stats.empty).nodes, P n := by
      intro l k hl n hn
      cases hk : mapGet l k with
      | none =>
        rw [hk] at hn
        rw [nodes_empty n hn]
        exact hempty
      | some v =>
        rw [hk] at hn
        exact hl n (nodesOf_mem l k v n (mapGet_mem l k v hk) hn)
    have hchild : ∀ (l : List (String × Stats F)) (k : String),
        (∀ n ∈ nodesOf l, P n) →
        ∀ n ∈ nodesOf (childStep rest l k status d), P n := by
      intro l k hl n hn
      rcases nodesOf_childStep rest l k status d n hn with h | h
      · exact hl n h
      · exact ih _ _ _ _ (hQ p1 rest hq) (hget l k hl) n h
    cases s with
    | mk route merged subs call e5 e4 dur =>
      have hsubs : ∀ n ∈ nodesOf subs, P n := fun n hn =>
        hs n (by simp [Stats.nodes, hn])
      by_cases hp : p1 = ""
      · subst hp
        rw [addParts_cons_stop] at hn hroot
        simp only [Stats.nodes, List.mem_cons] at hn
        rcases hn with rfl | hn
        · exact hroot
        · exact hsubs n hn
      · by_cases hm : (highCard p1 || merged) = true
        · rw [addParts_cons_merged _ _ _ _ _ _ _ _ _ _ _ _ hp hm] at hn hroot
          simp only [Stats.nodes, List.mem_cons] at hn
          rcases hn with rfl | hn
          · exact hroot
          · exact hchild subs "xxx" hsubs n hn
        · simp only [Bool.or_eq_true, not_or, Bool.not_eq_true] at hm
          obtain ⟨hc, hm⟩ := hm
          subst hm
          rw [addParts_cons_literal _ _ _ _ _ _ _ _ _ _ _ hp hc] at hn hroot
          simp only [Stats.nodes, List.mem_cons] at hn
          rcases hn with rfl | hn
          · exact hroot
          · exact hchild _ p1 (hchild subs "xxx" hsubs) n hn

/-- The invariant of `addParts_all` holds in every tree built from the empty
root. -/
theorem addRequests_all (P : Stats F → Prop) (Q : List String → Prop)
    (hQ : ∀ p rest, Q (p :: rest) → Q rest) (hempty : P Stats.empty)
    (hstep : ∀ (segs : List String) (s : Stats F) (label status : String) (d : F),
      Q segs → (∀ n ∈ s.nodes, P n) → P (addParts segs s label status d))
    (reqs : List (String × String × F)) (hreqs : ∀ r ∈ reqs, Q (split r.1).tail) :
    ∀ n ∈ (addRequests (Stats.empty : Stats F) reqs).nodes, P n := by
  induction reqs using List.reverseRecOn with
  | nil =>
    intro n hn
    rw [show addRequests (Stats.empty : Stats F) [] = Stats.empty from rfl] at hn
    rw [nodes_empty n hn]
    exact hempty
  | append_singleton reqs r ih =>
    rw [addRequests_append, addRequest_eq]
    exact addParts_all P Q hQ hempty hstep _ _ _ _ _ (hreqs r (by simp))
      (ih (fun r hr => hreqs r (by simp [hr])))

/-! ## Counter conservation -/

/-- The error counters of a node do not exceed its call counter. -/
def errorsLeCall (n : Stats F) : Prop :=
  n.error404 + n.error5xx ≤ n.call

theorem addRequests_errorsLeCall (reqs : List (String × String × F)) :
    ∀ n ∈ (addRequests (Stats.empty : Stats F) reqs).nodes, errorsLeCall n := by
  refine addRequests_all errorsLeCall (fun _ => True) (fun _ _ _ => trivial) ?_ ?_ reqs
    (fun _ _ => trivial)
  · simp [errorsLeCall, Stats.empty, Stats.error404, Stats.error5xx, Stats.call]
  · intro segs s label status d _ hs
    have hroot := hs s (nodes_self s)
    have := inc_le_one status
    unfold errorsLeCall at hroot ⊢
    rw [addParts_call, addParts_error404, addParts_error5xx]
    omega

theorem addRequests_call (reqs : List (String × String × F)) :
    (addRequests (Stats.empty : Stats F) reqs).call = reqs.length := by
  induction reqs using List.reverseRecOn with
  | nil => rfl
  | append_singleton reqs r ih =>
    rw [addRequests_append, addRequest_eq, addParts_call, ih]
    simp

end AddRequest



/-! ## The rows of `flatten`, as the text of the specification defines them -/

mutual

/-- The rows of a node, by the recursive definition of the specification: a
node without children is its own single row; a node with more children than
`callCount / RouteMergeFactor` gives the rows of its wildcard child alone;
any other node gives the rows of all its children, the wildcard child being
skipped unless it is the only child; the rows that come from children get the
label of the node and "/" in front of their route. `none` when the wildcard
child is wanted and there is none. -/
def flattenSpec (m : Int) : Stats F → Option (List (Stats F))
  | .mk route merged subs call e5 e4 dur =>
    if subs.length = 0 then some [.mk route merged subs call e5 e4 dur]
    else if (subs.length : Int) > (call : Int) / m then
      (specWildcard m subs).map (List.map (addPrefix route))
    else
      (specChildren m (subs.length == 1) subs).map (List.map (addPrefix route))

/-- The rows of the wildcard child of a children map. -/
def specWildcard (m : Int) : List (String × Stats F) → Option (List (Stats F))
  | [] => none
  | (k, v) :: rest => if k = "xxx" then flattenSpec m v else specWildcard m rest

/-- The rows of the children of a map, the wildcard child left out unless
`single` (it is the only child). -/
def specChildren (m : Int) (single : Bool) :
    List (String × Stats F) → Option (List (Stats F))
  | [] => some []
  | (k, v) :: rest =>
    if k ≠ "xxx" ∨ single = true then
      match flattenSpec m v with
      | none => none
      | some a =>
        match specChildren m single rest with
        | none => none
        | some b => some (a ++ b)
    else specChildren m single rest

end

/-! ## Induction on trees -/

theorem Stats.induct {P : Stats F → Prop}
    (h : ∀ route merged subs call e5 e4 dur, (∀ kv ∈ subs, P kv.2) →
      P (.mk route merged subs call e5 e4 dur)) (s : Stats F) : P s :=
  Stats.rec (motive_1 := P) (motive_2 := fun l => ∀ kv ∈ l, P kv.2)
    (motive_3 := fun kv => P kv.2)
    (fun route merged subs call e5 e4 dur ih => h route merged subs call e5 e4 dur ih)
    (fun kv hkv => absurd hkv (List.not_mem_nil kv))
    (fun head tail ih1 ih2 kv hkv => by
      rcases List.mem_cons.1 hkv with rfl | hkv
      · exact ih1
      · exact ih2 kv hkv)
    (fun _ _ ih => ih) s

/-! ## Reading and writing through pointers -/

theorem deref_nil (t : Stats F) : t.deref [] = some t := by
  cases t
  rfl

theorem update_nil (f : Stats F → Stats F) (t : Stats F) : t.update f [] = f t := by
  cases t
  rfl

theorem deref_cons (t : Stats F) (i : Nat) (p : Ptr) :
    t.deref (i :: p) = (t.subRoutes[i]?).bind (fun kv => kv.2.deref p) := by
  cases t with
  | mk r b subs c e5 e4 d =>
    simp only [Stats.deref, Stats.subRoutes]
    cases subs[i]? <;> rfl

theorem update_cons (f : Stats F → Stats F) (t : Stats F) (i : Nat) (p : Ptr) :
    t.update f (i :: p) =
      match t.subRoutes[i]? with
      | none => t
      | some kv => t.setSubRoutes (t.subRoutes.set i (kv.1, kv.2.update f p)) := by
  cases t
  simp only [Stats.update]

theorem setSubRoutes_subRoutes (t : Stats F) (l : List (String × Stats F)) :
    (t.setSubRoutes l).subRoutes = l := by
  cases t
  rfl

theorem setSubRoutes_route (t : Stats F) (l : List (String × Stats F)) :
    (t.setSubRoutes l).route = t.route := by
  cases t
  rfl

/-- Writing through a pointer and reading back. -/
theorem deref_update_self (f : Stats F → Stats F) (p : Ptr) :
    ∀ (t n : Stats F), t.deref p = some n → (t.update f p).deref p = some (f n) := by
  induction p with
  | nil =>
    intro t n h
    rw [deref_nil] at h
    cases h
    rw [update_nil, deref_nil]
  | cons i p ih =>
    intro t n h
    rw [deref_cons] at h
    rw [update_cons]
    cases hi : t.subRoutes[i]? with
    | none => simp [hi] at h
    | some kv =>
      simp only [hi, Option.some_bind] at h
      have hlt : i < t.subRoutes.length := by
        rcases List.getElem?_eq_some_iff.1 hi with ⟨hlt, -⟩
        exact hlt
      simp only [deref_cons, setSubRoutes_subRoutes, List.getElem?_set_self hlt,
        Option.some_bind]
      exact ih kv.2 n h

/-- Writing through a pointer to a leaf does not show through a pointer to
another leaf. -/
theorem deref_update_other (f : Stats F → Stats F) (p : Ptr) :
    ∀ (q : Ptr) (t np nq : Stats F), p ≠ q → t.deref p = some np → t.deref q = some nq →
      np.subRoutes = [] → nq.subRoutes = [] → (t.update f p).deref q = some nq := by
  induction p with
  | nil =>
    intro q t np nq hne hp hq hlp hlq
    rw [deref_nil] at hp
    cases hp
    cases q with
    | nil => exact absurd rfl hne
    | cons j q => simp [deref_cons, hlp] at hq
  | cons i p ih =>
    intro q t np nq hne hp hq hlp hlq
    cases q with
    | nil =>
      rw [deref_nil] at hq
      cases hq
      simp [deref_cons, hlq] at hp
    | cons j q =>
      rw [deref_cons] at hp hq
      rw [update_cons]
      cases hi : t.subRoutes[i]? with
      | none => simp [hi] at hp
      | some kv =>
        simp only [hi, Option.some_bind] at hp
        have hlt : i < t.subRoutes.length := by
          rcases List.getElem?_eq_some_iff.1 hi with ⟨hlt, -⟩
          exact hlt
        simp only [deref_cons, setSubRoutes_subRoutes]
        by_cases hij : i = j
        · subst hij
          simp only [hi, Option.some_bind] at hq
          simp only [List.getElem?_set_self hlt, Option.some_bind]
          exact ih q kv.2 np nq (fun h => hne (by rw [h])) hp hq hlp hlq
        · rw [List.getElem?_set_ne hij]
          exact hq



/-! ## The pointers `flatten` returns -/

/-- The pointers `ps` into `t` are pairwise different and point to the
childless nodes `rs`, in this order. -/
def Good (ps : List Ptr) (t : Stats F) (rs : List (Stats F)) : Prop :=
  ps.map t.deref = rs.map some ∧ (∀ n ∈ rs, n.subRoutes = []) ∧ ps.Nodup

/-- Read through a pointer that starts in a children map. -/
def derefIn (l : List (String × Stats F)) : Ptr → Option (Stats F)
  | [] => none
  | i :: p => (l[i]?).bind (fun kv => kv.2.deref p)

/-- The pointers `ps` from a children map are pairwise different and point to
the childless nodes `rs`, in this order. -/
def GoodIn (ps : List Ptr) (l : List (String × Stats F)) (rs : List (Stats F)) : Prop :=
  ps.map (derefIn l) = rs.map some ∧ (∀ n ∈ rs, n.subRoutes = []) ∧ ps.Nodup

theorem map_eq_map_some {α β : Type} (f : α → Option β) (l : List α) (rs : List β)
    (h : l.map f = rs.map some) (a : α) (ha : a ∈ l) : ∃ n ∈ rs, f a = some n := by
  have : f a ∈ rs.map some := by
    rw [← h]
    exact List.mem_map_of_mem f ha
  obtain ⟨n, hn, hfn⟩ := List.mem_map.1 this
  exact ⟨n, hn, hfn.symm⟩

theorem filterMap_of_map_some {α β : Type} (f : α → Option β) (l : List α) (rs : List β)
    (h : l.map f = rs.map some) : l.filterMap f = rs := by
  induction l generalizing rs with
  | nil =>
    cases rs with
    | nil => rfl
    | cons r rs => simp at h
  | cons a l ih =>
    cases rs with
    | nil => simp at h
    | cons r rs =>
      simp only [List.map_cons, List.cons.injEq] at h
      simp [List.filterMap_cons, h.1, ih rs h.2]

theorem GoodIn.ne_nil {ps : List Ptr} {l : List (String × Stats F)} {rs : List (Stats F)}
    (h : GoodIn ps l rs) : ∀ p ∈ ps, p ≠ [] := by
  intro p hp hnil
  obtain ⟨n, -, hn⟩ := map_eq_map_some _ _ _ h.1 p hp
  subst hnil
  simp [derefIn] at hn

theorem deref_mk_cons (r : String) (b : Bool) (l : List (String × Stats F)) (c e5 e4 : Nat)
    (d : F) (p : Ptr) (hp : p ≠ []) :
    (Stats.mk r b l c e5 e4 d).deref p = derefIn l p := by
  cases p with
  | nil => exact absurd rfl hp
  | cons i p => rw [deref_cons]; rfl

theorem GoodIn.toGood {ps : List Ptr} {l : List (String × Stats F)} {rs : List (Stats F)}
    (h : GoodIn ps l rs) (r : String) (b : Bool) (c e5 e4 : Nat) (d : F) :
    Good ps (Stats.mk r b l c e5 e4 d) rs := by
  refine ⟨?_, h.2.1, h.2.2⟩
  rw [← h.1]
  exact List.map_congr_left (fun p hp => deref_mk_cons r b l c e5 e4 d p (h.ne_nil p hp))

theorem derefIn_cons_zero (kv : String × Stats F) (l : List (String × Stats F)) (p : Ptr) :
    derefIn (kv :: l) (0 :: p) = kv.2.deref p := by
  simp [derefIn]

theorem derefIn_cons_shift (kv : String × Stats F) (l : List (String × Stats F))
    (q : Ptr) : derefIn (kv :: l) (shift q) = derefIn l q := by
  cases q with
  | nil => rfl
  | cons i q => simp [derefIn, shift]

theorem shift_injective : Function.Injective shift := by
  intro p q h
  cases p with
  | nil =>
    cases q with
    | nil => rfl
    | cons j q => simp [shift] at h
  | cons i p =>
    cases q with
    | nil => simp [shift] at h
    | cons j q =>
      simp only [shift, List.cons.injEq, Nat.add_right_cancel_iff] at h
      rw [h.1, h.2]

theorem cons_zero_injective : Function.Injective (fun p : Ptr => 0 :: p) := by
  intro p q h
  simpa using h

theorem GoodIn.head {ps : List Ptr} {v : Stats F} {rs : List (Stats F)} (h : Good ps v rs)
    (k : String) (rest : List (String × Stats F)) :
    GoodIn (ps.map (fun p => 0 :: p)) ((k, v) :: rest) rs := by
  refine ⟨?_, h.2.1, h.2.2.map cons_zero_injective⟩
  rw [← h.1, List.map_map]
  exact List.map_congr_left (fun p _ => derefIn_cons_zero (k, v) rest p)

theorem GoodIn.tail {qs : List Ptr} {l : List (String × Stats F)} {rs : List (Stats F)}
    (h : GoodIn qs l rs) (kv : String × Stats F) :
    GoodIn (qs.map shift) (kv :: l) rs := by
  refine ⟨?_, h.2.1, h.2.2.map shift_injective⟩
  rw [← h.1, List.map_map]
  exact List.map_congr_left (fun q _ => derefIn_cons_shift kv l q)

theorem GoodIn.append {ps qs : List Ptr} {v : Stats F} {l : List (String × Stats F)}
    {a b : List (Stats F)} (ha : Good ps v a) (hb : GoodIn qs l b) (k : String) :
    GoodIn (ps.map (fun p => 0 :: p) ++ qs.map shift) ((k, v) :: l) (a ++ b) := by
  have h1 := GoodIn.head ha k l
  have h2 := GoodIn.tail hb (k, v)
  refine ⟨?_, ?_, ?_⟩
  · rw [List.map_append, List.map_append, h1.1, h2.1]
  · intro n hn
    rcases List.mem_append.1 hn with hn | hn
    · exact ha.2.1 n hn
    · exact hb.2.1 n hn
  · refine List.Nodup.append h1.2.2 h2.2.2 ?_
    intro p hp hq
    obtain ⟨p1, -, rfl⟩ := List.mem_map.1 hp
    obtain ⟨q1, hq1, hq2⟩ := List.mem_map.1 hq
    cases q1 with
    | nil => exact hb.ne_nil [] hq1 rfl
    | cons j q1 => simp [shift] at hq2

/-- Writing through each of a list of pointers to different leaves: each of
them then reads what was written, and any other pointer to a leaf reads what
it read before. -/
theorem foldl_update_deref (f : Stats F → Stats F)
    (hf : ∀ n, n.subRoutes = [] → (f n).subRoutes = []) (qs : List Ptr) :
    ∀ t : Stats F, qs.Nodup → (∀ q ∈ qs, ∃ n, t.deref q = some n ∧ n.subRoutes = []) →
      (∀ q ∈ qs, (qs.foldl (fun t p => t.update f p) t).deref q = (t.deref q).map f) ∧
      ∀ p, p ∉ qs → ∀ n, t.deref p = some n → n.subRoutes = [] →
        (qs.foldl (fun t p => t.update f p) t).deref p = some n := by
  induction qs with
  | nil =>
    intro t _ _
    exact ⟨fun q hq => absurd hq (List.not_mem_nil q), fun p _ n hn _ => hn⟩
  | cons q qs ih =>
    intro t hnd hall
    obtain ⟨nq, hnq, hlq⟩ := hall q (by simp)
    have hqs : q ∉ qs := (List.nodup_cons.1 hnd).1
    have hother : ∀ p, p ≠ q → ∀ n, t.deref p = some n → n.subRoutes = [] →
        (t.update f q).deref p = some n := fun p hpq n hn hl =>
      deref_update_other f q p t nq n (Ne.symm hpq) hnq hn hlq hl
    have hall1 : ∀ x ∈ qs, ∃ n, (t.update f q).deref x = some n ∧ n.subRoutes = [] := by
      intro x hx
      obtain ⟨n, hn, hl⟩ := hall x (by simp [hx])
      exact ⟨n, hother x (fun h => hqs (h ▸ hx)) n hn hl, hl⟩
    obtain ⟨ih1, ih2⟩ := ih (t.update f q) (List.nodup_cons.1 hnd).2 hall1
    simp only [List.foldl_cons]
    constructor
    · intro x hx
      rcases List.mem_cons.1 hx with rfl | hx
      · rw [ih2 x hqs (f nq) (deref_update_self f x t nq hnq) (hf nq hlq), hnq]
        rfl
      · obtain ⟨n, hn, hl⟩ := hall x (by simp [hx])
        rw [ih1 x hx, hother x (fun h => hqs (h ▸ hx)) n hn hl, hn]
    · intro p hp n hn hl
      simp only [List.mem_cons, not_or] at hp
      exact ih2 p hp.2 n (hother p hp.1 n hn hl) hl

theorem Good.foldl_update {ps : List Ptr} {t : Stats F} {rs : List (Stats F)}
    (h : Good ps t rs) (f : Stats F → Stats F)
    (hf : ∀ n, n.subRoutes = [] → (f n).subRoutes = []) :
    Good ps (ps.foldl (fun t p => t.update f p) t) (rs.map f) := by
  have hall : ∀ q ∈ ps, ∃ n, t.deref q = some n ∧ n.subRoutes = [] := by
    intro q hq
    obtain ⟨n, hn, hq⟩ := map_eq_map_some _ _ _ h.1 q hq
    exact ⟨n, hq, h.2.1 n hn⟩
  obtain ⟨h1, -⟩ := foldl_update_deref f hf ps t h.2.2 hall
  refine ⟨?_, ?_, h.2.2⟩
  · have h2 : List.map (fun q => Option.map f (t.deref q)) ps =
        (ps.map t.deref).map (Option.map f) := by
      simp [List.map_map]
    rw [List.map_congr_left h1, h2, h.1]
    simp [List.map_map]
  · intro n hn
    obtain ⟨n0, hn0, rfl⟩ := List.mem_map.1 hn
    exact hf n0 (h.2.1 n0 hn0)

theorem addPrefix_subRoutes (r : String) (n : Stats F) :
    (addPrefix r n).subRoutes = n.subRoutes := by
  cases n
  rfl

theorem update_route (f : Stats F → Stats F) (t : Stats F) (p : Ptr) (hp : p ≠ []) :
    (t.update f p).route = t.route := by
  cases p with
  | nil => exact absurd rfl hp
  | cons i p =>
    rw [update_cons]
    split
    · rfl
    · exact setSubRoutes_route _ _

/-- The closing loop of `flatten` reads `s.route` anew at each turn, and reads
the same label each time: no pointer of `flat` is `s` itself. -/
theorem prefixRoutes_eq (flat : List Ptr) (hne : ∀ p ∈ flat, p ≠ []) :
    ∀ t : Stats F, prefixRoutes flat t =
      flat.foldl (fun u p => u.update (addPrefix t.route) p) t := by
  unfold prefixRoutes
  induction flat with
  | nil => intro t; rfl
  | cons p flat ih =>
    intro t
    simp only [List.foldl_cons]
    rw [ih (fun q hq => hne q (by simp [hq])), update_route _ t p (hne p (by simp))]



/-! ## `flatten` returns the rows of the specification -/

/-- On `s`, `flatten` fails only where the specification has no rows, and when
it returns its pointers are good pointers to the rows of the specification. -/
def Coherent (m : Int) (s : Stats F) : Prop :=
  (∀ e, flatten m s = .error e → flattenSpec m s = none) ∧
    ∀ flat s1, flatten m s = .ok (flat, s1) →
      ∃ rs, flattenSpec m s = some rs ∧ Good flat s1 rs

theorem flattenXxx_coherent (m : Int) (l : List (String × Stats F))
    (h : ∀ kv ∈ l, Coherent m kv.2) :
    (∀ e, flattenXxx m l = .error e → specWildcard m l = none) ∧
      ∀ ps l1, flattenXxx m l = .ok (ps, l1) →
        ∃ rs, specWildcard m l = some rs ∧ GoodIn ps l1 rs := by
  induction l with
  | nil =>
    constructor
    · intro e _
      simp [specWildcard]
    · intro ps l1 he
      simp [flattenXxx] at he
  | cons kv rest ih =>
    obtain ⟨k, v⟩ := kv
    have hv := h (k, v) (by simp)
    have hrest := ih (fun kv hkv => h kv (by simp [hkv]))
    by_cases hk : k = "xxx"
    · constructor
      · intro e he
        simp only [flattenXxx, hk, if_true] at he
        simp only [specWildcard, hk, if_true]
        cases hf : flatten m v with
        | error e1 => exact hv.1 e1 hf
        | ok r =>
          rw [hf] at he
          simp at he
      · intro ps l1 he
        simp only [flattenXxx, hk, if_true] at he
        cases hf : flatten m v with
        | error e1 =>
          rw [hf] at he
          simp at he
        | ok r =>
          obtain ⟨qs, v1⟩ := r
          rw [hf] at he
          simp only [Except.ok.injEq, Prod.mk.injEq] at he
          obtain ⟨rfl, rfl⟩ := he
          obtain ⟨rs, hrs, hg⟩ := hv.2 qs v1 hf
          refine ⟨rs, by simp [specWildcard, hk, hrs], ?_⟩
          rw [← hk]
          exact GoodIn.head hg k rest
    · constructor
      · intro e he
        simp only [flattenXxx, hk, if_false] at he
        simp only [specWildcard, hk, if_false]
        cases hf : flattenXxx m rest with
        | error e1 => exact hrest.1 e1 hf
        | ok r =>
          rw [hf] at he
          simp at he
      · intro ps l1 he
        simp only [flattenXxx, hk, if_false] at he
        cases hf : flattenXxx m rest with
        | error e1 =>
          rw [hf] at he
          simp at he
        | ok r =>
          obtain ⟨qs, rest1⟩ := r
          rw [hf] at he
          simp only [Except.ok.injEq, Prod.mk.injEq] at he
          obtain ⟨rfl, rfl⟩ := he
          obtain ⟨rs, hrs, hg⟩ := hrest.2 qs rest1 hf
          exact ⟨rs, by simp [specWildcard, hk, hrs], GoodIn.tail hg (k, v)⟩

theorem flattenRange_coherent (m : Int) (single : Bool) (l : List (String × Stats F))
    (h : ∀ kv ∈ l, Coherent m kv.2) :
    (∀ e, flattenRange m single l = .error e → specChildren m single l = none) ∧
      ∀ ps l1, flattenRange m single l = .ok (ps, l1) →
        ∃ rs, specChildren m single l = some rs ∧ GoodIn ps l1 rs := by
  induction l with
  | nil =>
    constructor
    · intro e he
      simp [flattenRange] at he
    · intro ps l1 he
      simp only [flattenRange, Except.ok.injEq, Prod.mk.injEq] at he
      obtain ⟨rfl, rfl⟩ := he
      exact ⟨[], by simp [specChildren], by simp [GoodIn]⟩
  | cons kv rest ih =>
    obtain ⟨k, v⟩ := kv
    have hv := h (k, v) (by simp)
    have hrest := ih (fun kv hkv => h kv (by simp [hkv]))
    by_cases hk : k ≠ "xxx" ∨ single = true
    · constructor
      · intro e he
        simp only [flattenRange, hk, if_true] at he
        simp only [specChildren, hk, if_true]
        cases hf : flatten m v with
        | error e1 => simp [hv.1 e1 hf]
        | ok r =>
          obtain ⟨ps, v1⟩ := r
          obtain ⟨a, ha, -⟩ := hv.2 ps v1 hf
          rw [hf] at he
          cases hg : flattenRange m single rest with
          | error e1 => simp [ha, hrest.1 e1 hg]
          | ok r2 =>
            rw [hg] at he
            simp at he
      · intro ps l1 he
        simp only [flattenRange, hk, if_true] at he
        cases hf : flatten m v with
        | error e1 =>
          rw [hf] at he
          simp at he
        | ok r =>
          obtain ⟨ps0, v1⟩ := r
          rw [hf] at he
          cases hg : flattenRange m single rest with
          | error e1 =>
            rw [hg] at he
            simp at he
          | ok r2 =>
            obtain ⟨qs, rest1⟩ := r2
            rw [hg] at he
            simp only [Except.ok.injEq, Prod.mk.injEq] at he
            obtain ⟨rfl, rfl⟩ := he
            obtain ⟨a, ha, hga⟩ := hv.2 ps0 v1 hf
            obtain ⟨b, hb, hgb⟩ := hrest.2 qs rest1 hg
            exact ⟨a ++ b, by simp [specChildren, hk, ha, hb], GoodIn.append hga hgb k⟩
    · constructor
      · intro e he
        simp only [flattenRange, hk, if_false] at he
        simp only [specChildren, hk, if_false]
        cases hg : flattenRange m single rest with
        | error e1 => exact hrest.1 e1 hg
        | ok r2 =>
          rw [hg] at he
          simp at he
      · intro ps l1 he
        simp only [flattenRange, hk, if_false] at he
        cases hg : flattenRange m single rest with
        | error e1 =>
          rw [hg] at he
          simp at he
        | ok r2 =>
          obtain ⟨qs, rest1⟩ := r2
          rw [hg] at he
          simp only [Except.ok.injEq, Prod.mk.injEq] at he
          obtain ⟨rfl, rfl⟩ := he
          obtain ⟨b, hb, hgb⟩ := hrest.2 qs rest1 hg
          exact ⟨b, by simp [specChildren, hk, hb], GoodIn.tail hgb (k, v)⟩

/-- The shared tail of the two branches of `flatten`: the rows its pointers
point to once the closing loop has run. -/
theorem prefixRoutes_good (route : String) (merged : Bool) (call e5 e4 : Nat) (dur : F)
    (flat : List Ptr) (subs1 : List (String × Stats F)) (rs : List (Stats F))
    (hg : GoodIn flat subs1 rs) :
    Good flat (prefixRoutes flat (.mk route merged subs1 call e5 e4 dur))
      (rs.map (addPrefix route)) := by
  rw [prefixRoutes_eq flat hg.ne_nil]
  exact (hg.toGood route merged call e5 e4 dur).foldl_update (addPrefix route)
    (fun n hn => by rw [addPrefix_subRoutes, hn])

theorem flatten_coherent (m : Int) (hm : 0 < m) (s : Stats F) : Coherent m s := by
  induction s using Stats.induct with
  | h route merged subs call e5 e4 dur ih =>
    by_cases h0 : subs.length = 0
    · constructor
      · intro e he
        simp [flatten, h0] at he
      · intro flat s1 he
        simp only [flatten, h0, if_true, Except.ok.injEq, Prod.mk.injEq] at he
        obtain ⟨rfl, rfl⟩ := he
        refine ⟨[.mk route merged subs call e5 e4 dur], by simp [flattenSpec, h0], ?_⟩
        refine ⟨by simp [deref_nil], ?_, by simp⟩
        intro n hn
        simp only [List.mem_singleton] at hn
        subst hn
        exact List.length_eq_zero.1 h0
    · have hm0 : m ≠ 0 := ne_of_gt hm
      have hdiv : Int.tdiv (call : Int) m = (call : Int) / m :=
        Int.tdiv_eq_ediv (Int.ofNat_nonneg _) (le_of_lt hm)
      by_cases hc : (subs.length : Int) > (call : Int) / m
      · have hx := flattenXxx_coherent m subs ih
        constructor
        · intro e he
          simp only [flatten, h0, hm0, if_false, hdiv, hc, if_true] at he
          simp only [flattenSpec, h0, if_false, hc, if_true]
          cases hf : flattenXxx m subs with
          | error e1 => simp [hx.1 e1 hf]
          | ok r =>
            rw [hf] at he
            simp at he
        · intro flat s1 he
          simp only [flatten, h0, hm0, if_false, hdiv, hc, if_true] at he
          cases hf : flattenXxx m subs with
          | error e1 =>
            rw [hf] at he
            simp at he
          | ok r =>
            obtain ⟨ps, subs1⟩ := r
            rw [hf] at he
            simp only [Except.ok.injEq, Prod.mk.injEq] at he
            obtain ⟨rfl, rfl⟩ := he
            obtain ⟨rs, hrs, hg⟩ := hx.2 ps subs1 hf
            exact ⟨rs.map (addPrefix route), by simp [flattenSpec, h0, hc, hrs],
              prefixRoutes_good route merged call e5 e4 dur ps subs1 rs hg⟩
      · have hx := flattenRange_coherent m (subs.length == 1) subs ih
        constructor
        · intro e he
          simp only [flatten, h0, hm0, if_false, hdiv, hc] at he
          simp only [flattenSpec, h0, if_false, hc]
          cases hf : flattenRange m (subs.length == 1) subs with
          | error e1 => simp [hx.1 e1 hf]
          | ok r =>
            rw [hf] at he
            simp at he
        · intro flat s1 he
          simp only [flatten, h0, hm0, if_false, hdiv, hc] at he
          cases hf : flattenRange m (subs.length == 1) subs with
          | error e1 =>
            rw [hf] at he
            simp at he
          | ok r =>
            obtain ⟨ps, subs1⟩ := r
            rw [hf] at he
            simp only [Except.ok.injEq, Prod.mk.injEq] at he
            obtain ⟨rfl, rfl⟩ := he
            obtain ⟨rs, hrs, hg⟩ := hx.2 ps subs1 hf
            exact ⟨rs.map (addPrefix route), by simp [flattenSpec, h0, hc, hrs],
              prefixRoutes_good route merged call e5 e4 dur ps subs1 rs hg⟩

/-- The rows `flatten` returns are the rows of the specification, and it fails
exactly where the specification has none. -/
theorem flattenRows_eq_spec (m : Int) (hm : 0 < m) (s : Stats F) :
    (flattenRows m s).toOption = flattenSpec m s := by
  have h := flatten_coherent m hm s
  unfold flattenRows
  cases hf : flatten m s with
  | error e =>
    rw [h.1 e hf]
    rfl
  | ok r =>
    obtain ⟨flat, s1⟩ := r
    obtain ⟨rs, hrs, hg⟩ := h.2 flat s1 hf
    rw [hrs]
    simp only [Except.map, Except.toOption, rows]
    rw [filterMap_of_map_some _ _ _ hg.1]

/-! ## `flatten` succeeds on the trees `addRequest` builds -/

theorem specWildcard_eq (m : Int) (l : List (String × Stats F)) :
    specWildcard m l = (mapGet l "xxx").bind (flattenSpec m) := by
  induction l with
  | nil => simp [specWildcard, mapGet]
  | cons kv rest ih =>
    obtain ⟨k, v⟩ := kv
    by_cases hk : k = "xxx"
    · simp [specWildcard, mapGet, hk]
    · simp [specWildcard, mapGet, hk, ih]

theorem specChildren_isSome (m : Int) (single : Bool) (l : List (String × Stats F))
    (h : ∀ kv ∈ l, ∃ rs, flattenSpec m kv.2 = some rs) :
    ∃ rs, specChildren m single l = some rs := by
  induction l with
  | nil => exact ⟨[], by simp [specChildren]⟩
  | cons kv rest ih =>
    obtain ⟨k, v⟩ := kv
    obtain ⟨a, ha⟩ := h (k, v) (by simp)
    obtain ⟨b, hb⟩ := ih (fun kv hkv => h kv (by simp [hkv]))
    by_cases hk : k ≠ "xxx" ∨ single = true
    · exact ⟨a ++ b, by simp [specChildren, hk, ha, hb]⟩
    · exact ⟨b, by simp [specChildren, hk, hb]⟩

/-- A node that has children has a child under "xxx". -/
def wildcardPresent (n : Stats F) : Prop :=
  n.subRoutes ≠ [] → ∃ x, mapGet n.subRoutes "xxx" = some x

theorem flattenSpec_isSome (m : Int) (s : Stats F)
    (h : ∀ n ∈ s.nodes, wildcardPresent n) : ∃ rs, flattenSpec m s = some rs := by
  induction s using Stats.induct with
  | h route merged subs call e5 e4 dur ih =>
    have hkids : ∀ kv ∈ subs, ∃ rs, flattenSpec m kv.2 = some rs := by
      intro kv hkv
      refine ih kv hkv (fun n hn => h n ?_)
      simp only [Stats.nodes, List.mem_cons]
      exact Or.inr (nodesOf_mem subs kv.1 kv.2 n hkv hn)
    by_cases h0 : subs.length = 0
    · exact ⟨[.mk route merged subs call e5 e4 dur], by simp [flattenSpec, h0]⟩
    · by_cases hc : (subs.length : Int) > (call : Int) / m
      · have hroot := h _ (nodes_self _)
        obtain ⟨x, hx⟩ := hroot (fun hnil => h0 (by
          simp [Stats.subRoutes] at hnil
          simp [hnil]))
        simp only [Stats.subRoutes] at hx
        obtain ⟨rs, hrs⟩ := hkids ("xxx", x) (mapGet_mem subs "xxx" x hx)
        exact ⟨rs.map (addPrefix route), by
          simp [flattenSpec, h0, hc, specWildcard_eq, hx, hrs]⟩
      · obtain ⟨rs, hrs⟩ := specChildren_isSome m (subs.length == 1) subs hkids
        exact ⟨rs.map (addPrefix route), by simp [flattenSpec, h0, hc, hrs]⟩

/-- Where the specification has rows, `flatten` returns. -/
theorem flatten_ok_of_spec (m : Int) (hm : 0 < m) (s : Stats F) (rs : List (Stats F))
    (h : flattenSpec m s = some rs) :
    ∃ flat s1, flatten m s = .ok (flat, s1) ∧ Good flat s1 rs := by
  have hco := flatten_coherent m hm s
  cases hf : flatten m s with
  | error e =>
    rw [hco.1 e hf] at h
    cases h
  | ok r =>
    obtain ⟨flat, s1⟩ := r
    obtain ⟨rs1, hrs1, hg⟩ := hco.2 flat s1 hf
    rw [h] at hrs1
    cases hrs1
    exact ⟨flat, s1, rfl, hg⟩

section Built

variable [Add F] [Zero F]

theorem addRequests_wildcardPresent (reqs : List (String × String × F)) :
    ∀ n ∈ (addRequests (Stats.empty : Stats F) reqs).nodes, wildcardPresent n := by
  refine addRequests_all wildcardPresent (fun _ => True) (fun _ _ _ => trivial) ?_ ?_ reqs
    (fun _ _ => trivial)
  · intro h
    exact absurd rfl h
  · intro segs s label status d _ hs
    have hroot := hs s (nodes_self s)
    cases s with
    | mk route merged subs call e5 e4 dur =>
      cases segs with
      | nil =>
        rw [addParts_nil]
        exact hroot
      | cons p1 rest =>
        by_cases hp : p1 = ""
        · subst hp
          rw [addParts_cons_stop]
          exact hroot
        · by_cases hm : (highCard p1 || merged) = true
          · rw [addParts_cons_merged _ _ _ _ _ _ _ _ _ _ _ _ hp hm]
            intro _
            exact ⟨_, mapGet_mapSet_self _ _ _⟩
          · simp only [Bool.or_eq_true, not_or, Bool.not_eq_true] at hm
            obtain ⟨hc, hm⟩ := hm
            subst hm
            rw [addParts_cons_literal _ _ _ _ _ _ _ _ _ _ _ hp hc]
            intro _
            simp only [Stats.subRoutes]
            by_cases hx : p1 = "xxx"
            · subst hx
              exact ⟨_, mapGet_mapSet_self _ _ _⟩
            · have h1 : mapGet (childStep rest (childStep rest subs "xxx" status d) p1
                  status d) "xxx" =
                  some (addParts rest ((mapGet subs "xxx").getD Stats.empty) "xxx"
                    status d) := by
                unfold childStep
                rw [mapGet_mapSet_ne _ _ _ _ hx, mapGet_mapSet_self]
              exact ⟨_, h1⟩

/-- On a tree built from the empty root, with a positive merge factor,
`flatten` returns, and what it returns are good pointers to the rows of the
specification. -/
theorem flatten_built (reqs : List (String × String × F)) (m : Int) (hm : 0 < m) :
    ∃ flat s1 rs, flatten m (addRequests (Stats.empty : Stats F) reqs) = .ok (flat, s1) ∧
      flattenSpec m (addRequests (Stats.empty : Stats F) reqs) = some rs ∧
      Good flat s1 rs := by
  obtain ⟨rs, hrs⟩ := flattenSpec_isSome m _ (addRequests_wildcardPresent reqs)
  obtain ⟨flat, s1, hf, hg⟩ := flatten_ok_of_spec m hm _ rs hrs
  exact ⟨flat, s1, rs, hf, hrs, hg⟩

end Built

/-! ## Whether the node itself is among the rows -/

/-- A childless node is returned as the only row, untouched. -/
theorem flatten_leaf (m : Int) (s : Stats F) (h : s.subRoutes = []) :
    flatten m s = .ok ([[]], s) := by
  cases s with
  | mk route merged subs call e5 e4 dur =>
    simp only [Stats.subRoutes] at h
    subst h
    simp [flatten]

/-- A node with children is not among the pointers `flatten` returns. -/
theorem flatten_inner (m : Int) (hm : 0 < m) (s : Stats F) (h : s.subRoutes ≠ [])
    (flat : List Ptr) (s1 : Stats F) (hf : flatten m s = .ok (flat, s1)) : [] ∉ flat := by
  cases s with
  | mk route merged subs call e5 e4 dur =>
    simp only [Stats.subRoutes] at h
    have h0 : ¬ subs.length = 0 := fun h0 => h (List.length_eq_zero.1 h0)
    have hm0 : m ≠ 0 := ne_of_gt hm
    have hkids : ∀ kv ∈ subs, Coherent m kv.2 := fun kv _ => flatten_coherent m hm kv.2
    by_cases hc : (subs.length : Int) > Int.tdiv (call : Int) m
    · simp only [flatten, h0, hm0, if_false, hc, if_true] at hf
      cases hx : flattenXxx m subs with
      | error e =>
        rw [hx] at hf
        simp at hf
      | ok r =>
        obtain ⟨ps, subs1⟩ := r
        rw [hx] at hf
        simp only [Except.ok.injEq, Prod.mk.injEq] at hf
        obtain ⟨rs, -, hg⟩ := (flattenXxx_coherent m subs hkids).2 ps subs1 hx
        rw [← hf.1]
        exact fun hmem => hg.ne_nil [] hmem rfl
    · simp only [flatten, h0, hm0, if_false, hc] at hf
      cases hx : flattenRange m (subs.length == 1) subs with
      | error e =>
        rw [hx] at hf
        simp at hf
      | ok r =>
        obtain ⟨ps, subs1⟩ := r
        rw [hx] at hf
        simp only [Except.ok.injEq, Prod.mk.injEq] at hf
        obtain ⟨rs, -, hg⟩ :=
          (flattenRange_coherent m (subs.length == 1) subs hkids).2 ps subs1 hx
        rw [← hf.1]
        exact fun hmem => hg.ne_nil [] hmem rfl

theorem call_mk (r : String) (b : Bool) (l : List (String × Stats F)) (c e5 e4 : Nat)
    (d : F) : (Stats.mk r b l c e5 e4 d).call = c :=
  rfl

theorem subRoutes_mk (r : String) (b : Bool) (l : List (String × Stats F)) (c e5 e4 : Nat)
    (d : F) : (Stats.mk r b l c e5 e4 d).subRoutes = l :=
  rfl

theorem route_mk (r : String) (b : Bool) (l : List (String × Stats F)) (c e5 e4 : Nat)
    (d : F) : (Stats.mk r b l c e5 e4 d).route = r :=
  rfl

/-! ## Coverage: the calls of the rows against the calls of the node -/

/-- The calls of the literal children of a map, added up. -/
def litCalls : List (String × Stats F) → Nat
  | [] => 0
  | (k, v) :: rest => (if k = "xxx" then 0 else v.call) + litCalls rest

/-- The requests handed to the wildcard child, and those handed to the literal
children together, are no more than the requests the node received. -/
def callsBounded (n : Stats F) : Prop :=
  (∀ x, mapGet n.subRoutes "xxx" = some x → x.call ≤ n.call) ∧
    litCalls n.subRoutes ≤ n.call

/-- The calls of a list of rows, added up. -/
def sumCalls (rs : List (Stats F)) : Nat :=
  (rs.map Stats.call).sum

theorem litCalls_mapSet_xxx (l : List (String × Stats F)) (v : Stats F) :
    litCalls (mapSet l "xxx" v) = litCalls l := by
  induction l with
  | nil => simp [mapSet, litCalls]
  | cons kv rest ih =>
    obtain ⟨k, w⟩ := kv
    by_cases hk : k = "xxx"
    · simp [mapSet, litCalls, hk]
    · simp [mapSet, litCalls, hk, ih]

theorem litCalls_mapSet_lit (l : List (String × Stats F)) (k : String) (v old : Stats F)
    (hk : k ≠ "xxx") (hold : ∀ x, mapGet l k = some x → x.call = old.call)
    (hnone : mapGet l k = none → old.call = 0) :
    litCalls (mapSet l k v) + old.call = litCalls l + v.call := by
  induction l with
  | nil =>
    have := hnone (by simp [mapGet])
    simp [mapSet, litCalls, hk, this]
  | cons kv rest ih =>
    obtain ⟨k1, w⟩ := kv
    by_cases h1 : k1 = k
    · subst h1
      have := hold w (by simp [mapGet])
      simp only [mapSet, if_true, litCalls, hk, if_false]
      omega
    · have ih1 := ih (fun x hx => hold x (by simpa [mapGet, h1] using hx))
        (fun hx => hnone (by simpa [mapGet, h1] using hx))
      simp only [mapSet, h1, if_false, litCalls]
      omega

theorem sumCalls_map_addPrefix (r : String) (rs : List (Stats F)) :
    sumCalls (rs.map (addPrefix r)) = sumCalls rs := by
  unfold sumCalls
  rw [List.map_map]
  congr 1
  apply List.map_congr_left
  intro n _
  cases n
  rfl

theorem sumCalls_append (a b : List (Stats F)) :
    sumCalls (a ++ b) = sumCalls a + sumCalls b := by
  simp [sumCalls]

theorem specChildren_sumCalls (m : Int) (l : List (String × Stats F))
    (h : ∀ kv ∈ l, ∀ rs, flattenSpec m kv.2 = some rs → sumCalls rs ≤ kv.2.call) :
    ∀ rs, specChildren m false l = some rs → sumCalls rs ≤ litCalls l := by
  induction l with
  | nil =>
    intro rs hrs
    simp only [specChildren, Option.some.injEq] at hrs
    subst hrs
    simp [sumCalls]
  | cons kv rest ih =>
    obtain ⟨k, v⟩ := kv
    have ih1 := ih (fun kv hkv => h kv (by simp [hkv]))
    intro rs hrs
    by_cases hk : k = "xxx"
    · simp only [specChildren, hk, ne_eq, not_true_eq_false, Bool.false_eq_true, or_self,
        if_false] at hrs
      have := ih1 rs hrs
      simp only [litCalls, hk, if_true]
      omega
    · simp only [specChildren, ne_eq, hk, not_false_eq_true, true_or, if_true] at hrs
      cases ha : flattenSpec m v with
      | none => simp [ha] at hrs
      | some a =>
        cases hb : specChildren m false rest with
        | none => simp [ha, hb] at hrs
        | some b =>
          simp only [ha, hb, Option.some.injEq] at hrs
          subst hrs
          have h1 := h (k, v) (by simp) a ha
          have h2 := ih1 b hb
          simp only [litCalls, hk, if_false, sumCalls_append]
          simp only at h1
          omega

/-- On a tree where no node has handed down more requests than it received,
the rows of a node do not add up to more calls than the node has. -/
theorem flattenSpec_sumCalls (m : Int) (s : Stats F)
    (h : ∀ n ∈ s.nodes, callsBounded n) :
    ∀ rs, flattenSpec m s = some rs → sumCalls rs ≤ s.call := by
  induction s using Stats.induct with
  | h route merged subs call e5 e4 dur ih =>
    have hkids : ∀ kv ∈ subs, ∀ rs, flattenSpec m kv.2 = some rs →
        sumCalls rs ≤ kv.2.call := by
      intro kv hkv
      refine ih kv hkv (fun n hn => h n ?_)
      simp only [Stats.nodes, List.mem_cons]
      exact Or.inr (nodesOf_mem subs kv.1 kv.2 n hkv hn)
    obtain ⟨hx, hl⟩ := h _ (nodes_self _)
    simp only [subRoutes_mk, call_mk] at hx hl
    intro rs hrs
    simp only [call_mk]
    by_cases h0 : subs.length = 0
    · simp only [flattenSpec, h0, if_true, Option.some.injEq] at hrs
      subst hrs
      simp [sumCalls, call_mk]
    · by_cases hc : (subs.length : Int) > (call : Int) / m
      · simp only [flattenSpec, h0, if_false, hc, if_true, specWildcard_eq] at hrs
        cases hg : mapGet subs "xxx" with
        | none => simp [hg] at hrs
        | some x =>
          cases hr : flattenSpec m x with
          | none => simp [hg, hr] at hrs
          | some rs0 =>
            simp only [hg, hr, Option.some_bind, Option.map_some', Option.some.injEq] at hrs
            subst hrs
            rw [sumCalls_map_addPrefix]
            have h1 := hkids ("xxx", x) (mapGet_mem subs "xxx" x hg) rs0 hr
            have h2 := hx x hg
            simp only at h1
            omega
      · simp only [flattenSpec, h0, if_false, hc] at hrs
        cases hr : specChildren m (subs.length == 1) subs with
        | none => simp [hr] at hrs
        | some rs0 =>
          simp only [hr, Option.map_some', Option.some.injEq] at hrs
          subst hrs
          rw [sumCalls_map_addPrefix]
          by_cases h1 : subs.length = 1
          · obtain ⟨kv, hkv⟩ := List.length_eq_one.1 h1
            obtain ⟨k, v⟩ := kv
            subst hkv
            simp only [List.length_singleton, beq_self_eq_true, specChildren, or_true,
              if_true] at hr
            cases ha : flattenSpec m v with
            | none => simp [ha] at hr
            | some a =>
              simp only [ha, List.append_nil, Option.some.injEq] at hr
              subst hr
              have h2 := hkids (k, v) (by simp) a ha
              simp only at h2
              by_cases hk : k = "xxx"
              · have := hx v (by simp [mapGet, hk])
                omega
              · simp only [litCalls, hk, if_false] at hl
                omega
          · have hb : (subs.length == 1) = false := by simpa using h1
            rw [hb] at hr
            have := specChildren_sumCalls m subs hkids rs0 hr
            omega

section Built

variable [Add F] [Zero F]

/-- No segment of the request is the reserved name "xxx". -/
def noXxx (segs : List String) : Prop :=
  "xxx" ∉ segs

theorem addRequests_callsBounded (reqs : List (String × String × F))
    (hreqs : ∀ r ∈ reqs, noXxx (split r.1).tail) :
    ∀ n ∈ (addRequests (Stats.empty : Stats F) reqs).nodes, callsBounded n := by
  refine addRequests_all callsBounded noXxx ?_ ?_ ?_ reqs hreqs
  · intro p rest h hmem
    exact h (by simp [hmem])
  · constructor
    · intro x hx
      simp [Stats.empty, Stats.subRoutes, mapGet] at hx
    · simp [Stats.empty, Stats.subRoutes, litCalls]
  · intro segs s label status d hq hs
    obtain ⟨hx, hl⟩ := hs s (nodes_self s)
    cases s with
    | mk route merged subs call e5 e4 dur =>
      simp only [subRoutes_mk, call_mk] at hx hl
      have hxnew : ∀ (rest : List String) (x : Stats F),
          mapGet (childStep rest subs "xxx" status d) "xxx" = some x → x.call ≤ call + 1 := by
        intro rest x hget
        unfold childStep at hget
        rw [mapGet_mapSet_self] at hget
        cases hget
        rw [addParts_call]
        cases hg : mapGet subs "xxx" with
        | none => simp [Stats.empty, Stats.call]
        | some y =>
          have := hx y hg
          simpa using this
      cases segs with
      | nil =>
        rw [addParts_nil]
        constructor
        · intro x hget
          have := hx x hget
          simp only [call_mk]
          omega
        · simp only [subRoutes_mk, call_mk]
          omega
      | cons p1 rest =>
        by_cases hp : p1 = ""
        · subst hp
          rw [addParts_cons_stop]
          constructor
          · intro x hget
            have := hx x hget
            simp only [call_mk]
            omega
          · simp only [subRoutes_mk, call_mk]
            omega
        · by_cases hm : (highCard p1 || merged) = true
          · rw [addParts_cons_merged _ _ _ _ _ _ _ _ _ _ _ _ hp hm]
            constructor
            · exact hxnew rest
            · simp only [subRoutes_mk, call_mk]
              unfold childStep
              rw [litCalls_mapSet_xxx]
              omega
          · simp only [Bool.or_eq_true, not_or, Bool.not_eq_true] at hm
            obtain ⟨hc, hm⟩ := hm
            subst hm
            have hpx : p1 ≠ "xxx" := fun h => hq (by simp [h])
            rw [addParts_cons_literal _ _ _ _ _ _ _ _ _ _ _ hp hc]
            constructor
            · intro x hget
              simp only [subRoutes_mk] at hget
              have hget2 : mapGet (childStep rest subs "xxx" status d) "xxx" = some x := by
                rw [← hget]
                unfold childStep
                rw [mapGet_mapSet_ne _ _ _ _ hpx]
              exact hxnew rest x hget2
            · simp only [subRoutes_mk, call_mk]
              have key := litCalls_mapSet_lit (childStep rest subs "xxx" status d) p1
                (addParts rest ((mapGet (childStep rest subs "xxx" status d) p1).getD
                  Stats.empty) p1 status d)
                ((mapGet (childStep rest subs "xxx" status d) p1).getD Stats.empty) hpx
                (fun x hx => by rw [hx]; rfl) (fun hx => by rw [hx]; rfl)
              rw [addParts_call] at key
              have hxx : litCalls (childStep rest subs "xxx" status d) = litCalls subs := by
                unfold childStep
                exact litCalls_mapSet_xxx _ _
              rw [hxx] at key
              have hfold : childStep rest (childStep rest subs "xxx" status d) p1 status d =
                  mapSet (childStep rest subs "xxx" status d) p1
                    (addParts rest ((mapGet (childStep rest subs "xxx" status d) p1).getD
                      Stats.empty) p1 status d) := rfl
              rw [hfold]
              omega

end Built

theorem flattenSpec_leaf (m : Int) (s : Stats F) (h : s.subRoutes = []) :
    flattenSpec m s = some [s] := by
  cases s with
  | mk route merged subs call e5 e4 dur =>
    simp only [subRoutes_mk] at h
    subst h
    simp [flattenSpec]

/-- The rows of a `flatten` result whose pointers are good. -/
theorem rows_of_good (flat : List Ptr) (s1 : Stats F) (rs : List (Stats F))
    (hg : Good flat s1 rs) : rows (flat, s1) = rs :=
  filterMap_of_map_some _ _ _ hg.1

theorem flattenRows_of_ok (m : Int) (s s1 : Stats F) (flat : List Ptr) (rs : List (Stats F))
    (hf : flatten m s = .ok (flat, s1)) (hg : Good flat s1 rs) :
    flattenRows m s = .ok rs := by
  unfold flattenRows
  rw [hf]
  simp only [Except.map]
  rw [rows_of_good flat s1 rs hg]

/-! ## What `flatten` leaves of the tree -/

mutual

/-- The tree without the labels of its childless nodes: every counter, flag,
duration and key, and the label of every node that has children. -/
def skeleton : Stats F → Stats F
  | .mk route merged subs call e5 e4 dur =>
    .mk (if subs.length = 0 then "" else route) merged (skeletonOf subs) call e5 e4 dur

/-- The children map with each child replaced by its skeleton. -/
def skeletonOf : List (String × Stats F) → List (String × Stats F)
  | [] => []
  | (k, v) :: rest => (k, skeleton v) :: skeletonOf rest

end

/-- A row without its label: the counters and the rest of the node. -/
def eraseRoute (n : Stats F) : Stats F :=
  n.setRoute ""

theorem skeletonOf_length (l : List (String × Stats F)) :
    (skeletonOf l).length = l.length := by
  induction l with
  | nil => rfl
  | cons kv rest ih =>
    obtain ⟨k, v⟩ := kv
    simp [skeletonOf, ih]

theorem skeletonOf_set (l : List (String × Stats F)) (i : Nat) (k : String)
    (v w : Stats F) (hi : l[i]? = some (k, v)) (hw : skeleton w = skeleton v) :
    skeletonOf (l.set i (k, w)) = skeletonOf l := by
  induction l generalizing i with
  | nil => simp at hi
  | cons kv rest ih =>
    obtain ⟨k1, v1⟩ := kv
    cases i with
    | zero =>
      simp only [List.getElem?_cons_zero, Option.some.injEq, Prod.mk.injEq] at hi
      obtain ⟨rfl, rfl⟩ := hi
      simp [skeletonOf, hw]
    | succ i =>
      simp only [List.getElem?_cons_succ] at hi
      simp [skeletonOf, ih i hi]

theorem skeleton_setSubRoutes (t : Stats F) (l : List (String × Stats F))
    (hl : skeletonOf l = skeletonOf t.subRoutes) :
    skeleton (t.setSubRoutes l) = skeleton t := by
  cases t with
  | mk route merged subs call e5 e4 dur =>
    simp only [subRoutes_mk] at hl
    have hlen : l.length = subs.length := by
      rw [← skeletonOf_length l, hl, skeletonOf_length]
    simp only [Stats.setSubRoutes, skeleton, hl, hlen]

/-- Putting a prefix on the label of a childless node leaves the skeleton. -/
theorem skeleton_update_leaf (r : String) (p : Ptr) :
    ∀ (t n : Stats F), t.deref p = some n → n.subRoutes = [] →
      skeleton (t.update (addPrefix r) p) = skeleton t := by
  induction p with
  | nil =>
    intro t n h hl
    rw [deref_nil] at h
    cases h
    rw [update_nil]
    cases t with
    | mk route merged subs call e5 e4 dur =>
      simp only [subRoutes_mk] at hl
      subst hl
      simp [addPrefix, Stats.setRoute, skeleton]
  | cons i p ih =>
    intro t n h hl
    rw [deref_cons] at h
    rw [update_cons]
    cases hi : t.subRoutes[i]? with
    | none => simp [hi] at h
    | some kv =>
      obtain ⟨k, v⟩ := kv
      simp only [hi, Option.some_bind] at h
      exact skeleton_setSubRoutes t _ (skeletonOf_set _ i k v _ hi (ih v n h hl))

/-- After writing through one pointer to a leaf, the other pointers of a
duplicate-free list still point to leaves. -/
theorem leaves_after_update (f : Stats F → Stats F) (q : Ptr) (qs : List Ptr) (t : Stats F)
    (hq : q ∉ qs) (hall : ∀ x ∈ q :: qs, ∃ n, t.deref x = some n ∧ n.subRoutes = []) :
    ∀ x ∈ qs, ∃ n, (t.update f q).deref x = some n ∧ n.subRoutes = [] := by
  intro x hx
  obtain ⟨nq, hnq, hlq⟩ := hall q (by simp)
  obtain ⟨n, hn, hl⟩ := hall x (by simp [hx])
  exact ⟨n, deref_update_other f q x t nq n (fun h => hq (h ▸ hx)) hnq hn hlq hl, hl⟩

theorem skeleton_foldl_update (r : String) (qs : List Ptr) :
    ∀ t : Stats F, qs.Nodup → (∀ q ∈ qs, ∃ n, t.deref q = some n ∧ n.subRoutes = []) →
      skeleton (qs.foldl (fun u p => u.update (addPrefix r) p) t) = skeleton t := by
  induction qs with
  | nil => intro t _ _; rfl
  | cons q qs ih =>
    intro t hnd hall
    obtain ⟨nq, hnq, hlq⟩ := hall q (by simp)
    simp only [List.foldl_cons]
    rw [ih _ (List.nodup_cons.1 hnd).2
      (leaves_after_update _ q qs t (List.nodup_cons.1 hnd).1 hall),
      skeleton_update_leaf r q t nq hnq hlq]

theorem Good.leaves {ps : List Ptr} {t : Stats F} {rs : List (Stats F)} (h : Good ps t rs) :
    ∀ q ∈ ps, ∃ n, t.deref q = some n ∧ n.subRoutes = [] := by
  intro q hq
  obtain ⟨n, hn, hq⟩ := map_eq_map_some _ _ _ h.1 q hq
  exact ⟨n, hq, h.2.1 n hn⟩

theorem skeleton_prefixRoutes (route : String) (merged : Bool) (call e5 e4 : Nat) (dur : F)
    (flat : List Ptr) (subs1 : List (String × Stats F)) (rs : List (Stats F))
    (hg : GoodIn flat subs1 rs) :
    skeleton (prefixRoutes flat (.mk route merged subs1 call e5 e4 dur)) =
      skeleton (.mk route merged subs1 call e5 e4 dur) := by
  rw [prefixRoutes_eq flat hg.ne_nil]
  have hgood := hg.toGood route merged call e5 e4 dur
  exact skeleton_foldl_update _ flat _ hgood.2.2 hgood.leaves

theorem skeleton_mk_congr (route : String) (merged : Bool) (call e5 e4 : Nat) (dur : F)
    (l l1 : List (String × Stats F)) (h : skeletonOf l1 = skeletonOf l) :
    skeleton (.mk route merged l1 call e5 e4 dur) =
      skeleton (.mk route merged l call e5 e4 dur) := by
  have hlen : l1.length = l.length := by
    rw [← skeletonOf_length l1, h, skeletonOf_length]
  simp only [skeleton, h, hlen]

theorem flattenXxx_skeleton (m : Int) (l : List (String × Stats F))
    (h : ∀ kv ∈ l, ∀ flat s1, flatten m kv.2 = .ok (flat, s1) →
      skeleton s1 = skeleton kv.2) :
    ∀ ps l1, flattenXxx m l = .ok (ps, l1) → skeletonOf l1 = skeletonOf l := by
  induction l with
  | nil =>
    intro ps l1 he
    simp [flattenXxx] at he
  | cons kv rest ih =>
    obtain ⟨k, v⟩ := kv
    have hv := h (k, v) (by simp)
    have hrest := ih (fun kv hkv => h kv (by simp [hkv]))
    intro ps l1 he
    by_cases hk : k = "xxx"
    · simp only [flattenXxx, hk, if_true] at he
      cases hf : flatten m v with
      | error e1 =>
        rw [hf] at he
        simp at he
      | ok r =>
        obtain ⟨qs, v1⟩ := r
        rw [hf] at he
        simp only [Except.ok.injEq, Prod.mk.injEq] at he
        obtain ⟨-, rfl⟩ := he
        simp [skeletonOf, hv qs v1 hf, hk]
    · simp only [flattenXxx, hk, if_false] at he
      cases hf : flattenXxx m rest with
      | error e1 =>
        rw [hf] at he
        simp at he
      | ok r =>
        obtain ⟨qs, rest1⟩ := r
        rw [hf] at he
        simp only [Except.ok.injEq, Prod.mk.injEq] at he
        obtain ⟨-, rfl⟩ := he
        simp [skeletonOf, hrest qs rest1 hf]

theorem flattenRange_skeleton (m : Int) (single : Bool) (l : List (String × Stats F))
    (h : ∀ kv ∈ l, ∀ flat s1, flatten m kv.2 = .ok (flat, s1) →
      skeleton s1 = skeleton kv.2) :
    ∀ ps l1, flattenRange m single l = .ok (ps, l1) → skeletonOf l1 = skeletonOf l := by
  induction l with
  | nil =>
    intro ps l1 he
    simp only [flattenRange, Except.ok.injEq, Prod.mk.injEq] at he
    obtain ⟨-, rfl⟩ := he
    rfl
  | cons kv rest ih =>
    obtain ⟨k, v⟩ := kv
    have hv := h (k, v) (by simp)
    have hrest := ih (fun kv hkv => h kv (by simp [hkv]))
    intro ps l1 he
    by_cases hk : k ≠ "xxx" ∨ single = true
    · simp only [flattenRange, hk, if_true] at he
      cases hf : flatten m v with
      | error e1 =>
        rw [hf] at he
        simp at he
      | ok r =>
        obtain ⟨ps0, v1⟩ := r
        rw [hf] at he
        cases hg : flattenRange m single rest with
        | error e1 =>
          rw [hg] at he
          simp at he
        | ok r2 =>
          obtain ⟨qs, rest1⟩ := r2
          rw [hg] at he
          simp only [Except.ok.injEq, Prod.mk.injEq] at he
          obtain ⟨-, rfl⟩ := he
          simp [skeletonOf, hv ps0 v1 hf, hrest qs rest1 hg]
    · simp only [flattenRange, hk, if_false] at he
      cases hg : flattenRange m single rest with
      | error e1 =>
        rw [hg] at he
        simp at he
      | ok r2 =>
        obtain ⟨qs, rest1⟩ := r2
        rw [hg] at he
        simp only [Except.ok.injEq, Prod.mk.injEq] at he
        obtain ⟨-, rfl⟩ := he
        simp [skeletonOf, hrest qs rest1 hg]

/-- The frame of `flatten`: whatever it returns, the tree it leaves has the
skeleton of the tree it was given. -/
theorem flatten_skeleton (m : Int) (hm : 0 < m) (s : Stats F) :
    ∀ flat s1, flatten m s = .ok (flat, s1) → skeleton s1 = skeleton s := by
  induction s using Stats.induct with
  | h route merged subs call e5 e4 dur ih =>
    intro flat s1 he
    have hkids : ∀ kv ∈ subs, Coherent m kv.2 := fun kv _ => flatten_coherent m hm kv.2
    by_cases h0 : subs.length = 0
    · simp only [flatten, h0, if_true, Except.ok.injEq, Prod.mk.injEq] at he
      rw [← he.2]
    · have hm0 : m ≠ 0 := ne_of_gt hm
      by_cases hc : (subs.length : Int) > Int.tdiv (call : Int) m
      · simp only [flatten, h0, hm0, if_false, hc, if_true] at he
        cases hf : flattenXxx m subs with
        | error e1 =>
          rw [hf] at he
          simp at he
        | ok r =>
          obtain ⟨ps, subs1⟩ := r
          rw [hf] at he
          simp only [Except.ok.injEq, Prod.mk.injEq] at he
          obtain ⟨rfl, rfl⟩ := he
          obtain ⟨rs, -, hg⟩ := (flattenXxx_coherent m subs hkids).2 ps subs1 hf
          rw [skeleton_prefixRoutes route merged call e5 e4 dur ps subs1 rs hg]
          exact skeleton_mk_congr _ _ _ _ _ _ _ _ (flattenXxx_skeleton m subs ih ps subs1 hf)
      · simp only [flatten, h0, hm0, if_false, hc] at he
        cases hf : flattenRange m (subs.length == 1) subs with
        | error e1 =>
          rw [hf] at he
          simp at he
        | ok r =>
          obtain ⟨ps, subs1⟩ := r
          rw [hf] at he
          simp only [Except.ok.injEq, Prod.mk.injEq] at he
          obtain ⟨rfl, rfl⟩ := he
          obtain ⟨rs, -, hg⟩ :=
            (flattenRange_coherent m (subs.length == 1) subs hkids).2 ps subs1 hf
          rw [skeleton_prefixRoutes route merged call e5 e4 dur ps subs1 rs hg]
          exact skeleton_mk_congr _ _ _ _ _ _ _ _
            (flattenRange_skeleton m (subs.length == 1) subs ih ps subs1 hf)

/-! ## The rows depend on the labels of the leaves only through their routes -/

theorem eraseRoute_addPrefix (r : String) (n : Stats F) :
    eraseRoute (addPrefix r n) = eraseRoute n := by
  cases n
  rfl

theorem map_eraseRoute_addPrefix (r : String) (rs : List (Stats F)) :
    (rs.map (addPrefix r)).map eraseRoute = rs.map eraseRoute := by
  rw [List.map_map]
  exact List.map_congr_left (fun n _ => eraseRoute_addPrefix r n)

theorem specWildcard_skeleton (m : Int) (l : List (String × Stats F))
    (h : ∀ kv ∈ l, (flattenSpec m (skeleton kv.2)).map (List.map eraseRoute) =
      (flattenSpec m kv.2).map (List.map eraseRoute)) :
    (specWildcard m (skeletonOf l)).map (List.map eraseRoute) =
      (specWildcard m l).map (List.map eraseRoute) := by
  induction l with
  | nil => rfl
  | cons kv rest ih =>
    obtain ⟨k, v⟩ := kv
    have hv := h (k, v) (by simp)
    have hrest := ih (fun kv hkv => h kv (by simp [hkv]))
    by_cases hk : k = "xxx"
    · simpa [skeletonOf, specWildcard, hk] using hv
    · simpa [skeletonOf, specWildcard, hk] using hrest

theorem specChildren_skeleton (m : Int) (single : Bool) (l : List (String × Stats F))
    (h : ∀ kv ∈ l, (flattenSpec m (skeleton kv.2)).map (List.map eraseRoute) =
      (flattenSpec m kv.2).map (List.map eraseRoute)) :
    (specChildren m single (skeletonOf l)).map (List.map eraseRoute) =
      (specChildren m single l).map (List.map eraseRoute) := by
  induction l with
  | nil => rfl
  | cons kv rest ih =>
    obtain ⟨k, v⟩ := kv
    have hv := h (k, v) (by simp)
    have hrest := ih (fun kv hkv => h kv (by simp [hkv]))
    simp only at hv
    by_cases hk : k ≠ "xxx" ∨ single = true
    · simp only [skeletonOf, specChildren, hk, if_true]
      cases ha : flattenSpec m v with
      | none =>
        rw [ha] at hv
        cases ha1 : flattenSpec m (skeleton v) with
        | none => rfl
        | some a1 => simp [ha1] at hv
      | some a =>
        rw [ha] at hv
        cases ha1 : flattenSpec m (skeleton v) with
        | none => simp [ha1] at hv
        | some a1 =>
          simp only [ha1, Option.map_some', Option.some.injEq] at hv
          cases hb : specChildren m single rest with
          | none =>
            rw [hb] at hrest
            cases hb1 : specChildren m single (skeletonOf rest) with
            | none => rfl
            | some b1 => simp [hb1] at hrest
          | some b =>
            rw [hb] at hrest
            cases hb1 : specChildren m single (skeletonOf rest) with
            | none => simp [hb1] at hrest
            | some b1 =>
              simp only [hb1, Option.map_some', Option.some.injEq] at hrest
              simp [hv, hrest]
    · simpa [skeletonOf, specChildren, hk] using hrest

/-- The rows of a tree and of its skeleton differ in their routes only. -/
theorem flattenSpec_skeleton (m : Int) (s : Stats F) :
    (flattenSpec m (skeleton s)).map (List.map eraseRoute) =
      (flattenSpec m s).map (List.map eraseRoute) := by
  induction s using Stats.induct with
  | h route merged subs call e5 e4 dur ih =>
    by_cases h0 : subs.length = 0
    · have hnil : subs = [] := List.length_eq_zero.1 h0
      subst hnil
      simp [skeleton, skeletonOf, flattenSpec, eraseRoute, Stats.setRoute]
    · have h1 : ¬ (skeletonOf subs).length = 0 := by rwa [skeletonOf_length]
      by_cases hc : (subs.length : Int) > (call : Int) / m
      · have hc1 : ((skeletonOf subs).length : Int) > (call : Int) / m := by
          rwa [skeletonOf_length]
        simp only [skeleton, h0, if_false, flattenSpec, h1, hc, hc1, if_true, Option.map_map]
        have := specWildcard_skeleton m subs ih
        have e1 : ∀ r : String, (List.map eraseRoute ∘ List.map (addPrefix r) :
            List (Stats F) → List (Stats F)) = List.map eraseRoute := by
          intro r
          funext rs
          exact map_eraseRoute_addPrefix r rs
        rw [e1, this]
      · have hc1 : ¬ ((skeletonOf subs).length : Int) > (call : Int) / m := by
          rwa [skeletonOf_length]
        simp only [skeleton, h0, if_false, flattenSpec, h1, hc, hc1, Option.map_map,
          skeletonOf_length]
        have := specChildren_skeleton m (subs.length == 1) subs ih
        have e1 : ∀ r : String, (List.map eraseRoute ∘ List.map (addPrefix r) :
            List (Stats F) → List (Stats F)) = List.map eraseRoute := by
          intro r
          funext rs
          exact map_eraseRoute_addPrefix r rs
        rw [e1, this]

/-- Two trees with the same skeleton have the same rows up to the routes. -/
theorem flattenSpec_of_skeleton_eq (m : Int) (s t : Stats F) (h : skeleton s = skeleton t) :
    (flattenSpec m s).map (List.map eraseRoute) =
      (flattenSpec m t).map (List.map eraseRoute) := by
  rw [← flattenSpec_skeleton m s, ← flattenSpec_skeleton m t, h]

/-- Flattening twice: the second call returns too, and its rows are the rows
of the first up to their routes. -/
theorem flatten_twice (m : Int) (hm : 0 < m) (s s1 : Stats F) (flat : List Ptr)
    (rs : List (Stats F)) (hf : flatten m s = .ok (flat, s1)) (hrs : flattenSpec m s = some rs) :
    ∃ flat2 s2 rs2, flatten m s1 = .ok (flat2, s2) ∧ Good flat2 s2 rs2 ∧
      rs2.map eraseRoute = rs.map eraseRoute := by
  have hsk := flatten_skeleton m hm s flat s1 hf
  have h := flattenSpec_of_skeleton_eq m s1 s hsk
  rw [hrs] at h
  cases h2 : flattenSpec m s1 with
  | none => simp [h2] at h
  | some rs2 =>
    simp only [h2, Option.map_some', Option.some.injEq] at h
    obtain ⟨flat2, s2, hf2, hg2⟩ := flatten_ok_of_spec m hm s1 rs2 h2
    exact ⟨flat2, s2, rs2, hf2, hg2, h⟩

/-! ## The collapse flag after `addRequest` -/

theorem highCard_iff (p : String) :
    highCard p = true ↔ countDash p ≥ 3 ∨ (atoi p).isSome = true := by
  simp [highCard]

section Flag

variable [Add F] [Zero F]

theorem addParts_subIsMerged (p1 : String) (rest : List String) (s : Stats F)
    (label status : String) (d : F) (hp : p1 ≠ "") :
    (addParts (p1 :: rest) s label status d).subIsMerged = (highCard p1 || s.subIsMerged) := by
  cases s with
  | mk route merged subs call e5 e4 dur =>
    by_cases hm : (highCard p1 || merged) = true
    · rw [addParts_cons_merged _ _ _ _ _ _ _ _ _ _ _ _ hp hm]
      simp only [Stats.subIsMerged]
      exact hm.symm
    · simp only [Bool.or_eq_true, not_or, Bool.not_eq_true] at hm
      obtain ⟨hc, hm⟩ := hm
      subst hm
      rw [addParts_cons_literal _ _ _ _ _ _ _ _ _ _ _ hp hc]
      simp [Stats.subIsMerged, hc]

end Flag

/-! ## `strconv.Atoi` on runs of digits -/

theorem digitVal_lt (c : Char) (v : Nat) (h : digitVal c = some v) : v < 10 := by
  unfold digitVal at h
  split at h
  · cases h
    omega
  · cases h

theorem parseDigits_digits (ds : List Char) (hd : ∀ c ∈ ds, (digitVal c).isSome = true) :
    ∀ acc, ∃ n, parseDigits ds acc = some n ∧ n < (acc + 1) * 10 ^ ds.length := by
  induction ds with
  | nil =>
    intro acc
    exact ⟨acc, rfl, by simp⟩
  | cons c cs ih =>
    intro acc
    have hc := hd c (by simp)
    cases hv : digitVal c with
    | none => simp [hv] at hc
    | some v =>
      obtain ⟨n, hn, hlt⟩ := ih (fun x hx => hd x (by simp [hx])) (acc * 10 + v)
      refine ⟨n, by simp [parseDigits, hv, hn], ?_⟩
      have hv10 := digitVal_lt c v hv
      have h1 : (acc * 10 + v + 1) * 10 ^ cs.length ≤ ((acc + 1) * 10) * 10 ^ cs.length :=
        Nat.mul_le_mul_right _ (by omega)
      calc n < (acc * 10 + v + 1) * 10 ^ cs.length := hlt
        _ ≤ ((acc + 1) * 10) * 10 ^ cs.length := h1
        _ = (acc + 1) * 10 ^ (c :: cs).length := by
          rw [List.length_cons, pow_succ]
          ring

/-- On a non-empty run of decimal digits `strconv.Atoi` succeeds exactly when
the value is below `2^63`. -/
theorem atoi_digits (p : String) (hne : p ≠ "")
    (hd : ∀ c ∈ p.data, (digitVal c).isSome = true) :
    ∃ n, parseDigits p.data 0 = some n ∧ n < 10 ^ p.data.length ∧
      ((atoi p).isSome = true ↔ n < 2 ^ 63) := by
  obtain ⟨n, hn, hlt⟩ := parseDigits_digits p.data hd 0
  refine ⟨n, hn, by simpa using hlt, ?_⟩
  cases hdata : p.data with
  | nil =>
    exfalso
    apply hne
    cases p
    simp only at hdata
    subst hdata
    rfl
  | cons c cs =>
    have hc := hd c (by simp [hdata])
    have h1 : c ≠ '-' := by
      intro h
      subst h
      exact absurd hc (by decide)
    have h2 : c ≠ '+' := by
      intro h
      subst h
      exact absurd hc (by decide)
    rw [hdata] at hn
    simp only [atoi, hdata, h1, h2, or_self, if_false, decide_False, List.cons_ne_nil, hn]
    by_cases hlt63 : n < 2 ^ 63
    · simp [hlt63]
    · simp [hlt63]

/-! ## The size of the tree one request builds -/

section Size

variable [Add F] [Zero F]

theorem addParts_empty_nodes (segs : List String)
    (h : ∀ p ∈ segs, p ≠ "" ∧ p ≠ "xxx" ∧ highCard p = false) :
    ∀ (label status : String) (d : F),
      (addParts segs (Stats.empty : Stats F) label status d).nodes.length =
          2 ^ (segs.length + 1) - 1 ∧
        ∀ n ∈ (addParts segs (Stats.empty : Stats F) label status d).nodes, n.call = 1 := by
  induction segs with
  | nil =>
    intro label status d
    simp [Stats.empty, addParts_nil, Stats.nodes, nodesOf, call_mk]
  | cons p1 rest ih =>
    intro label status d
    obtain ⟨hp, hx, hc⟩ := h p1 (by simp)
    have ih1 := ih (fun p hp => h p (by simp [hp]))
    obtain ⟨hx1, hx2⟩ := ih1 "xxx" status d
    obtain ⟨hl1, hl2⟩ := ih1 p1 status d
    have hpos : 1 ≤ 2 ^ (rest.length + 1) := Nat.one_le_two_pow
    have hsub : childStep rest (childStep rest ([] : List (String × Stats F)) "xxx" status d)
        p1 status d =
        [("xxx", addParts rest (Stats.empty : Stats F) "xxx" status d),
          (p1, addParts rest (Stats.empty : Stats F) p1 status d)] := by
      simp [childStep, mapSet, mapGet, hx, Ne.symm hx]
    unfold Stats.empty
    rw [addParts_cons_literal _ _ _ _ _ _ _ _ _ _ _ hp hc, hsub]
    constructor
    · simp only [Stats.nodes, nodesOf, List.length_cons, List.length_append, List.length_nil,
        hx1, hl1]
      have : 2 ^ (rest.length + 1 + 1) = 2 * 2 ^ (rest.length + 1) := by
        rw [pow_succ]
        ring
      omega
    · intro n hn
      simp only [Stats.nodes, nodesOf, List.mem_cons, List.mem_append, List.append_nil] at hn
      rcases hn with rfl | hn | hn
      · rfl
      · exact hx2 n hn
      · exact hl2 n hn

end Size

/-! ## Labels, and the rows of a low-volume log -/

/-- Every child of the node carries the key it is stored under as its label. -/
def labelled (n : Stats F) : Prop :=
  ∀ kv ∈ n.subRoutes, kv.2.route = kv.1

theorem mem_mapSet {α : Type} (l : List (String × α)) (k : String) (x : α)
    (kv : String × α) (h : kv ∈ mapSet l k x) : kv ∈ l ∨ kv = (k, x) := by
  induction l with
  | nil =>
    simp only [mapSet, List.mem_singleton] at h
    exact Or.inr h
  | cons kv1 rest ih =>
    obtain ⟨k1, v1⟩ := kv1
    by_cases h1 : k1 = k
    · simp only [mapSet, h1, if_true, List.mem_cons] at h ⊢
      rcases h with h | h
      · exact Or.inr h
      · exact Or.inl (Or.inr h)
    · simp only [mapSet, h1, if_false, List.mem_cons] at h ⊢
      rcases h with h | h
      · exact Or.inl (Or.inl h)
      · rcases ih h with h | h
        · exact Or.inl (Or.inr h)
        · exact Or.inr h

theorem splitChars_head_slash (cs : List Char) :
    splitChars ('/' :: cs) = [] :: splitChars cs := by
  simp [splitChars]

theorem split_head_of_slash (url : String) (h : url.data.head? = some '/') :
    (split url).headD "" = "" := by
  cases hd : url.data with
  | nil => simp [hd] at h
  | cons c cs =>
    simp only [hd, List.head?_cons, Option.some.injEq] at h
    subst h
    simp only [split, hd, splitChars_head_slash, List.map_cons, List.headD_cons]

section LowVolume

variable [Add F] [Zero F]

theorem labelled_childStep (rest : List String) (subs : List (String × Stats F))
    (k status : String) (d : F) (h : ∀ kv ∈ subs, kv.2.route = kv.1) :
    ∀ kv ∈ childStep rest subs k status d, kv.2.route = kv.1 := by
  intro kv hkv
  rcases mem_mapSet _ _ _ _ hkv with h1 | h1
  · exact h kv h1
  · rw [h1]
    exact addParts_route _ _ _ _ _

theorem addRequests_labelled (reqs : List (String × String × F)) :
    ∀ n ∈ (addRequests (Stats.empty : Stats F) reqs).nodes, labelled n := by
  refine addRequests_all labelled (fun _ => True) (fun _ _ _ => trivial) ?_ ?_ reqs
    (fun _ _ => trivial)
  · intro kv hkv
    simp [Stats.empty, subRoutes_mk] at hkv
  · intro segs s label status d _ hs
    have hroot := hs s (nodes_self s)
    cases s with
    | mk route merged subs call e5 e4 dur =>
      unfold labelled at hroot ⊢
      simp only [subRoutes_mk] at hroot
      cases segs with
      | nil =>
        rw [addParts_nil]
        exact hroot
      | cons p1 rest =>
        by_cases hp : p1 = ""
        · subst hp
          rw [addParts_cons_stop]
          exact hroot
        · by_cases hm : (highCard p1 || merged) = true
          · rw [addParts_cons_merged _ _ _ _ _ _ _ _ _ _ _ _ hp hm]
            exact labelled_childStep rest subs "xxx" status d hroot
          · simp only [Bool.or_eq_true, not_or, Bool.not_eq_true] at hm
            obtain ⟨hc, hm⟩ := hm
            subst hm
            rw [addParts_cons_literal _ _ _ _ _ _ _ _ _ _ _ hp hc]
            exact labelled_childStep rest _ p1 status d
              (labelled_childStep rest subs "xxx" status d hroot)

theorem addRequests_route (reqs : List (String × String × F))
    (h : ∀ r ∈ reqs, r.1.data.head? = some '/') :
    (addRequests (Stats.empty : Stats F) reqs).route = "" := by
  induction reqs using List.reverseRecOn with
  | nil => rfl
  | append_singleton reqs r _ =>
    rw [addRequests_append, addRequest_eq, addParts_route]
    exact split_head_of_slash r.1 (h r (by simp))

end LowVolume

/-! ## The ranked reports -/

/-- Go `type lessFn func(a, b *stats) bool`. -/
abbrev LessFn (F : Type) :=
  Stats F → Stats F → Bool

/-- What Go's documentation promises of `sort.Sort` (standard library, not part
of the repository): when `Less` never holds of an element and itself and
describes a transitive ordering (if `Less(i, j)` and `Less(j, k)` then
`Less(i, k)`; if neither `Less(i, j)` nor `Less(j, k)` then not `Less(i, k)`),
the data comes out as a permutation of itself in which no element is less
than an earlier one. Elements that are equal for `Less` may come in any
order. -/
def SortContract (sort : LessFn F → List (Stats F) → List (Stats F)) : Prop :=
  ∀ (less : LessFn F) (l : List (Stats F)),
    (∀ a, less a a = false) →
    (∀ a b c, less a b = true → less b c = true → less a c = true) →
    (∀ a b c, less a b = false → less b c = false → less a c = false) →
    (sort less l).Perm l ∧ (sort less l).Pairwise (fun a b => less b a = false)

/-- Go `func (s statsList) sortByCall()`, `sort` standing for `sort.Sort`. -/
def sortByCall (sort : LessFn F → List (Stats F) → List (Stats F)) (s : List (Stats F)) :
    List (Stats F) :=
  sort (fun a b => decide (b.call < a.call)) s

/-- Go `func (s statsList) sortBy404()`, `sort` standing for `sort.Sort`. -/
def sortBy404 (sort : LessFn F → List (Stats F) → List (Stats F)) (s : List (Stats F)) :
    List (Stats F) :=
  sort (fun a b => decide (b.error404 < a.error404)) s

/-- Go `func (s statsList) sortBy5xx()`, `sort` standing for `sort.Sort`. -/
def sortBy5xx (sort : LessFn F → List (Stats F) → List (Stats F)) (s : List (Stats F)) :
    List (Stats F) :=
  sort (fun a b => decide (b.error5xx < a.error5xx)) s

/-- An insertion sort, one function that keeps the promise of `sort.Sort`. -/
def insertionSorter (less : LessFn F) (l : List (Stats F)) : List (Stats F) :=
  l.insertionSort (fun a b => less b a = false)

/-- The list is a permutation of `l`, in non-increasing order of `key`, and
its first element has the greatest `key`. -/
def RankedBy (key : Stats F → Nat) (l out : List (Stats F)) : Prop :=
  out.Perm l ∧ out.Pairwise (fun a b => key b ≤ key a) ∧
    ∃ first rest, out = first :: rest ∧ ∀ r ∈ out, key r ≤ key first

/-- Sorting with `less(a, b) = key(b) < key(a)` ranks by `key`, greatest first. -/
theorem ranked_of_contract (sort : LessFn F → List (Stats F) → List (Stats F))
    (hsort : SortContract sort) (key : Stats F → Nat) (l : List (Stats F)) (hl : l ≠ []) :
    RankedBy key l (sort (fun a b => decide (key b < key a)) l) := by
  obtain ⟨hperm, hpair⟩ := hsort (fun a b => decide (key b < key a)) l
    (fun a => by simp)
    (fun a b c hab hbc => by
      simp only [decide_eq_true_eq] at hab hbc ⊢
      omega)
    (fun a b c hab hbc => by
      simp only [decide_eq_false_iff_not, not_lt] at hab hbc ⊢
      omega)
  have hpair2 : (sort (fun a b => decide (key b < key a)) l).Pairwise
      (fun a b => key b ≤ key a) := by
    refine hpair.imp ?_
    intro a b hab
    simp only [decide_eq_false_iff_not, not_lt] at hab
    exact hab
  refine ⟨hperm, hpair2, ?_⟩
  cases hout : sort (fun a b => decide (key b < key a)) l with
  | nil =>
    rw [hout] at hperm
    exact absurd hperm.symm.eq_nil hl
  | cons first rest =>
    refine ⟨first, rest, rfl, ?_⟩
    rw [hout] at hpair2
    intro r hr
    rcases List.mem_cons.1 hr with rfl | hr
    · exact le_refl _
    · exact (List.pairwise_cons.1 hpair2).1 r hr

theorem insertionSorter_contract : SortContract (insertionSorter : LessFn F → _ → _) := by
  intro less l hirr htrans hneg
  unfold insertionSorter
  refine ⟨List.perm_insertionSort _ l, ?_⟩
  have htotal : IsTotal (Stats F) (fun a b => less b a = false) := by
    constructor
    intro a b
    by_cases h : less b a = false
    · exact Or.inl h
    · right
      simp only [Bool.not_eq_false] at h
      by_contra h2
      simp only [Bool.not_eq_false] at h2
      have := htrans a b a h2 h
      rw [hirr a] at this
      cases this
  have htr : IsTrans (Stats F) (fun a b => less b a = false) := by
    constructor
    intro a b c hab hbc
    exact hneg c b a hbc hab
  exact @List.sorted_insertionSort _ (fun a b => less b a = false) _ htotal htr l

/-! ## Line formats -/

/-- The scan of Go `strings.Replace(s, old, new, -1)` for a non-empty `old`:
left to right, each occurrence of `old` found is replaced and the scan goes on
after it; `skip` counts the characters of the occurrence still to pass. -/
def replaceScan (old new : List Char) : List Char → Nat → List Char
  | [], _ => []
  | _ :: cs, skip + 1 => replaceScan old new cs skip
  | c :: cs, 0 =>
    if old.isPrefixOf (c :: cs) then new ++ replaceScan old new cs (old.length - 1)
    else c :: replaceScan old new cs 0

/-- Go `strings.Replace(s, old, new, -1)`. An empty `old` matches before every
character and at the end. -/
def replaceAll (s old new : String) : String :=
  if old.data = [] then ⟨new.data ++ (s.data.map (fun c => c :: new.data)).flatten⟩
  else ⟨replaceScan old.data new.data s.data 0⟩

/-- Go `var formats`, in the order of the source. -/
def formats : List (String × String) :=
  [("combined",
      "$remote_addr - $remote_user [$time_local] \"$request\" $status $body_bytes_sent " ++
        "\"$http_referer\" \"$http_user_agent\""),
    ("combined_duration",
      "$remote_addr - $remote_user [$time_local] \"$request\" $status $body_bytes_sent " ++
        "\"$http_referer\" \"$http_user_agent\".* $duration_seconds")]

/-- Go `var patterns`, in the order of the source. -/
def patterns : List (String × String) :=
  [("$remote_addr",
      "(?P<remote_addr>[0-9]\x7b1,3\x7d.[0-9]\x7b1,3\x7d.[0-9]\x7b1,3\x7d.[0-9]\x7b1,3\x7d)"),
    ("$remote_user", "[[:alnum:]-]+"),
    ("$time_local", "[[:alnum:] :/+-]+"),
    ("$request", "(?P<verb>[A-Z]+) (?P<url>[^\\?]+)(\\?.*)? HTTP/[0-9.]+"),
    ("$status", "(?P<status>[0-9]+)"),
    ("$body_bytes_sent", "(?P<bytes>[0-9]+)"),
    ("$http_referer", "[^\"]+"),
    ("$http_user_agent", "[^\"]+"),
    ("$duration_seconds", "(?P<duration>[0-9.]+)")]

/-- Go `func buildRe(format string) *regexp.Regexp`, up to the call of
`regexp.MustCompile`: the text of the pattern. `order` is the order in which
`range patterns` enumerates the map. -/
def buildRe (order : List (String × String)) (format : String) : String :=
  let format := replaceAll format "[" "\\["
  let format := replaceAll format "]" "\\]"
  order.foldl (fun f kp => replaceAll f kp.1 kp.2) format

/-- The loop of `guessFormatRe`: `bestLen`, `bestName` and `format` after
`range formats` has enumerated `order`; `isMatch fmt` stands for
`buildRe(fmt).MatchString(logline)`. -/
def guessLoop (order : List (String × String)) (isMatch : String → Bool) :
    Nat × String × String :=
  order.foldl
    (fun st nf =>
      if nf.2.utf8ByteSize > st.1 then
        if isMatch nf.2 then (nf.2.utf8ByteSize, nf.1, nf.2) else st
      else st)
    (0, "", "")

/-- Go `func guessFormatRe(format, logline string) *regexp.Regexp`, up to the
call of `regexp.MustCompile`. `matchString re line` stands for
`regexp.MustCompile(re).MatchString(line)`, `fmtOrder` and `patOrder` for the
orders in which `formats` and `patterns` are enumerated; `none` is
`os.Exit(1)`. -/
def guessFormatRe (fmtOrder patOrder : List (String × String))
    (matchString : String → String → Bool) (format logline : String) : Option String :=
  if format = "" then
    let st := guessLoop fmtOrder (fun f => matchString (buildRe patOrder f) logline)
    if st.2.2 ≠ "" then some (buildRe patOrder st.2.2) else none
  else some (buildRe patOrder format)

/-! ## Format detection picks a longest matching template -/

theorem utf8ByteSize_pos (s : String) (h : s ≠ "") : 0 < s.utf8ByteSize := by
  cases s with
  | mk data =>
    cases data with
    | nil => exact absurd rfl h
    | cons c cs =>
      simp only [String.utf8ByteSize, String.utf8ByteSize.go]
      have := Char.utf8Size_pos c
      omega

/-- What the loop of `guessFormatRe` holds after the templates `done`: nothing
if none of them matches, else one of them that matches and is as long as any
of them that matches. -/
def GuessInv (isMatch : String → Bool) (done : List (String × String))
    (st : Nat × String × String) : Prop :=
  (st.2.2 = "" ∧ st.1 = 0 ∧ ∀ nf ∈ done, isMatch nf.2 = false) ∨
    (st.2.2 ≠ "" ∧ st.1 = st.2.2.utf8ByteSize ∧ (st.2.1, st.2.2) ∈ done ∧
      isMatch st.2.2 = true ∧
      ∀ nf ∈ done, isMatch nf.2 = true → nf.2.utf8ByteSize ≤ st.1)

theorem guessLoop_inv (isMatch : String → Bool) (order : List (String × String))
    (hne : ∀ nf ∈ order, nf.2 ≠ "") : GuessInv isMatch order (guessLoop order isMatch) := by
  induction order using List.reverseRecOn with
  | nil =>
    left
    exact ⟨rfl, rfl, fun nf hnf => absurd hnf (List.not_mem_nil nf)⟩
  | append_singleton order nf ih =>
    have ih1 := ih (fun x hx => hne x (by simp [hx]))
    have hpos := utf8ByteSize_pos nf.2 (hne nf (by simp))
    have hnfne := hne nf (by simp)
    unfold guessLoop at ih1 ⊢
    rw [List.foldl_append]
    simp only [List.foldl_cons, List.foldl_nil]
    generalize List.foldl _ _ order = st at ih1 ⊢
    by_cases hgt : nf.2.utf8ByteSize > st.1
    · by_cases hmt : isMatch nf.2 = true
      · simp only [hgt, hmt, if_true]
        right
        refine ⟨hnfne, rfl, by simp, hmt, ?_⟩
        intro x hx hxm
        rcases List.mem_append.1 hx with hx | hx
        · rcases ih1 with ⟨-, -, hnone⟩ | ⟨-, -, -, -, hmax⟩
          · rw [hnone x hx] at hxm
            cases hxm
          · exact le_trans (hmax x hx hxm) (le_of_lt hgt)
        · simp only [List.mem_singleton] at hx
          rw [hx]
      · simp only [hgt, hmt, if_true, if_false]
        simp only [Bool.not_eq_true] at hmt
        rcases ih1 with ⟨h1, h2, hnone⟩ | ⟨h1, h2, hmem, hm, hmax⟩
        · left
          refine ⟨h1, h2, ?_⟩
          intro x hx
          rcases List.mem_append.1 hx with hx | hx
          · exact hnone x hx
          · simp only [List.mem_singleton] at hx
            rw [hx]
            exact hmt
        · right
          refine ⟨h1, h2, by simp [hmem], hm, ?_⟩
          intro x hx hxm
          rcases List.mem_append.1 hx with hx | hx
          · exact hmax x hx hxm
          · simp only [List.mem_singleton] at hx
            rw [hx, hmt] at hxm
            cases hxm
    · simp only [hgt, if_false]
      rcases ih1 with ⟨-, h2, -⟩ | ⟨h1, h2, hmem, hm, hmax⟩
      · omega
      · right
        refine ⟨h1, h2, by simp [hmem], hm, ?_⟩
        intro x hx hxm
        rcases List.mem_append.1 hx with hx | hx
        · exact hmax x hx hxm
        · simp only [List.mem_singleton] at hx
          rw [hx]
          omega

/-! ## Substituting the placeholders in any order -/

theorem replaceScan_skip (old new : List Char) (s : List Char) :
    ∀ n, replaceScan old new s n = replaceScan old new (s.drop n) 0 := by
  induction s with
  | nil =>
    intro n
    cases n <;> simp [replaceScan]
  | cons c cs ih =>
    intro n
    cases n with
    | zero => rfl
    | succ n =>
      simp only [replaceScan, List.drop_succ_cons]
      exact ih n

theorem replaceScan_match (body new : List Char) (c : Char) (cs : List Char)
    (h : ('$' :: body).isPrefixOf (c :: cs) = true) :
    replaceScan ('$' :: body) new (c :: cs) 0 =
      new ++ replaceScan ('$' :: body) new (cs.drop body.length) 0 := by
  rw [replaceScan, if_pos h, replaceScan_skip]
  simp

theorem replaceScan_nomatch (old new : List Char) (c : Char) (cs : List Char)
    (h : old.isPrefixOf (c :: cs) = false) :
    replaceScan old new (c :: cs) 0 = c :: replaceScan old new cs 0 := by
  rw [replaceScan]
  simp [h]

/-- A text without "$" is copied by the scan for a placeholder. -/
theorem replaceScan_append (body new x t : List Char) (hx : '$' ∉ x) :
    replaceScan ('$' :: body) new (x ++ t) 0 = x ++ replaceScan ('$' :: body) new t 0 := by
  induction x with
  | nil => rfl
  | cons c x ih =>
    simp only [List.mem_cons, not_or] at hx
    have hno : ('$' :: body).isPrefixOf (c :: (x ++ t)) = false := by
      rw [List.isPrefixOf_cons₂]
      have : ('$' == c) = false := by simpa using hx.1
      simp [this]
    rw [List.cons_append, replaceScan_nomatch _ _ _ _ hno, ih hx.2]
    rfl

/-- Substituting a placeholder neither completes nor breaks an occurrence of a
name that has no "$" and not the first character of the substituted text. -/
theorem isPrefixOf_replaceScan (body : List Char) :
    ∀ (bodyA pa : List Char) (qa : Char) (cs : List Char), '$' ∉ body → qa ∉ body →
      (body.isPrefixOf (replaceScan ('$' :: bodyA) (qa :: pa) cs 0) = body.isPrefixOf cs) ∧
        (body.isPrefixOf cs = true →
          (replaceScan ('$' :: bodyA) (qa :: pa) cs 0).drop body.length =
            replaceScan ('$' :: bodyA) (qa :: pa) (cs.drop body.length) 0) := by
  induction body with
  | nil =>
    intro bodyA pa qa cs _ _
    simp
  | cons d body ih =>
    intro bodyA pa qa cs hd hq
    simp only [List.mem_cons, not_or] at hd hq
    cases cs with
    | nil => simp [replaceScan]
    | cons e cs =>
      by_cases hmatch : ('$' :: bodyA).isPrefixOf (e :: cs) = true
      · have he : e = '$' := by
          rw [List.isPrefixOf_cons₂] at hmatch
          simp only [Bool.and_eq_true, beq_iff_eq] at hmatch
          exact hmatch.1.symm
        subst he
        rw [replaceScan_match _ _ _ _ hmatch]
        have h1 : (d == qa) = false := by
          simpa using fun h => hq.1 h.symm
        have h2 : (d == '$') = false := by
          simpa using fun h => hd.1 h.symm
        simp [List.isPrefixOf_cons₂, h1, h2]
      · simp only [Bool.not_eq_true] at hmatch
        rw [replaceScan_nomatch _ _ _ _ hmatch]
        obtain ⟨ih1, ih2⟩ := ih bodyA pa qa cs hd.2 hq.2
        constructor
        · simp only [List.isPrefixOf_cons₂, ih1]
        · intro hpre
          simp only [List.isPrefixOf_cons₂, Bool.and_eq_true] at hpre
          simp only [List.length_cons, List.drop_succ_cons]
          exact ih2 hpre.2

/-- Two placeholders, neither a prefix of the other, whose substituted texts
have no "$" and do not start with a character of the other's name, can be
substituted in either order. -/
theorem replaceScan_comm (bodyA bodyB pa pb : List Char) (qa qb : Char)
    (hA : '$' ∉ bodyA) (hB : '$' ∉ bodyB) (hpa : '$' ∉ qa :: pa) (hpb : '$' ∉ qb :: pb)
    (hqa : qa ∉ bodyB) (hqb : qb ∉ bodyA) (hab : ¬ bodyA <+: bodyB)
    (hba : ¬ bodyB <+: bodyA) :
    ∀ (n : Nat) (s : List Char), s.length ≤ n →
      replaceScan ('$' :: bodyB) (qb :: pb) (replaceScan ('$' :: bodyA) (qa :: pa) s 0) 0 =
        replaceScan ('$' :: bodyA) (qa :: pa) (replaceScan ('$' :: bodyB) (qb :: pb) s 0) 0 := by
  intro n
  induction n with
  | zero =>
    intro s hs
    have : s = [] := List.length_eq_zero.1 (Nat.le_zero.1 hs)
    subst this
    rfl
  | succ n ih =>
    intro s hs
    cases s with
    | nil => rfl
    | cons c cs =>
      simp only [List.length_cons, Nat.add_le_add_iff_right] at hs
      have hdrop : ∀ k, (cs.drop k).length ≤ n := fun k => by
        rw [List.length_drop]
        omega
      by_cases hma : ('$' :: bodyA).isPrefixOf (c :: cs) = true
      · -- the first placeholder occurs here, so the second does not
        have hc : c = '$' := by
          rw [List.isPrefixOf_cons₂] at hma
          simp only [Bool.and_eq_true, beq_iff_eq] at hma
          exact hma.1.symm
        subst hc
        have hpreA : bodyA.isPrefixOf cs = true := by
          rw [List.isPrefixOf_cons₂] at hma
          simp only [Bool.and_eq_true] at hma
          exact hma.2
        have hmb : ('$' :: bodyB).isPrefixOf ('$' :: cs) = false := by
          by_contra hmb
          simp only [Bool.not_eq_false] at hmb
          rw [List.isPrefixOf_cons₂] at hmb
          simp only [Bool.and_eq_true] at hmb
          have h1 := List.isPrefixOf_iff_prefix.1 hpreA
          have h2 := List.isPrefixOf_iff_prefix.1 hmb.2
          rcases le_total bodyA.length bodyB.length with hle | hle
          · exact hab (List.prefix_of_prefix_length_le h1 h2 hle)
          · exact hba (List.prefix_of_prefix_length_le h2 h1 hle)
        obtain ⟨hp1, hp2⟩ := isPrefixOf_replaceScan bodyA bodyB pb qb cs hA hqb
        rw [replaceScan_match _ _ _ _ hma, replaceScan_append _ _ _ _ hpa,
          replaceScan_nomatch _ _ _ _ hmb]
        have hma2 : ('$' :: bodyA).isPrefixOf
            ('$' :: replaceScan ('$' :: bodyB) (qb :: pb) cs 0) = true := by
          rw [List.isPrefixOf_cons₂, hp1, hpreA]
          simp
        rw [replaceScan_match _ _ _ _ hma2, hp2 hpreA, ih _ (hdrop _)]
      · simp only [Bool.not_eq_true] at hma
        by_cases hmb : ('$' :: bodyB).isPrefixOf (c :: cs) = true
        · have hc : c = '$' := by
            rw [List.isPrefixOf_cons₂] at hmb
            simp only [Bool.and_eq_true, beq_iff_eq] at hmb
            exact hmb.1.symm
          subst hc
          have hpreB : bodyB.isPrefixOf cs = true := by
            rw [List.isPrefixOf_cons₂] at hmb
            simp only [Bool.and_eq_true] at hmb
            exact hmb.2
          obtain ⟨hp1, hp2⟩ := isPrefixOf_replaceScan bodyB bodyA pa qa cs hB hqa
          rw [replaceScan_match _ _ _ _ hmb, replaceScan_append _ _ _ _ hpb,
            replaceScan_nomatch _ _ _ _ hma]
          have hmb2 : ('$' :: bodyB).isPrefixOf
              ('$' :: replaceScan ('$' :: bodyA) (qa :: pa) cs 0) = true := by
            rw [List.isPrefixOf_cons₂, hp1, hpreB]
            simp
          rw [replaceScan_match _ _ _ _ hmb2, hp2 hpreB, ih _ (hdrop _)]
        · simp only [Bool.not_eq_true] at hmb
          rw [replaceScan_nomatch _ _ _ _ hma, replaceScan_nomatch _ _ _ _ hmb]
          have hma2 : ('$' :: bodyA).isPrefixOf
              (c :: replaceScan ('$' :: bodyB) (qb :: pb) cs 0) = false := by
            rw [List.isPrefixOf_cons₂] at hma ⊢
            rw [(isPrefixOf_replaceScan bodyA bodyB pb qb cs hA hqb).1]
            exact hma
          have hmb2 : ('$' :: bodyB).isPrefixOf
              (c :: replaceScan ('$' :: bodyA) (qa :: pa) cs 0) = false := by
            rw [List.isPrefixOf_cons₂] at hmb ⊢
            rw [(isPrefixOf_replaceScan bodyB bodyA pa qa cs hB hqa).1]
            exact hmb
          rw [replaceScan_nomatch _ _ _ _ hma2, replaceScan_nomatch _ _ _ _ hmb2,
            ih cs hs]

/-- The two entries of `patterns` can be substituted in either order: both
placeholders are "$" and a name without "$", neither name is a prefix of the
other, and neither sub-pattern has a "$" or starts with a character of the
other name. -/
def compatible (x y : String × String) : Bool :=
  match x.1.data, x.2.data, y.1.data, y.2.data with
  | '$' :: bodyA, qa :: pa, '$' :: bodyB, qb :: pb =>
    decide ('$' ∉ bodyA ∧ '$' ∉ bodyB ∧ '$' ∉ qa :: pa ∧ '$' ∉ qb :: pb ∧
      qa ∉ bodyB ∧ qb ∉ bodyA ∧ ¬ bodyA <+: bodyB ∧ ¬ bodyB <+: bodyA)
  | _, _, _, _ => false

theorem replaceAll_comm (x y : String × String) (h : compatible x y = true) (z : String) :
    replaceAll (replaceAll z x.1 x.2) y.1 y.2 = replaceAll (replaceAll z y.1 y.2) x.1 x.2 := by
  unfold compatible at h
  split at h
  · rename_i bodyA qa pa bodyB qb pb h1 h2 h3 h4
    simp only [decide_eq_true_eq] at h
    obtain ⟨hA, hB, hpa, hpb, hqa, hqb, hab, hba⟩ := h
    simp only [replaceAll, h1, h2, h3, h4, List.cons_ne_nil, if_false]
    rw [replaceScan_comm bodyA bodyB pa pb qa qb hA hB hpa hpb hqa hqb hab hba _ _
      (le_refl _)]
  · cases h

set_option maxRecDepth 100000 in
theorem patterns_compatible :
    ∀ x ∈ patterns, ∀ y ∈ patterns, x = y ∨ compatible x y = true := by
  decide

/-- The nine substitutions give the same text in every order. -/
theorem buildRe_perm (order : List (String × String)) (h : order.Perm patterns)
    (format : String) : buildRe order format = buildRe patterns format := by
  unfold buildRe
  refine (h.symm.foldl_eq' ?_ _).symm
  intro x hx y hy z
  rcases patterns_compatible x hx y hy with rfl | hc
  · rfl
  · exact replaceAll_comm x y hc z

/-! ## Coverage without loss: logs whose requests all go equally deep -/

theorem subIsMerged_mk (r : String) (b : Bool) (l : List (String × Stats F)) (c e5 e4 : Nat)
    (d : F) : (Stats.mk r b l c e5 e4 d).subIsMerged = b :=
  rfl

/-- The segments of one request against the levels of a log: there are as many
segments as levels, no segment is empty or "xxx", and the segment at each level
is high-cardinality exactly when the level is marked so. When every request of
a log is uniform for the same levels, all requests have the same number of
segments and, at each depth, the segments are all high-cardinality or all
not. -/
def uniform : List Bool → List String → Bool
  | [], [] => true
  | hc :: ls, p :: rest =>
    decide (p ≠ "") && decide (p ≠ "xxx") && (highCard p == hc) && uniform ls rest
  | _, _ => false

/-- The shape of a node that has received only requests uniform for `levels`:
below the last level it has no children; above, it is either untouched, or its
wildcard child has received every request the node received, and the node is
either collapsed with the wildcard as its only child (a high-cardinality level)
or never collapsed with literal children that together received every request
(a plain level); its children have the shape of the remaining levels. -/
def Shape : List Bool → Stats F → Prop
  | [], n => n.subRoutes = []
  | hc :: ls, n =>
    (n.subRoutes = [] ∧ n.call = 0 ∧ n.subIsMerged = false) ∨
      ∃ x, mapGet n.subRoutes "xxx" = some x ∧ x.call = n.call ∧
        (if hc = true then n.subIsMerged = true ∧ n.subRoutes.length = 1
          else n.subIsMerged = false ∧ litCalls n.subRoutes = n.call) ∧
        ∀ kv ∈ n.subRoutes, Shape ls kv.2

theorem mapSet_length {α : Type} (l : List (String × α)) (k : String) (x v : α)
    (h : mapGet l k = some x) : (mapSet l k v).length = l.length := by
  induction l with
  | nil => simp [mapGet] at h
  | cons kv rest ih =>
    obtain ⟨k1, v1⟩ := kv
    by_cases h1 : k1 = k
    · simp [mapSet, h1]
    · simp only [mapGet, h1, if_false] at h
      simp [mapSet, h1, ih h]

theorem specChildren_sumCalls_eq (m : Int) (l : List (String × Stats F))
    (h : ∀ kv ∈ l, ∀ rs, flattenSpec m kv.2 = some rs → sumCalls rs = kv.2.call) :
    ∀ rs, specChildren m false l = some rs → sumCalls rs = litCalls l := by
  induction l with
  | nil =>
    intro rs hrs
    simp only [specChildren, Option.some.injEq] at hrs
    subst hrs
    simp [sumCalls, litCalls]
  | cons kv rest ih =>
    obtain ⟨k, v⟩ := kv
    have ih1 := ih (fun kv hkv => h kv (by simp [hkv]))
    intro rs hrs
    by_cases hk : k = "xxx"
    · simp only [specChildren, hk, ne_eq, not_true_eq_false, Bool.false_eq_true, or_self,
        if_false] at hrs
      have := ih1 rs hrs
      simp only [litCalls, hk, if_true]
      omega
    · simp only [specChildren, ne_eq, hk, not_false_eq_true, true_or, if_true] at hrs
      cases ha : flattenSpec m v with
      | none => simp [ha] at hrs
      | some a =>
        cases hb : specChildren m false rest with
        | none => simp [ha, hb] at hrs
        | some b =>
          simp only [ha, hb, Option.some.injEq] at hrs
          subst hrs
          have h1 := h (k, v) (by simp) a ha
          have h2 := ih1 b hb
          simp only [litCalls, hk, if_false, sumCalls_append]
          simp only at h1
          omega

/-- On a node of the shape of `levels` the rows add up to the calls of the
node. -/
theorem Shape_sumCalls (m : Int) (levels : List Bool) :
    ∀ (s : Stats F), Shape levels s →
      ∀ rs, flattenSpec m s = some rs → sumCalls rs = s.call := by
  induction levels with
  | nil =>
    intro s hs rs hrs
    rw [flattenSpec_leaf m s hs] at hrs
    cases hrs
    simp [sumCalls]
  | cons hc ls ih =>
    intro s hs rs hrs
    rcases hs with ⟨h0, -, -⟩ | ⟨x, hx, hxc, hflag, hk⟩
    · rw [flattenSpec_leaf m s h0] at hrs
      cases hrs
      simp [sumCalls]
    · cases s with
      | mk route merged subs call e5 e4 dur =>
        simp only [subRoutes_mk, call_mk, subIsMerged_mk] at hx hxc hflag hk ⊢
        have hkids : ∀ kv ∈ subs, ∀ rs, flattenSpec m kv.2 = some rs →
            sumCalls rs = kv.2.call := fun kv hkv => ih kv.2 (hk kv hkv)
        have h0 : ¬ subs.length = 0 := by
          intro h
          have hnil := List.length_eq_zero.1 h
          subst hnil
          simp [mapGet] at hx
        by_cases hc2 : (subs.length : Int) > (call : Int) / m
        · simp only [flattenSpec, h0, if_false, hc2, if_true, specWildcard_eq, hx,
            Option.some_bind] at hrs
          cases hr : flattenSpec m x with
          | none => simp [hr] at hrs
          | some rs0 =>
            simp only [hr, Option.map_some', Option.some.injEq] at hrs
            subst hrs
            rw [sumCalls_map_addPrefix]
            have h1 := hkids ("xxx", x) (mapGet_mem subs "xxx" x hx) rs0 hr
            simp only at h1
            omega
        · simp only [flattenSpec, h0, if_false, hc2] at hrs
          cases hr : specChildren m (subs.length == 1) subs with
          | none => simp [hr] at hrs
          | some rs0 =>
            simp only [hr, Option.map_some', Option.some.injEq] at hrs
            subst hrs
            rw [sumCalls_map_addPrefix]
            by_cases h1 : subs.length = 1
            · obtain ⟨kv, hkv⟩ := List.length_eq_one.1 h1
              obtain ⟨k, v⟩ := kv
              subst hkv
              have hkx : k = "xxx" := by
                by_contra hne
                simp [mapGet, hne] at hx
              subst hkx
              simp only [mapGet, if_true, Option.some.injEq] at hx
              subst hx
              simp only [List.length_singleton, beq_self_eq_true, specChildren, or_true,
                if_true] at hr
              cases ha : flattenSpec m v with
              | none => simp [ha] at hr
              | some a =>
                simp only [ha, List.append_nil, Option.some.injEq] at hr
                subst hr
                have h2 := hkids ("xxx", v) (by simp) a ha
                simp only at h2
                omega
            · have hb : (subs.length == 1) = false := by simpa using h1
              rw [hb] at hr
              have h3 := specChildren_sumCalls_eq m subs hkids rs0 hr
              by_cases hct : hc = true
              · simp only [hct, if_true] at hflag
                exact absurd hflag.2 h1
              · simp only [hct, if_false] at hflag
                rw [h3]
                exact hflag.2

theorem Shape_empty [Zero F] (levels : List Bool) :
    Shape levels (Stats.empty : Stats F) := by
  cases levels with
  | nil => simp [Shape, Stats.empty, subRoutes_mk]
  | cons hc ls => exact Or.inl ⟨rfl, rfl, rfl⟩

theorem Shape_getD [Zero F] (ls : List Bool) (l : List (String × Stats F)) (k : String)
    (h : ∀ kv ∈ l, Shape ls kv.2) : Shape ls ((mapGet l k).getD Stats.empty) := by
  cases hk : mapGet l k with
  | none => exact Shape_empty ls
  | some v => exact h (k, v) (mapGet_mem l k v hk)

section Uniform

variable [Add F] [Zero F]

/-- A request uniform for `levels` keeps the shape of `levels`. -/
theorem Shape_addParts (levels : List Bool) :
    ∀ (segs : List String) (n : Stats F) (label status : String) (d : F),
      uniform levels segs = true → Shape levels n →
        Shape levels (addParts segs n label status d) := by
  induction levels with
  | nil =>
    intro segs n label status d hu hs
    cases segs with
    | cons p rest => simp [uniform] at hu
    | nil =>
      cases n with
      | mk route merged subs call e5 e4 dur =>
        rw [addParts_nil]
        simp only [Shape, subRoutes_mk] at hs ⊢
        exact hs
  | cons hc ls ih =>
    intro segs n label status d hu hs
    cases segs with
    | nil => simp [uniform] at hu
    | cons p1 rest =>
      simp only [uniform, Bool.and_eq_true, decide_eq_true_eq, beq_iff_eq] at hu
      obtain ⟨⟨⟨hp, hpx⟩, hhc⟩, hrest⟩ := hu
      have hchild : ∀ (l : List (String × Stats F)) (k : String),
          (∀ kv ∈ l, Shape ls kv.2) →
          ∀ kv ∈ childStep rest l k status d, Shape ls kv.2 := by
        intro l k hl kv hkv
        rcases mem_mapSet _ _ _ _ hkv with h | h
        · exact hl kv h
        · rw [h]
          exact ih rest _ k status d hrest (Shape_getD ls l k hl)
      cases n with
      | mk route merged subs call e5 e4 dur =>
        simp only [Shape, subRoutes_mk, call_mk, subIsMerged_mk] at hs
        have hkids : ∀ kv ∈ subs, Shape ls kv.2 := by
          rcases hs with ⟨h0, -, -⟩ | ⟨x, -, -, -, hk⟩
          · subst h0
            intro kv hkv
            simp at hkv
          · exact hk
        have hx0 : ((mapGet subs "xxx").getD (Stats.empty : Stats F)).call = call := by
          rcases hs with ⟨h0, hc0, -⟩ | ⟨x, hx, hxc, -, -⟩
          · subst h0
            rw [hc0]
            rfl
          · rw [hx]
            exact hxc
        have hxcall : (addParts rest ((mapGet subs "xxx").getD Stats.empty) "xxx" status
            d).call = call + 1 := by
          rw [addParts_call, hx0]
        by_cases hct : hc = true
        · subst hct
          rw [addParts_cons_merged _ _ _ _ _ _ _ _ _ _ _ _ hp (by simp [hhc])]
          simp only [Shape, subRoutes_mk, call_mk, subIsMerged_mk, if_true]
          refine Or.inr ⟨_, mapGet_mapSet_self _ _ _, hxcall, ⟨trivial, ?_⟩,
            hchild subs "xxx" hkids⟩
          rcases hs with ⟨h0, -, -⟩ | ⟨x, hx, -, hflag, -⟩
          · subst h0
            simp [childStep, mapSet]
          · simp only [if_true] at hflag
            unfold childStep
            rw [mapSet_length subs "xxx" x _ hx]
            exact hflag.2
        · have hcf : hc = false := by simpa using hct
          subst hcf
          have hmf : merged = false := by
            rcases hs with ⟨-, -, h⟩ | ⟨x, -, -, hflag, -⟩
            · exact h
            · simp only [Bool.false_eq_true, if_false] at hflag
              exact hflag.1
          have hlit : litCalls subs = call := by
            rcases hs with ⟨h0, hc0, -⟩ | ⟨x, -, -, hflag, -⟩
            · subst h0
              rw [hc0]
              rfl
            · simp only [Bool.false_eq_true, if_false] at hflag
              exact hflag.2
          subst hmf
          rw [addParts_cons_literal _ _ _ _ _ _ _ _ _ _ _ hp hhc]
          simp only [Shape, subRoutes_mk, call_mk, subIsMerged_mk, Bool.false_eq_true,
            if_false]
          have hget : mapGet (childStep rest (childStep rest subs "xxx" status d) p1
              status d) "xxx" =
              some (addParts rest ((mapGet subs "xxx").getD Stats.empty) "xxx"
                status d) := by
            unfold childStep
            rw [mapGet_mapSet_ne _ _ _ _ hpx, mapGet_mapSet_self]
          refine Or.inr ⟨_, hget, hxcall, ⟨trivial, ?_⟩,
            hchild _ p1 (hchild subs "xxx" hkids)⟩
          have key := litCalls_mapSet_lit (childStep rest subs "xxx" status d) p1
            (addParts rest ((mapGet (childStep rest subs "xxx" status d) p1).getD
              Stats.empty) p1 status d)
            ((mapGet (childStep rest subs "xxx" status d) p1).getD Stats.empty) hpx
            (fun x hx => by rw [hx]; rfl) (fun hx => by rw [hx]; rfl)
          rw [addParts_call] at key
          have hxx : litCalls (childStep rest subs "xxx" status d) = litCalls subs := by
            unfold childStep
            exact litCalls_mapSet_xxx _ _
          rw [hxx] at key
          have hfold : childStep rest (childStep rest subs "xxx" status d) p1 status d =
              mapSet (childStep rest subs "xxx" status d) p1
                (addParts rest ((mapGet (childStep rest subs "xxx" status d) p1).getD
                  Stats.empty) p1 status d) := rfl
          rw [hfold]
          omega

/-- A tree built from the empty root by requests uniform for `levels` has the
shape of `levels`. -/
theorem addRequests_Shape (levels : List Bool) (reqs : List (String × String × F))
    (h : ∀ r ∈ reqs, uniform levels (split r.1).tail = true) :
    Shape levels (addRequests (Stats.empty : Stats F) reqs) := by
  induction reqs using List.reverseRecOn with
  | nil => exact Shape_empty levels
  | append_singleton reqs r ih =>
    rw [addRequests_append, addRequest_eq]
    exact Shape_addParts levels _ _ _ _ _ (h r (by simp))
      (ih (fun r hr => h r (by simp [hr])))

end Uniform

/-! ## The wildcard chain: what the "xxx" children of a tree have received -/

/-- How deep `addRequest` takes a request: the number of segments before the
first empty one (the recursion stops on `parts[1] == ""`). -/
def depthOf (segs : List String) : Nat :=
  (segs.takeWhile (fun p => decide (p ≠ ""))).length

/-- The deepest any of the segment lists goes. -/
def deepest (l : List (List String)) : Nat :=
  (l.map depthOf).foldr max 0

/-- How many of the segment lists go exactly `k` deep. -/
def countAt (k : Nat) (l : List (List String)) : Nat :=
  (l.filter (fun segs => decide (depthOf segs = k))).length

/-- The deepest any request of the log goes below the root. -/
def maxDepth (reqs : List (String × String × F)) : Nat :=
  deepest (reqs.map (fun r => (split r.1).tail))

/-- What a node passes to its "xxx" child of a request it receives: nothing
when the request stops at the node, the remaining segments otherwise. -/
def tailOf (r : List String × String × F) : Option (List String × String × F) :=
  match r.1 with
  | [] => none
  | p1 :: rest => if p1 = "" then none else some (rest, r.2.1, r.2.2)

/-- The requests a node passes to its "xxx" child, in order. -/
def tails (rs : List (List String × String × F)) : List (List String × String × F) :=
  rs.filterMap tailOf

theorem tails_append (rs : List (List String × String × F)) (r : List String × String × F) :
    tails (rs ++ [r]) = tails rs ++ (tailOf r).toList := by
  unfold tails
  rw [List.filterMap_append]
  cases h : tailOf r <;> simp [List.filterMap, h]

theorem tails_length (rs : List (List String × String × F)) :
    (tails rs).length ≤ rs.length :=
  List.length_filterMap_le _ _

theorem tails_noXxx (rs : List (List String × String × F)) (h : ∀ r ∈ rs, "xxx" ∉ r.1) :
    ∀ r ∈ tails rs, "xxx" ∉ r.1 := by
  intro r hr
  unfold tails at hr
  rw [List.mem_filterMap] at hr
  obtain ⟨a, ha, hat⟩ := hr
  have hx := h a ha
  obtain ⟨segs, st, d⟩ := a
  cases segs with
  | nil => simp [tailOf] at hat
  | cons p1 rest =>
    by_cases hp : p1 = ""
    · simp [tailOf, hp] at hat
    · simp only [tailOf, hp, if_false, Option.some.injEq] at hat
      subst hat
      intro hmem
      exact hx (by simp [hmem])

theorem depthOf_cons (p : String) (rest : List String) (hp : p ≠ "") :
    depthOf (p :: rest) = depthOf rest + 1 := by
  simp [depthOf, List.takeWhile, hp]

theorem depthOf_stop (rest : List String) : depthOf ("" :: rest) = 0 := by
  simp [depthOf, List.takeWhile]

/-- The deepest request goes one segment deeper than the deepest of the
requests passed to the "xxx" child; when none is passed, no request goes below
the node. -/
theorem deepest_tails (rs : List (List String × String × F)) :
    (tails rs = [] → deepest (rs.map Prod.fst) = 0) ∧
      (tails rs ≠ [] → deepest (rs.map Prod.fst) = deepest ((tails rs).map Prod.fst) + 1) := by
  induction rs with
  | nil => simp [tails, deepest]
  | cons r rs ih =>
    obtain ⟨segs, st, d⟩ := r
    have hcons : deepest (((segs, st, d) :: rs).map Prod.fst) =
        max (depthOf segs) (deepest (rs.map Prod.fst)) := by
      simp [deepest]
    rw [hcons]
    have hstop : depthOf segs = 0 → tails ((segs, st, d) :: rs) = tails rs →
        (tails ((segs, st, d) :: rs) = [] →
          max (depthOf segs) (deepest (rs.map Prod.fst)) = 0) ∧
        (tails ((segs, st, d) :: rs) ≠ [] →
          max (depthOf segs) (deepest (rs.map Prod.fst)) =
            deepest ((tails ((segs, st, d) :: rs)).map Prod.fst) + 1) := by
      intro h0 ht
      rw [ht, h0, Nat.zero_max]
      exact ih
    cases segs with
    | nil => exact hstop rfl (by simp [tails, tailOf])
    | cons p1 rest =>
      by_cases hp : p1 = ""
      · subst hp
        exact hstop (depthOf_stop rest) (by simp [tails, tailOf])
      · have ht : tails ((p1 :: rest, st, d) :: rs) = (rest, st, d) :: tails rs := by
          simp [tails, tailOf, hp]
        rw [ht, depthOf_cons p1 rest hp]
        constructor
        · intro h
          cases h
        · intro _
          have hc2 : deepest (((rest, st, d) :: tails rs).map Prod.fst) =
              max (depthOf rest) (deepest ((tails rs).map Prod.fst)) := by
            simp [deepest]
          rw [hc2]
          by_cases hn : tails rs = []
          · rw [ih.1 hn, hn]
            simp [deepest]
          · rw [ih.2 hn, Nat.succ_max_succ]

/-- As many requests go `k + 1` deep as are passed to the "xxx" child and go
`k` deep from there. -/
theorem countAt_tails (k : Nat) (rs : List (List String × String × F)) :
    countAt k ((tails rs).map Prod.fst) = countAt (k + 1) (rs.map Prod.fst) := by
  induction rs with
  | nil => rfl
  | cons r rs ih =>
    obtain ⟨segs, st, d⟩ := r
    have hstop : depthOf segs = 0 → tails ((segs, st, d) :: rs) = tails rs →
        countAt k ((tails ((segs, st, d) :: rs)).map Prod.fst) =
          countAt (k + 1) (((segs, st, d) :: rs).map Prod.fst) := by
      intro h0 ht
      rw [ht, ih]
      simp [countAt, List.filter, h0]
    cases segs with
    | nil => exact hstop rfl (by simp [tails, tailOf])
    | cons p1 rest =>
      by_cases hp : p1 = ""
      · subst hp
        exact hstop (depthOf_stop rest) (by simp [tails, tailOf])
      · have ht : tails ((p1 :: rest, st, d) :: rs) = (rest, st, d) :: tails rs := by
          simp [tails, tailOf, hp]
        rw [ht]
        unfold countAt at ih ⊢
        simp only [List.map_cons, List.filter_cons, depthOf_cons p1 rest hp,
          Nat.add_right_cancel_iff]
        by_cases hk : depthOf rest = k
        · simp [hk, ih]
        · simp [hk, ih]

/-- When no request is passed to the "xxx" child, every request stops at the
node. -/
theorem countAt_zero (rs : List (List String × String × F)) (h : tails rs = []) :
    countAt 0 (rs.map Prod.fst) = rs.length := by
  induction rs with
  | nil => rfl
  | cons r rs ih =>
    obtain ⟨segs, st, d⟩ := r
    have hstop : depthOf segs = 0 → tails ((segs, st, d) :: rs) = tails rs →
        countAt 0 (((segs, st, d) :: rs).map Prod.fst) = ((segs, st, d) :: rs).length := by
      intro h0 ht
      rw [ht] at h
      have := ih h
      unfold countAt at this ⊢
      simp only [List.map_cons, List.filter_cons, h0, decide_True, if_true, List.length_cons,
        this]
    cases segs with
    | nil => exact hstop rfl (by simp [tails, tailOf])
    | cons p1 rest =>
      by_cases hp : p1 = ""
      · subst hp
        exact hstop (depthOf_stop rest) (by simp [tails, tailOf])
      · simp [tails, tailOf, hp] at h

section Chain

variable [Add F] [Zero F]

/-- The node that has received the requests `rs`, each under the label
`label`, starting from `s`. -/
def feed (label : String) (rs : List (List String × String × F)) (s : Stats F) : Stats F :=
  rs.foldl (fun t r => addParts r.1 t label r.2.1 r.2.2) s

theorem feed_append (label : String) (rs : List (List String × String × F))
    (r : List String × String × F) (s : Stats F) :
    feed label (rs ++ [r]) s = addParts r.1 (feed label rs s) label r.2.1 r.2.2 := by
  simp [feed, List.foldl_append]

theorem feed_call (label : String) (rs : List (List String × String × F)) :
    (feed label rs (Stats.empty : Stats F)).call = rs.length := by
  induction rs using List.reverseRecOn with
  | nil => rfl
  | append_singleton rs r ih =>
    rw [feed_append, addParts_call, ih]
    simp

theorem feed_route (label : String) (rs : List (List String × String × F)) (s : Stats F)
    (h : rs ≠ []) : (feed label rs s).route = label := by
  induction rs using List.reverseRecOn with
  | nil => exact absurd rfl h
  | append_singleton rs r _ =>
    rw [feed_append, addParts_route]

/-- A tree built from the empty root is the root fed with the segments of its
requests, when every path starts with "/". -/
theorem addRequests_eq_feed (reqs : List (String × String × F))
    (h : ∀ r ∈ reqs, r.1.data.head? = some '/') :
    addRequests (Stats.empty : Stats F) reqs =
      feed "" (reqs.map (fun r => ((split r.1).tail, r.2.1, r.2.2))) Stats.empty := by
  induction reqs using List.reverseRecOn with
  | nil => rfl
  | append_singleton reqs r ih =>
    rw [addRequests_append, addRequest_eq, List.map_append, List.map_singleton, feed_append,
      ih (fun r hr => h r (by simp [hr])), split_head_of_slash r.1 (h r (by simp))]

/-- The "xxx" child of a node is the node fed with what the node passed on;
there is no child at all when nothing was passed on. -/
theorem feed_wildcard (label : String) (rs : List (List String × String × F))
    (h : ∀ r ∈ rs, "xxx" ∉ r.1) :
    (tails rs = [] → (feed label rs (Stats.empty : Stats F)).subRoutes = []) ∧
      (tails rs ≠ [] → mapGet (feed label rs (Stats.empty : Stats F)).subRoutes "xxx" =
        some (feed "xxx" (tails rs) Stats.empty)) := by
  induction rs using List.reverseRecOn with
  | nil =>
    refine ⟨fun _ => rfl, fun hne => absurd rfl hne⟩
  | append_singleton rs r ih =>
    obtain ⟨ih1, ih2⟩ := ih (fun r hr => h r (by simp [hr]))
    have hx := h r (by simp)
    rw [feed_append, tails_append]
    obtain ⟨segs, st, d⟩ := r
    simp only at hx ⊢
    cases ht : feed label rs (Stats.empty : Stats F) with
    | mk route merged subs call e5 e4 dur =>
      rw [ht] at ih1 ih2
      simp only [subRoutes_mk] at ih1 ih2
      have hstop : tailOf (segs, st, d) = none →
          (addParts segs (Stats.mk route merged subs call e5 e4 dur) label st d).subRoutes =
            subs →
          (tails rs ++ (tailOf (segs, st, d)).toList = [] →
            (addParts segs (Stats.mk route merged subs call e5 e4 dur) label st
              d).subRoutes = []) ∧
          (tails rs ++ (tailOf (segs, st, d)).toList ≠ [] →
            mapGet (addParts segs (Stats.mk route merged subs call e5 e4 dur) label st
              d).subRoutes "xxx" =
              some (feed "xxx" (tails rs ++ (tailOf (segs, st, d)).toList) Stats.empty)) := by
        intro h1 h2
        rw [h1, h2]
        simp only [Option.toList, List.append_nil]
        exact ⟨ih1, ih2⟩
      cases segs with
      | nil => exact hstop rfl (by rw [addParts_nil, subRoutes_mk])
      | cons p1 rest =>
        by_cases hp : p1 = ""
        · subst hp
          exact hstop (by simp [tailOf]) (by rw [addParts_cons_stop, subRoutes_mk])
        · have hpx : p1 ≠ "xxx" := fun hh => hx (by simp [hh])
          have htl : tailOf (p1 :: rest, st, d) = some (rest, st, d) := by
            simp [tailOf, hp]
          have hX : (mapGet subs "xxx").getD (Stats.empty : Stats F) =
              feed "xxx" (tails rs) Stats.empty := by
            by_cases hn : tails rs = []
            · rw [ih1 hn, hn]
              rfl
            · rw [ih2 hn]
              rfl
          have hnew : addParts rest ((mapGet subs "xxx").getD Stats.empty) "xxx" st d =
              feed "xxx" (tails rs ++ [(rest, st, d)]) Stats.empty := by
            rw [feed_append, hX]
          rw [htl]
          simp only [Option.toList]
          refine ⟨fun hnil => absurd hnil (by simp), fun _ => ?_⟩
          rw [← hnew]
          by_cases hm : (highCard p1 || merged) = true
          · rw [addParts_cons_merged _ _ _ _ _ _ _ _ _ _ _ _ hp hm]
            exact mapGet_mapSet_self _ _ _
          · simp only [Bool.or_eq_true, not_or, Bool.not_eq_true] at hm
            obtain ⟨hc, hm⟩ := hm
            subst hm
            rw [addParts_cons_literal _ _ _ _ _ _ _ _ _ _ _ hp hc]
            simp only [subRoutes_mk]
            unfold childStep
            rw [mapGet_mapSet_ne _ _ _ _ hpx, mapGet_mapSet_self]

/-- Below the merge factor the rows of a node are one row: the end of its
wildcard chain, which is as long as the deepest request goes and has received
the requests that go that deep. -/
theorem feed_lowVolume (m : Int) (j : Nat) :
    ∀ (rs : List (List String × String × F)) (label : String),
      deepest (rs.map Prod.fst) = j → (∀ r ∈ rs, "xxx" ∉ r.1) → (rs.length : Int) < m →
      ∃ n, flattenSpec m (feed label rs (Stats.empty : Stats F)) = some [n] ∧
        n.route = join ((feed label rs (Stats.empty : Stats F)).route ::
          List.replicate j "xxx") ∧
        n.call = countAt j (rs.map Prod.fst) := by
  induction j with
  | zero =>
    intro rs label hj hx hlen
    have hd := deepest_tails rs
    have hnil : tails rs = [] := by
      by_contra hne
      have := hd.2 hne
      omega
    have hleaf := (feed_wildcard label rs hx).1 hnil
    refine ⟨_, flattenSpec_leaf m _ hleaf, rfl, ?_⟩
    rw [feed_call, countAt_zero rs hnil]
  | succ j ih =>
    intro rs label hj hx hlen
    have hd := deepest_tails rs
    have hne : tails rs ≠ [] := by
      intro hnil
      have := hd.1 hnil
      omega
    have hj2 : deepest ((tails rs).map Prod.fst) = j := by
      have := hd.2 hne
      omega
    have hlen2 : ((tails rs).length : Int) < m := by
      have := tails_length rs
      omega
    obtain ⟨n0, hn0, hr0, hc0⟩ := ih (tails rs) "xxx" hj2 (tails_noXxx rs hx) hlen2
    rw [feed_route "xxx" (tails rs) Stats.empty hne] at hr0
    have hw := (feed_wildcard label rs hx).2 hne
    have hcall := feed_call label rs
    cases ht : feed label rs (Stats.empty : Stats F) with
    | mk route merged subs call e5 e4 dur =>
      rw [ht] at hw hcall
      simp only [subRoutes_mk] at hw
      simp only [call_mk] at hcall
      have h0 : ¬ subs.length = 0 := by
        intro h
        have hsn := List.length_eq_zero.1 h
        subst hsn
        simp [mapGet] at hw
      have hdiv : (call : Int) / m = 0 := by
        apply Int.ediv_eq_zero_of_lt (Int.ofNat_nonneg _)
        rw [hcall]
        exact hlen
      have hc : (subs.length : Int) > (call : Int) / m := by
        rw [hdiv]
        have : 0 < subs.length := Nat.pos_of_ne_zero h0
        omega
      refine ⟨addPrefix route n0, ?_, ?_, ?_⟩
      · simp [flattenSpec, h0, hc, specWildcard_eq, hw, hn0]
      · cases n0 with
        | mk r0 b0 l0 c0 e50 e40 d0 =>
          simp only [route_mk] at hr0
          simp only [addPrefix, Stats.setRoute, route_mk, hr0, List.replicate_succ, join]
      · rw [← countAt_tails, ← hc0]
        cases n0
        rfl

end Chain

/-! ## The claims -/

section Claims

variable {F : Type}

/-- C1 (as amended). Flatten coverage: for every sequence of requests that all
have the same number of path segments, with no segment empty or "xxx" and, at
each depth, the segments either all high-cardinality or all not (every request
is `uniform` for the same `levels`), fed by `addRequest` to an empty root, and
every positive `RouteMergeFactor`, `flatten` returns and the `call` of its rows
add up to exactly the root's `call`, which is the number of requests: every
request is in exactly one row. -/
theorem flatten_coverage [Add F] [Zero F] (reqs : List (String × String × F)) (m : Int)
    (levels : List Bool) (hm : 0 < m)
    (hreqs : ∀ r ∈ reqs, uniform levels (split r.1).tail = true) :
    ∃ rs, flattenRows m (addRequests (Stats.empty : Stats F) reqs) = .ok rs ∧
      sumCalls rs = (addRequests (Stats.empty : Stats F) reqs).call ∧
      sumCalls rs = reqs.length := by
  obtain ⟨flat, s1, rs, hf, hrs, hg⟩ := flatten_built reqs m hm
  have hsum := Shape_sumCalls m levels _ (addRequests_Shape levels reqs hreqs) rs hrs
  refine ⟨rs, flattenRows_of_ok m _ s1 flat rs hf hg, hsum, ?_⟩
  rw [hsum, addRequests_call]

/-- C1 for the three requests "/shop/42", "/shop/17" and "/blog/7", with
`RouteMergeFactor = 10`: two segments each, the first plain, the second
high-cardinality. -/
theorem flatten_coverage_witness :
    (0 : Int) < 10 ∧
      (∀ r ∈ [("/shop/42", "200", (0 : Nat)), ("/shop/17", "404", 0), ("/blog/7", "500", 0)],
        uniform [false, true] (split r.1).tail = true) ∧
      ∃ rs, flattenRows 10 (addRequests (Stats.empty : Stats Nat)
          [("/shop/42", "200", 0), ("/shop/17", "404", 0), ("/blog/7", "500", 0)]) = .ok rs ∧
        sumCalls rs = (addRequests (Stats.empty : Stats Nat)
          [("/shop/42", "200", 0), ("/shop/17", "404", 0), ("/blog/7", "500", 0)]).call ∧
        sumCalls rs =
          [("/shop/42", "200", (0 : Nat)), ("/shop/17", "404", 0), ("/blog/7", "500", 0)].length :=
  ⟨by decide, by decide,
    flatten_coverage [("/shop/42", "200", (0 : Nat)), ("/shop/17", "404", 0),
      ("/blog/7", "500", 0)] 10 [false, true] (by decide) (by decide)⟩

/-- C1 as stated fails: after the requests "/" and "/a" the root has `call = 2`
and the rows `flatten` returns add up to 1; the request "/" is in no row. -/
theorem coverage_drops_request :
    ¬ ∃ rs, flattenRows 10 (addRequests (Stats.empty : Stats Nat)
        [("/", "200", 0), ("/a", "200", 0)]) = .ok rs ∧
      sumCalls rs = (addRequests (Stats.empty : Stats Nat)
        [("/", "200", 0), ("/a", "200", 0)]).call := by
  rintro ⟨rs, h, hs⟩
  simp only [addRequests, List.foldl, addRequest_eq] at h hs
  have h1 : sumCalls rs = 1 := by
    injection h with h
    rw [← h]
    rfl
  rw [h1] at hs
  exact absurd hs (by decide)

/-- Each condition of the amended C1 is needed. Requests of different depths:
after "/a" and "/b/c" the rows add up to 1 of 2 calls. A node that collapses
after it has literal children: after "/a" and "/1", with `RouteMergeFactor = 1`,
the rows add up to 1 of 2 calls. A segment "xxx": after "/xxx" the rows add up
to 2 calls for 1 request. -/
theorem coverage_conditions_needed :
    (∃ rs, flattenRows 10 (addRequests (Stats.empty : Stats Nat)
        [("/a", "200", 0), ("/b/c", "200", 0)]) = .ok rs ∧ sumCalls rs = 1 ∧
      (addRequests (Stats.empty : Stats Nat) [("/a", "200", 0), ("/b/c", "200", 0)]).call = 2) ∧
    (∃ rs, flattenRows 1 (addRequests (Stats.empty : Stats Nat)
        [("/a", "200", 0), ("/1", "200", 0)]) = .ok rs ∧ sumCalls rs = 1 ∧
      (addRequests (Stats.empty : Stats Nat) [("/a", "200", 0), ("/1", "200", 0)]).call = 2) ∧
    (∃ rs, flattenRows 10 (addRequests (Stats.empty : Stats Nat)
        [("/xxx", "200", 0)]) = .ok rs ∧ sumCalls rs = 2 ∧
      (addRequests (Stats.empty : Stats Nat) [("/xxx", "200", 0)]).call = 1) := by
  simp only [addRequests, List.foldl, addRequest_eq]
  exact ⟨⟨_, rfl, rfl, rfl⟩, ⟨_, rfl, rfl, rfl⟩, ⟨_, rfl, rfl, rfl⟩⟩

/-- C2. Counter conservation: after any sequence of `addRequest` calls on an
empty root, the root's `call` is the number of calls made, and at every node
of the tree (the root included) `error404 + error5xx ≤ call`. -/
theorem counter_conservation [Add F] [Zero F] (reqs : List (String × String × F)) :
    (addRequests (Stats.empty : Stats F) reqs).call = reqs.length ∧
      ∀ n ∈ (addRequests (Stats.empty : Stats F) reqs).nodes,
        n.error404 + n.error5xx ≤ n.call :=
  ⟨addRequests_call reqs, addRequests_errorsLeCall reqs⟩

/-- C3 (as amended). Scenario A: after `addRequest("/shop/42", "200", d1)` and
`addRequest("/shop/17", "200", d2)` on an empty root, `flatten` with
`RouteMergeFactor = 10` returns exactly one row; its route is "/xxx/xxx" and
its `call` is 2. -/
theorem scenarioA_row [Add F] [Zero F] (d1 d2 : F) :
    ∃ n, flattenRows 10 (addRequests (Stats.empty : Stats F)
        [("/shop/42", "200", d1), ("/shop/17", "200", d2)]) = .ok [n] ∧
      n.route = "/xxx/xxx" ∧ n.call = 2 := by
  simp only [addRequests, List.foldl, addRequest_eq]
  exact ⟨_, rfl, rfl, rfl⟩

/-- C3 as stated fails: in scenario A the one row `flatten` returns is not
routed "/shop/xxx". -/
theorem scenarioA_not_shop :
    ¬ ∃ n, flattenRows 10 (addRequests (Stats.empty : Stats Nat)
        [("/shop/42", "200", 0), ("/shop/17", "200", 0)]) = .ok [n] ∧
      n.route = "/shop/xxx" ∧ n.call = 2 := by
  rintro ⟨n, h, hr, -⟩
  simp only [addRequests, List.foldl, addRequest_eq] at h
  have h2 : n.route = "/xxx/xxx" := by
    injection h with h
    injection h with h
    rw [← h]
    rfl
  rw [hr] at h2
  exact absurd h2 (by decide)

/-- C4 (as amended). Scenario B: after the single call
`addRequest("/missing", "404", d)` on an empty root, `flatten` with
`RouteMergeFactor = 10` returns exactly one row; its route is "/xxx", and it
has `call = 1`, `error404 = 1` and `error5xx = 0`. -/
theorem scenarioB_row [Add F] [Zero F] (d : F) :
    ∃ n, flattenRows 10 (addRequests (Stats.empty : Stats F)
        [("/missing", "404", d)]) = .ok [n] ∧
      n.route = "/xxx" ∧ n.call = 1 ∧ n.error404 = 1 ∧ n.error5xx = 0 := by
  simp only [addRequests, List.foldl, addRequest_eq]
  exact ⟨_, rfl, rfl, rfl, rfl, rfl⟩

/-- C4 as stated fails: in scenario B no row returned by `flatten` is routed
"/missing". -/
theorem scenarioB_no_missing :
    ¬ ∃ rs, flattenRows 10 (addRequests (Stats.empty : Stats Nat)
        [("/missing", "404", 0)]) = .ok rs ∧
      ∃ n ∈ rs, n.route = "/missing" ∧ n.call = 1 ∧ n.error404 = 1 ∧ n.error5xx = 0 := by
  rintro ⟨rs, h, n, hn, hr, -⟩
  simp only [addRequests, List.foldl, addRequest_eq] at h
  have h2 : rs.map Stats.route = ["/xxx"] := by
    injection h with h
    rw [← h]
    rfl
  have h3 : n.route ∈ rs.map Stats.route := List.mem_map_of_mem _ hn
  rw [h2, hr] at h3
  exact absurd h3 (by decide)

/-- C5 (as amended). The root is a row exactly when it has no children: on
every tree built from an empty root by any sequence of `addRequest` calls,
with a positive `RouteMergeFactor`, `flatten` returns; the root is among the
returned pointers if and only if it has no children, and then it is the only
row and is returned untouched. On the untouched empty root `flatten` thus
returns the one-element list that holds the root. -/
theorem root_row_iff_childless [Add F] [Zero F] (reqs : List (String × String × F))
    (m : Int) (hm : 0 < m) :
    ∃ flat s1, flatten m (addRequests (Stats.empty : Stats F) reqs) = .ok (flat, s1) ∧
      ([] ∈ flat ↔ (addRequests (Stats.empty : Stats F) reqs).subRoutes = []) ∧
      ((addRequests (Stats.empty : Stats F) reqs).subRoutes = [] →
        flat = [[]] ∧ s1 = addRequests (Stats.empty : Stats F) reqs ∧
          flattenRows m (addRequests (Stats.empty : Stats F) reqs) =
            .ok [addRequests (Stats.empty : Stats F) reqs]) := by
  obtain ⟨flat, s1, rs, hf, -, -⟩ := flatten_built reqs m hm
  refine ⟨flat, s1, hf, ?_, ?_⟩
  · constructor
    · intro hmem
      by_contra hne
      exact flatten_inner m hm _ hne flat s1 hf hmem
    · intro hnil
      rw [flatten_leaf m _ hnil] at hf
      simp only [Except.ok.injEq, Prod.mk.injEq] at hf
      rw [← hf.1]
      simp
  · intro hnil
    have hleaf := flatten_leaf m _ hnil
    rw [hleaf] at hf
    simp only [Except.ok.injEq, Prod.mk.injEq] at hf
    refine ⟨hf.1.symm, hf.2.symm, ?_⟩
    unfold flattenRows
    rw [hleaf]
    simp [Except.map, rows, deref_nil]

/-- C5 on the untouched empty root with `RouteMergeFactor = 10`. -/
theorem root_row_iff_childless_witness :
    (0 : Int) < 10 ∧
      ∃ flat s1, flatten 10 (addRequests (Stats.empty : Stats Nat) []) = .ok (flat, s1) ∧
        ([] ∈ flat ↔ (addRequests (Stats.empty : Stats Nat) []).subRoutes = []) ∧
        ((addRequests (Stats.empty : Stats Nat) []).subRoutes = [] →
          flat = [[]] ∧ s1 = addRequests (Stats.empty : Stats Nat) [] ∧
            flattenRows 10 (addRequests (Stats.empty : Stats Nat) []) =
              .ok [addRequests (Stats.empty : Stats Nat) []]) :=
  ⟨by decide, root_row_iff_childless [] 10 (by decide)⟩

/-- C5 as stated fails: `flatten` on the untouched empty root does not return
the empty list, it returns the root. -/
theorem empty_root_is_a_row :
    flattenRows 10 (addRequests (Stats.empty : Stats Nat) []) ≠ .ok [] ∧
      flattenRows 10 (addRequests (Stats.empty : Stats Nat) []) = .ok [Stats.empty] := by
  constructor
  · intro h
    have h2 : flattenRows 10 (addRequests (Stats.empty : Stats Nat) []) =
        .ok [Stats.empty] := rfl
    rw [h2] at h
    simp at h
  · rfl

/-- C6. `flatten` computes the recursive definition of the specification: for
every node and every positive `RouteMergeFactor`, the rows `flatten` returns
are those of `flattenSpec`, in the enumeration order of the children, and
`flatten` fails exactly where `flattenSpec` has no rows (the wildcard child is
wanted and absent). In `flattenSpec`, (i) a childless node is its own single
row, (ii) a node with more children than `call / RouteMergeFactor` has the rows
of its "xxx" child only, (iii) any other node has the rows of every child but
the "xxx" child, which is kept when it is the only child, and in (ii) and
(iii) each row's route gets the node's label and "/" in front. -/
theorem flatten_refines_spec (m : Int) (hm : 0 < m) (s : Stats F) :
    (flattenRows m s).toOption = flattenSpec m s ∧
      (s.subRoutes = [] → flattenSpec m s = some [s]) ∧
      (s.subRoutes ≠ [] → (s.subRoutes.length : Int) > (s.call : Int) / m →
        flattenSpec m s =
          ((mapGet s.subRoutes "xxx").bind (flattenSpec m)).map
            (List.map (addPrefix s.route))) ∧
      (s.subRoutes ≠ [] → ¬ (s.subRoutes.length : Int) > (s.call : Int) / m →
        flattenSpec m s =
          (specChildren m (s.subRoutes.length == 1) s.subRoutes).map
            (List.map (addPrefix s.route))) := by
  refine ⟨flattenRows_eq_spec m hm s, ?_, ?_, ?_⟩
  · intro h
    cases s with
    | mk route merged subs call e5 e4 dur =>
      simp only [Stats.subRoutes] at h
      subst h
      simp [flattenSpec]
  · intro h hc
    cases s with
    | mk route merged subs call e5 e4 dur =>
      simp only [Stats.subRoutes, Stats.call, Stats.route] at h hc ⊢
      have h0 : ¬ subs.length = 0 := fun h0 => h (List.length_eq_zero.1 h0)
      simp only [flattenSpec, h0, if_false, hc, if_true, specWildcard_eq]
  · intro h hc
    cases s with
    | mk route merged subs call e5 e4 dur =>
      simp only [Stats.subRoutes, Stats.call, Stats.route] at h hc ⊢
      have h0 : ¬ subs.length = 0 := fun h0 => h (List.length_eq_zero.1 h0)
      simp only [flattenSpec, h0, if_false, hc]

/-- C6 on the tree of the single request "/a/b", with `RouteMergeFactor = 1`. -/
theorem flatten_refines_spec_witness :
    (0 : Int) < 1 ∧
      ((flattenRows 1 (addRequest (Stats.empty : Stats Nat) "/a/b" "200" 0)).toOption =
          flattenSpec 1 (addRequest (Stats.empty : Stats Nat) "/a/b" "200" 0) ∧
        ((addRequest (Stats.empty : Stats Nat) "/a/b" "200" 0).subRoutes = [] →
          flattenSpec 1 (addRequest (Stats.empty : Stats Nat) "/a/b" "200" 0) =
            some [addRequest (Stats.empty : Stats Nat) "/a/b" "200" 0]) ∧
        ((addRequest (Stats.empty : Stats Nat) "/a/b" "200" 0).subRoutes ≠ [] →
          ((addRequest (Stats.empty : Stats Nat) "/a/b" "200" 0).subRoutes.length : Int) >
            ((addRequest (Stats.empty : Stats Nat) "/a/b" "200" 0).call : Int) / 1 →
          flattenSpec 1 (addRequest (Stats.empty : Stats Nat) "/a/b" "200" 0) =
            ((mapGet (addRequest (Stats.empty : Stats Nat) "/a/b" "200" 0).subRoutes
              "xxx").bind (flattenSpec 1)).map
              (List.map (addPrefix
                (addRequest (Stats.empty : Stats Nat) "/a/b" "200" 0).route))) ∧
        ((addRequest (Stats.empty : Stats Nat) "/a/b" "200" 0).subRoutes ≠ [] →
          ¬ ((addRequest (Stats.empty : Stats Nat) "/a/b" "200" 0).subRoutes.length : Int) >
            ((addRequest (Stats.empty : Stats Nat) "/a/b" "200" 0).call : Int) / 1 →
          flattenSpec 1 (addRequest (Stats.empty : Stats Nat) "/a/b" "200" 0) =
            (specChildren 1
              ((addRequest (Stats.empty : Stats Nat) "/a/b" "200" 0).subRoutes.length == 1)
              (addRequest (Stats.empty : Stats Nat) "/a/b" "200" 0).subRoutes).map
              (List.map (addPrefix
                (addRequest (Stats.empty : Stats Nat) "/a/b" "200" 0).route)))) :=
  ⟨by decide, flatten_refines_spec 1 (by decide) _⟩

/-- C7 (as amended). `flatten` changes at most the labels of childless nodes:
on every tree built by `addRequest`, with a positive `RouteMergeFactor`,
`flatten` returns and leaves a tree with the same skeleton (every node keeps
its counters, its collapse flag, its duration and its children under the same
keys, and every node that has children keeps its label). Every returned
pointer points to a childless node of that tree, and these nodes are the rows.
A second `flatten` on the tree returns too, and its rows are those of the
first in everything but the route. -/
theorem flatten_frame [Add F] [Zero F] (reqs : List (String × String × F)) (m : Int)
    (hm : 0 < m) :
    ∃ flat s1, flatten m (addRequests (Stats.empty : Stats F) reqs) = .ok (flat, s1) ∧
      skeleton s1 = skeleton (addRequests (Stats.empty : Stats F) reqs) ∧
      flat.map s1.deref = (rows (flat, s1)).map some ∧
      (∀ n ∈ rows (flat, s1), n.subRoutes = []) ∧
      ∃ rs2, flattenRows m s1 = .ok rs2 ∧
        rs2.map eraseRoute = (rows (flat, s1)).map eraseRoute := by
  obtain ⟨flat, s1, rs, hf, hrs, hg⟩ := flatten_built reqs m hm
  obtain ⟨flat2, s2, rs2, hf2, hg2, he⟩ := flatten_twice m hm _ s1 flat rs hf hrs
  refine ⟨flat, s1, hf, flatten_skeleton m hm _ flat s1 hf, ?_, ?_, rs2,
    flattenRows_of_ok m s1 s2 flat2 rs2 hf2 hg2, ?_⟩
  · rw [rows_of_good flat s1 rs hg]
    exact hg.1
  · rw [rows_of_good flat s1 rs hg]
    exact hg.2.1
  · rw [rows_of_good flat s1 rs hg]
    exact he

/-- C7 for the single request "/missing", with `RouteMergeFactor = 10`. -/
theorem flatten_frame_witness :
    (0 : Int) < 10 ∧
      ∃ flat s1, flatten 10 (addRequests (Stats.empty : Stats Nat)
          [("/missing", "404", 0)]) = .ok (flat, s1) ∧
        skeleton s1 = skeleton (addRequests (Stats.empty : Stats Nat)
          [("/missing", "404", 0)]) ∧
        flat.map s1.deref = (rows (flat, s1)).map some ∧
        (∀ n ∈ rows (flat, s1), n.subRoutes = []) ∧
        ∃ rs2, flattenRows 10 s1 = .ok rs2 ∧
          rs2.map eraseRoute = (rows (flat, s1)).map eraseRoute :=
  ⟨by decide, flatten_frame [("/missing", "404", (0 : Nat))] 10 (by decide)⟩

/-- C7 as stated fails: after the single request "/missing", `flatten` leaves a
tree that differs from the one it was given (the label "xxx" of the wildcard
leaf has become "/xxx"), and a second `flatten` returns the route "//xxx"
where the first returned "/xxx". -/
theorem flatten_overwrites_routes :
    ∃ flat s1, flatten 10 (addRequests (Stats.empty : Stats Nat)
        [("/missing", "404", 0)]) = .ok (flat, s1) ∧
      s1 ≠ addRequests (Stats.empty : Stats Nat) [("/missing", "404", 0)] ∧
      (rows (flat, s1)).map Stats.route = ["/xxx"] ∧
      (flattenRows 10 s1).map (List.map Stats.route) = .ok ["//xxx"] := by
  simp only [addRequests, List.foldl, addRequest_eq]
  refine ⟨_, _, rfl, ?_, rfl, rfl⟩
  intro h
  have h2 := congrArg (fun u => (u.deref [0]).map Stats.route) h
  exact absurd h2 (by decide)

/-- C8. Collapse monotonicity: `addRequest` on a node whose `subIsMerged` is set
leaves it set, and the children map afterwards is the old one or the old one
with the entry of "xxx" assigned: every key other than "xxx" looks up exactly
what it did before (nothing added, nothing changed). -/
theorem collapse_monotone [Add F] [Zero F] (s : Stats F) (url status : String) (d : F)
    (h : s.subIsMerged = true) :
    (addRequest s url status d).subIsMerged = true ∧
      ((addRequest s url status d).subRoutes = s.subRoutes ∨
        ∃ x, (addRequest s url status d).subRoutes = mapSet s.subRoutes "xxx" x) ∧
      ∀ k, k ≠ "xxx" →
        mapGet (addRequest s url status d).subRoutes k = mapGet s.subRoutes k := by
  rw [addRequest_eq]
  generalize (split url).tail = segs
  generalize (split url).headD "" = label
  cases s with
  | mk route merged subs call e5 e4 dur =>
    simp only [Stats.subIsMerged] at h
    subst h
    cases segs with
    | nil =>
      rw [addParts_nil]
      exact ⟨rfl, Or.inl rfl, fun _ _ => rfl⟩
    | cons p1 rest =>
      by_cases hp : p1 = ""
      · subst hp
        rw [addParts_cons_stop]
        exact ⟨rfl, Or.inl rfl, fun _ _ => rfl⟩
      · rw [addParts_cons_merged _ _ _ _ _ _ _ _ _ _ _ _ hp (by simp)]
        refine ⟨rfl, Or.inr ⟨_, rfl⟩, fun k hk => ?_⟩
        exact mapGet_mapSet_ne _ _ _ _ (Ne.symm hk)

/-- C8 at a collapsed node with one literal child, for the request "/b". -/
theorem collapse_monotone_witness :
    (Stats.mk "" true [("a", Stats.empty)] 1 0 0 (0 : Nat)).subIsMerged = true ∧
      ((addRequest (Stats.mk "" true [("a", Stats.empty)] 1 0 0 (0 : Nat)) "/b" "200"
          0).subIsMerged = true ∧
        ((addRequest (Stats.mk "" true [("a", Stats.empty)] 1 0 0 (0 : Nat)) "/b" "200"
            0).subRoutes = [("a", Stats.empty)] ∨
          ∃ x, (addRequest (Stats.mk "" true [("a", Stats.empty)] 1 0 0 (0 : Nat)) "/b"
            "200" 0).subRoutes = mapSet [("a", Stats.empty)] "xxx" x) ∧
        ∀ k, k ≠ "xxx" →
          mapGet (addRequest (Stats.mk "" true [("a", Stats.empty)] 1 0 0 (0 : Nat)) "/b"
            "200" 0).subRoutes k = mapGet [("a", Stats.empty)] k) :=
  ⟨rfl, collapse_monotone _ "/b" "200" 0 rfl⟩

/-- C9. Double counting under non-collapse: when `subIsMerged` is false and the
next segment `p1` is non-empty, is not "xxx" and is not high-cardinality,
`addRequest` leaves a child under "xxx" and a child under `p1`, and each has
`call` one more, `error404` and `error5xx` the same amount more, than the
child that was there before (the zero value if there was none). -/
theorem double_counting [Add F] [Zero F] (s : Stats F) (url status p0 p1 : String)
    (rest : List String) (d : F) (hsplit : split url = p0 :: p1 :: rest)
    (hm : s.subIsMerged = false)
    (hne : p1 ≠ "") (hx : p1 ≠ "xxx") (hc : highCard p1 = false) :
    ∃ x1 l1, mapGet (addRequest s url status d).subRoutes "xxx" = some x1 ∧
      mapGet (addRequest s url status d).subRoutes p1 = some l1 ∧
      x1.call = ((mapGet s.subRoutes "xxx").getD Stats.empty).call + 1 ∧
      l1.call = ((mapGet s.subRoutes p1).getD Stats.empty).call + 1 ∧
      x1.error404 = ((mapGet s.subRoutes "xxx").getD Stats.empty).error404 + inc404 status ∧
      l1.error404 = ((mapGet s.subRoutes p1).getD Stats.empty).error404 + inc404 status ∧
      x1.error5xx = ((mapGet s.subRoutes "xxx").getD Stats.empty).error5xx + inc5xx status ∧
      l1.error5xx = ((mapGet s.subRoutes p1).getD Stats.empty).error5xx + inc5xx status := by
  rw [addRequest_eq, hsplit]
  cases s with
  | mk route merged subs call e5 e4 dur =>
    simp only [Stats.subIsMerged] at hm
    subst hm
    simp only [List.tail_cons, List.headD_cons]
    rw [addParts_cons_literal _ _ _ _ _ _ _ _ _ _ _ hne hc]
    simp only [Stats.subRoutes]
    refine ⟨addParts rest ((mapGet subs "xxx").getD Stats.empty) "xxx" status d,
      addParts rest ((mapGet subs p1).getD Stats.empty) p1 status d, ?_, ?_,
      addParts_call _ _ _ _ _, addParts_call _ _ _ _ _, addParts_error404 _ _ _ _ _,
      addParts_error404 _ _ _ _ _, addParts_error5xx _ _ _ _ _,
      addParts_error5xx _ _ _ _ _⟩
    · unfold childStep
      rw [mapGet_mapSet_ne _ _ _ _ hx, mapGet_mapSet_self]
    · unfold childStep
      rw [mapGet_mapSet_self, mapGet_mapSet_ne _ _ _ _ (Ne.symm hx)]

/-- C9 at the empty root, for the request "/a" with status "404". -/
theorem double_counting_witness :
    split "/a" = ["", "a"] ∧ (Stats.empty : Stats Nat).subIsMerged = false ∧
      "a" ≠ "" ∧ "a" ≠ "xxx" ∧ highCard "a" = false ∧
      ∃ x1 l1, mapGet (addRequest (Stats.empty : Stats Nat) "/a" "404" 0).subRoutes "xxx" =
          some x1 ∧
        mapGet (addRequest (Stats.empty : Stats Nat) "/a" "404" 0).subRoutes "a" = some l1 ∧
        x1.call = ((mapGet (Stats.empty : Stats Nat).subRoutes "xxx").getD Stats.empty).call
          + 1 ∧
        l1.call = ((mapGet (Stats.empty : Stats Nat).subRoutes "a").getD Stats.empty).call
          + 1 ∧
        x1.error404 =
          ((mapGet (Stats.empty : Stats Nat).subRoutes "xxx").getD Stats.empty).error404 +
            inc404 "404" ∧
        l1.error404 =
          ((mapGet (Stats.empty : Stats Nat).subRoutes "a").getD Stats.empty).error404 +
            inc404 "404" ∧
        x1.error5xx =
          ((mapGet (Stats.empty : Stats Nat).subRoutes "xxx").getD Stats.empty).error5xx +
            inc5xx "404" ∧
        l1.error5xx =
          ((mapGet (Stats.empty : Stats Nat).subRoutes "a").getD Stats.empty).error5xx +
            inc5xx "404" :=
  ⟨by decide, rfl, by decide, by decide, by decide,
    double_counting _ "/a" "404" "" "a" [] 0 (by decide) rfl (by decide) (by decide)
      (by decide)⟩

/-- C10, the code at the failing input: after the single request "/xxx" on an
empty root, the root has `call = 1` and its "xxx" child has `call = 2`. -/
theorem wildcard_counted_twice :
    (addRequests (Stats.empty : Stats Nat) [("/xxx", "200", 0)]).call = 1 ∧
      (mapGet (addRequests (Stats.empty : Stats Nat) [("/xxx", "200", 0)]).subRoutes
        "xxx").map Stats.call = some 2 := by
  simp only [addRequests, List.foldl, addRequest_eq]
  exact ⟨rfl, rfl⟩

/-- C11. Wildcard existence: in every tree built from an empty root by any
sequence of `addRequest` calls, every node that has at least one child has a
child under "xxx"; nothing is assumed of its `subIsMerged` flag. -/
theorem wildcard_exists [Add F] [Zero F] (reqs : List (String × String × F)) (n : Stats F)
    (hn : n ∈ (addRequests (Stats.empty : Stats F) reqs).nodes)
    (hc : 0 < n.subRoutes.length) : ∃ x, mapGet n.subRoutes "xxx" = some x :=
  addRequests_wildcardPresent reqs n hn (fun h => by simp [h] at hc)

/-- C11 at the root of the tree built by the requests "/a" and "/12", whose
`subIsMerged` flag is set. -/
theorem wildcard_exists_witness :
    addRequests (Stats.empty : Stats Nat) [("/a", "200", 0), ("/12", "200", 0)] ∈
        (addRequests (Stats.empty : Stats Nat) [("/a", "200", 0), ("/12", "200", 0)]).nodes ∧
      0 < (addRequests (Stats.empty : Stats Nat)
        [("/a", "200", 0), ("/12", "200", 0)]).subRoutes.length ∧
      (addRequests (Stats.empty : Stats Nat)
        [("/a", "200", 0), ("/12", "200", 0)]).subIsMerged = true ∧
      ∃ x, mapGet (addRequests (Stats.empty : Stats Nat)
        [("/a", "200", 0), ("/12", "200", 0)]).subRoutes "xxx" = some x :=
  ⟨nodes_self _, by simp only [addRequests, List.foldl, addRequest_eq]; decide,
    by simp only [addRequests, List.foldl, addRequest_eq]; decide,
    wildcard_exists [("/a", "200", (0 : Nat)), ("/12", "200", 0)] _ (nodes_self _)
      (by simp only [addRequests, List.foldl, addRequest_eq]; decide)⟩

/-- C12. Status bookkeeping at the node `addRequest` is called on: `call` grows
by exactly 1, `error404` by 1 when the status is exactly "404" and by 0
otherwise, `error5xx` by 1 when the status is one of "500", "502", "503",
"504" and by 0 otherwise; "501" and "505" change neither error counter. -/
theorem status_bookkeeping [Add F] [Zero F] (s : Stats F) (url status : String) (d : F) :
    (addRequest s url status d).call = s.call + 1 ∧
      (addRequest s url status d).error404 =
        s.error404 + (if status = "404" then 1 else 0) ∧
      (addRequest s url status d).error5xx =
        s.error5xx +
          (if status = "500" ∨ status = "502" ∨ status = "503" ∨ status = "504" then 1
            else 0) ∧
      (addRequest s url "501" d).error404 = s.error404 ∧
      (addRequest s url "501" d).error5xx = s.error5xx ∧
      (addRequest s url "505" d).error404 = s.error404 ∧
      (addRequest s url "505" d).error5xx = s.error5xx := by
  refine ⟨?_, ?_, ?_, ?_, ?_, ?_, ?_⟩
  · rw [addRequest_eq, addParts_call]
  · rw [addRequest_eq, addParts_error404]
    rfl
  · rw [addRequest_eq, addParts_error5xx]
    rfl
  · rw [addRequest_eq, addParts_error404]
    rfl
  · rw [addRequest_eq, addParts_error5xx]
    rfl
  · rw [addRequest_eq, addParts_error404]
    rfl
  · rw [addRequest_eq, addParts_error5xx]
    rfl

/-- C13 (as amended). High-cardinality classification: when `subIsMerged` is
false and the next segment `p1` is non-empty, `subIsMerged` is true after
`addRequest` if and only if `p1` has at least 3 "-" or `strconv.Atoi` accepts
`p1`. On a segment made only of decimal digits `strconv.Atoi` succeeds exactly
when the value is below `2^63`: such a segment of at most 18 digits always
collapses the node, a longer one only if its value fits. -/
theorem collapse_iff_highCard [Add F] [Zero F] (s : Stats F) (url status p0 p1 : String)
    (rest : List String) (d : F) (hsplit : split url = p0 :: p1 :: rest)
    (hm : s.subIsMerged = false) (hne : p1 ≠ "") :
    ((addRequest s url status d).subIsMerged = true ↔
        countDash p1 ≥ 3 ∨ (atoi p1).isSome = true) ∧
      ((∀ c ∈ p1.data, (digitVal c).isSome = true) →
        ∃ n, parseDigits p1.data 0 = some n ∧
          ((addRequest s url status d).subIsMerged = true ↔ n < 2 ^ 63) ∧
          (p1.data.length ≤ 18 → (addRequest s url status d).subIsMerged = true)) := by
  have hflag : (addRequest s url status d).subIsMerged = highCard p1 := by
    rw [addRequest_eq, hsplit]
    simp only [List.tail_cons, List.headD_cons]
    rw [addParts_subIsMerged p1 rest s p0 status d hne, hm, Bool.or_false]
  rw [hflag]
  refine ⟨highCard_iff p1, ?_⟩
  intro hd
  obtain ⟨n, hn, hlt, hiff⟩ := atoi_digits p1 hne hd
  have hdash : ¬ countDash p1 ≥ 3 := by
    have h0 : countDash p1 = 0 := by
      unfold countDash
      rw [List.count_eq_zero]
      intro hmem
      exact absurd (hd _ hmem) (by decide)
    omega
  have hiff2 : highCard p1 = true ↔ n < 2 ^ 63 := by
    rw [highCard_iff, ← hiff]
    exact ⟨fun h => h.resolve_left hdash, Or.inr⟩
  refine ⟨n, hn, hiff2, ?_⟩
  intro hlen
  rw [hiff2]
  calc n < 10 ^ p1.data.length := hlt
    _ ≤ 10 ^ 18 := Nat.pow_le_pow_right (by decide) hlen
    _ < 2 ^ 63 := by norm_num

/-- C13 at the empty root, for the request "/42". -/
theorem collapse_iff_highCard_witness :
    split "/42" = ["", "42"] ∧ (Stats.empty : Stats Nat).subIsMerged = false ∧ "42" ≠ "" ∧
      (((addRequest (Stats.empty : Stats Nat) "/42" "200" 0).subIsMerged = true ↔
          countDash "42" ≥ 3 ∨ (atoi "42").isSome = true) ∧
        ((∀ c ∈ "42".data, (digitVal c).isSome = true) →
          ∃ n, parseDigits "42".data 0 = some n ∧
            ((addRequest (Stats.empty : Stats Nat) "/42" "200" 0).subIsMerged = true ↔
              n < 2 ^ 63) ∧
            ("42".data.length ≤ 18 →
              (addRequest (Stats.empty : Stats Nat) "/42" "200" 0).subIsMerged = true))) :=
  ⟨by decide, rfl, by decide,
    collapse_iff_highCard _ "/42" "200" "" "42" [] 0 (by decide) rfl (by decide)⟩

/-- C13 as stated fails: the segment "9223372036854775808" is made only of
decimal digits and has no "-", and `addRequest` on the empty root leaves
`subIsMerged` false: `strconv.Atoi` rejects the value `2^63` as out of range. -/
theorem long_number_not_collapsed :
    (∀ c ∈ "9223372036854775808".data, (digitVal c).isSome = true) ∧
      atoi "9223372036854775808" = none ∧
      (addRequest (Stats.empty : Stats Nat) "/9223372036854775808" "200" 0).subIsMerged =
        false := by
  refine ⟨by decide, by decide, ?_⟩
  rw [addRequest_eq]
  decide

/-- C14. A path with no segment beyond the root is counted only at the node:
for the paths "" and "/", `addRequest` adds 1 to `call`, adds 1 to `error404`
exactly when the status is "404" and 1 to `error5xx` exactly when the status is
"500", "502", "503" or "504", and leaves the children map and the `subIsMerged`
flag as they were; so a "404" on "/" is one more `error404` and a "503" on ""
one more `error5xx`. `addRequest` is a total function: it returns a tree on
every path. -/
theorem root_only_path [Add F] [Zero F] (s : Stats F) (status : String) (d : F) :
    ((addRequest s "" status d).subRoutes = s.subRoutes ∧
        (addRequest s "" status d).subIsMerged = s.subIsMerged ∧
        (addRequest s "" status d).call = s.call + 1 ∧
        (addRequest s "" status d).error404 =
          s.error404 + (if status = "404" then 1 else 0) ∧
        (addRequest s "" status d).error5xx =
          s.error5xx +
            (if status = "500" ∨ status = "502" ∨ status = "503" ∨ status = "504" then 1
              else 0)) ∧
      ((addRequest s "/" status d).subRoutes = s.subRoutes ∧
        (addRequest s "/" status d).subIsMerged = s.subIsMerged ∧
        (addRequest s "/" status d).call = s.call + 1 ∧
        (addRequest s "/" status d).error404 =
          s.error404 + (if status = "404" then 1 else 0) ∧
        (addRequest s "/" status d).error5xx =
          s.error5xx +
            (if status = "500" ∨ status = "502" ∨ status = "503" ∨ status = "504" then 1
              else 0)) ∧
      ((addRequest s "" "404" d).error404 = s.error404 + 1 ∧
        (addRequest s "/" "404" d).error404 = s.error404 + 1 ∧
        (addRequest s "" "503" d).error5xx = s.error5xx + 1 ∧
        (addRequest s "/" "503" d).error5xx = s.error5xx + 1 ∧
        (addRequest s "" "200" d).error404 = s.error404 ∧
        (addRequest s "/" "200" d).error5xx = s.error5xx) := by
  have h1 : split "" = [""] := by decide
  have h2 : split "/" = ["", ""] := by decide
  cases s with
  | mk route merged subs call e5 e4 dur =>
    simp only [addRequest_eq, h1, h2, List.tail_cons, List.headD_cons, addParts_nil,
      addParts_cons_stop]
    exact ⟨⟨rfl, rfl, rfl, rfl, rfl⟩, ⟨rfl, rfl, rfl, rfl, rfl⟩, rfl, rfl, rfl, rfl, rfl,
      rfl⟩

/-- C15. The aggregation core is total: each recursive call of `addRequest`
is on a path with strictly fewer segments, and on every tree built from an
empty root, with a positive `RouteMergeFactor`, `flatten` returns rows: it
raises neither the division by zero nor the nil dereference of a missing
"xxx" child. -/
theorem core_is_total [Add F] [Zero F] (reqs : List (String × String × F)) (m : Int)
    (hm : 0 < m) :
    (∃ rs, flattenRows m (addRequests (Stats.empty : Stats F) reqs) = .ok rs) ∧
      (∀ e, flatten m (addRequests (Stats.empty : Stats F) reqs) ≠ .error e) ∧
      ∀ (url p0 p1 : String) (rest : List String), split url = p0 :: p1 :: rest →
        (split ("xxx" ++ subUrl rest)).length < (split url).length ∧
          (split (p1 ++ subUrl rest)).length < (split url).length := by
  obtain ⟨flat, s1, rs, hf, -, hg⟩ := flatten_built reqs m hm
  refine ⟨⟨rs, flattenRows_of_ok m _ s1 flat rs hf hg⟩, ?_, ?_⟩
  · intro e he
    rw [hf] at he
    cases he
  · intro url p0 p1 rest h
    have hr : ∀ r ∈ rest, noSlash r := fun r hr =>
      split_noSlash url r (by rw [h]; simp [hr])
    have h1 : noSlash p1 := split_noSlash url p1 (by rw [h]; simp)
    rw [h, split_child "xxx" rest noSlash_xxx hr, split_child p1 rest h1 hr]
    simp

/-- C15 for the requests "/a/b" and "/7", with `RouteMergeFactor = 10`. -/
theorem core_is_total_witness :
    (0 : Int) < 10 ∧
      ((∃ rs, flattenRows 10 (addRequests (Stats.empty : Stats Nat)
          [("/a/b", "200", 0), ("/7", "500", 0)]) = .ok rs) ∧
        (∀ e, flatten 10 (addRequests (Stats.empty : Stats Nat)
          [("/a/b", "200", 0), ("/7", "500", 0)]) ≠ .error e) ∧
        ∀ (url p0 p1 : String) (rest : List String), split url = p0 :: p1 :: rest →
          (split ("xxx" ++ subUrl rest)).length < (split url).length ∧
            (split (p1 ++ subUrl rest)).length < (split url).length) :=
  ⟨by decide, core_is_total [("/a/b", "200", (0 : Nat)), ("/7", "500", 0)] 10 (by decide)⟩

/-- C16. Format auto-detection picks a longest matching template: for every
registry of non-empty templates, every order `fmtOrder` in which it is
enumerated, every sample line and every matching predicate, `guessFormatRe`
called with an empty format takes the fatal exit if and only if no template of
the registry matches, and otherwise returns the pattern of a template of the
registry that matches and is at least as long as every template that
matches. -/
theorem guess_longest_match (registry fmtOrder patOrder : List (String × String))
    (matchString : String → String → Bool) (logline : String)
    (hperm : fmtOrder.Perm registry) (hne : ∀ nf ∈ registry, nf.2 ≠ "") :
    (guessFormatRe fmtOrder patOrder matchString "" logline = none ↔
        ∀ nf ∈ registry, matchString (buildRe patOrder nf.2) logline = false) ∧
      ∀ re, guessFormatRe fmtOrder patOrder matchString "" logline = some re →
        ∃ nf ∈ registry, re = buildRe patOrder nf.2 ∧
          matchString (buildRe patOrder nf.2) logline = true ∧
          ∀ nf2 ∈ registry, matchString (buildRe patOrder nf2.2) logline = true →
            nf2.2.utf8ByteSize ≤ nf.2.utf8ByteSize := by
  have hinv := guessLoop_inv (fun f => matchString (buildRe patOrder f) logline) fmtOrder
    (fun nf hnf => hne nf (hperm.mem_iff.1 hnf))
  simp only [guessFormatRe, if_true]
  generalize guessLoop fmtOrder (fun f => matchString (buildRe patOrder f) logline) = st
    at hinv ⊢
  rcases hinv with ⟨h1, -, hnone⟩ | ⟨h1, h2, hmem, hm, hmax⟩
  · constructor
    · simp only [h1, ne_eq, not_true_eq_false, if_false, true_iff]
      exact fun nf hnf => hnone nf (hperm.mem_iff.2 hnf)
    · intro re hre
      simp [h1] at hre
  · constructor
    · simp only [ne_eq, h1, not_false_eq_true, if_true]
      constructor
      · intro h
        cases h
      · intro hall
        have := hall _ (hperm.mem_iff.1 hmem)
        simp only at this hm
        rw [hm] at this
        cases this
    · intro re hre
      simp only [ne_eq, h1, not_false_eq_true, if_true, Option.some.injEq] at hre
      refine ⟨(st.2.1, st.2.2), hperm.mem_iff.1 hmem, hre.symm, hm, ?_⟩
      intro nf2 hnf2 hm2
      rw [← h2]
      exact hmax nf2 (hperm.mem_iff.2 hnf2) hm2

/-- C16 for the registry of the source enumerated last to first, when every
template matches. -/
theorem guess_longest_match_witness :
    formats.reverse.Perm formats ∧ (∀ nf ∈ formats, nf.2 ≠ "") ∧
      ((guessFormatRe formats.reverse patterns (fun _ _ => true) "" "GET /" = none ↔
          ∀ nf ∈ formats, (fun _ _ => true) (buildRe patterns nf.2) "GET /" = false) ∧
        ∀ re, guessFormatRe formats.reverse patterns (fun _ _ => true) "" "GET /" = some re →
          ∃ nf ∈ formats, re = buildRe patterns nf.2 ∧
            (fun _ _ => true) (buildRe patterns nf.2) "GET /" = true ∧
            ∀ nf2 ∈ formats, (fun _ _ => true) (buildRe patterns nf2.2) "GET /" = true →
              nf2.2.utf8ByteSize ≤ nf.2.utf8ByteSize) :=
  ⟨List.reverse_perm formats, by decide,
    guess_longest_match formats formats.reverse patterns (fun _ _ => true) "GET /"
      (List.reverse_perm formats) (by decide)⟩

/-- C17. Template compilation is deterministic: for every template, the text of
the pattern `buildRe` builds (escape "[" and "]", then substitute the nine
placeholders of `patterns`) is the same for any two orders in which the map
`patterns` is enumerated. -/
theorem buildRe_deterministic (order1 order2 : List (String × String))
    (h1 : order1.Perm patterns) (h2 : order2.Perm patterns) (format : String) :
    buildRe order1 format = buildRe order2 format := by
  rw [buildRe_perm order1 h1 format, buildRe_perm order2 h2 format]

/-- C17 for the map enumerated last to first and first to last, on the template
"[$time_local] $status". -/
theorem buildRe_deterministic_witness :
    patterns.reverse.Perm patterns ∧ patterns.Perm patterns ∧
      buildRe patterns.reverse "[$time_local] $status" =
        buildRe patterns "[$time_local] $status" :=
  ⟨List.reverse_perm patterns, List.Perm.refl patterns,
    buildRe_deterministic patterns.reverse patterns (List.reverse_perm patterns)
      (List.Perm.refl patterns) "[$time_local] $status"⟩

/-- C18. Report ordering: for every non-empty list of rows and every `sort.Sort`
that keeps its documented promise, the list after `sortByCall` (respectively
`sortBy404`, `sortBy5xx`) is a permutation of the input in non-increasing
order of `call` (respectively `error404`, `error5xx`), and its first row has a
value at least that of every row. -/
theorem report_ordering (sort : LessFn F → List (Stats F) → List (Stats F))
    (hsort : SortContract sort) (rs : List (Stats F)) (hrs : rs ≠ []) :
    RankedBy Stats.call rs (sortByCall sort rs) ∧
      RankedBy Stats.error404 rs (sortBy404 sort rs) ∧
      RankedBy Stats.error5xx rs (sortBy5xx sort rs) :=
  ⟨ranked_of_contract sort hsort Stats.call rs hrs,
    ranked_of_contract sort hsort Stats.error404 rs hrs,
    ranked_of_contract sort hsort Stats.error5xx rs hrs⟩

/-- C18 with an insertion sort for `sort.Sort`, on two rows. -/
theorem report_ordering_witness :
    SortContract (insertionSorter : LessFn Nat → _ → _) ∧
      [Stats.mk "/a" false [] 1 0 1 (0 : Nat), Stats.mk "/b" false [] 3 2 0 0] ≠ [] ∧
      (RankedBy Stats.call
          [Stats.mk "/a" false [] 1 0 1 (0 : Nat), Stats.mk "/b" false [] 3 2 0 0]
          (sortByCall insertionSorter
            [Stats.mk "/a" false [] 1 0 1 (0 : Nat), Stats.mk "/b" false [] 3 2 0 0]) ∧
        RankedBy Stats.error404
          [Stats.mk "/a" false [] 1 0 1 (0 : Nat), Stats.mk "/b" false [] 3 2 0 0]
          (sortBy404 insertionSorter
            [Stats.mk "/a" false [] 1 0 1 (0 : Nat), Stats.mk "/b" false [] 3 2 0 0]) ∧
        RankedBy Stats.error5xx
          [Stats.mk "/a" false [] 1 0 1 (0 : Nat), Stats.mk "/b" false [] 3 2 0 0]
          (sortBy5xx insertionSorter
            [Stats.mk "/a" false [] 1 0 1 (0 : Nat), Stats.mk "/b" false [] 3 2 0 0])) :=
  ⟨insertionSorter_contract, List.cons_ne_nil _ _,
    report_ordering insertionSorter insertionSorter_contract _ (List.cons_ne_nil _ _)⟩

/-- C19. Low-volume logs collapse to a single wildcard row: when fewer than
`RouteMergeFactor` requests are fed to an empty root, all on paths that start
with "/" and have no segment "xxx", `flatten` returns exactly one row. Its
route is the empty segment in front of the leading "/" followed by as many
segments "xxx" as the deepest request has segments (before an empty one), and
nothing else: no literal segment of a request is in the report. The route is
empty only when no request has a segment, and is empty when the root has no
children. The row is the end of the wildcard chain: its `call` is the number
of requests that go that deep. -/
theorem low_volume_single_row [Add F] [Zero F] (reqs : List (String × String × F)) (m : Int)
    (hlen : (reqs.length : Int) < m)
    (hreqs : ∀ r ∈ reqs, r.1.data.head? = some '/' ∧ "xxx" ∉ (split r.1).tail) :
    ∃ n, flattenRows m (addRequests (Stats.empty : Stats F) reqs) = .ok [n] ∧
      n.route = join ("" :: List.replicate (maxDepth reqs) "xxx") ∧
      split n.route = "" :: List.replicate (maxDepth reqs) "xxx" ∧
      (n.route = "" ↔ maxDepth reqs = 0) ∧
      n.call = countAt (maxDepth reqs) (reqs.map (fun r => (split r.1).tail)) ∧
      ((addRequests (Stats.empty : Stats F) reqs).subRoutes = [] → n.route = "") := by
  have hm : 0 < m := by
    have : (0 : Int) ≤ (reqs.length : Int) := Int.ofNat_nonneg _
    omega
  have hmap : (reqs.map (fun r => ((split r.1).tail, r.2.1, r.2.2))).map Prod.fst =
      reqs.map (fun r => (split r.1).tail) := by
    rw [List.map_map]
    rfl
  have hfeed := addRequests_eq_feed reqs (fun r hr => (hreqs r hr).1)
  obtain ⟨n, hn, hr, hc⟩ := feed_lowVolume m (maxDepth reqs)
    (reqs.map (fun r => ((split r.1).tail, r.2.1, r.2.2))) ""
    (by rw [hmap]; rfl)
    (by
      intro r hr
      rw [List.mem_map] at hr
      obtain ⟨a, ha, rfl⟩ := hr
      exact (hreqs a ha).2)
    (by rw [List.length_map]; exact hlen)
  rw [← hfeed] at hn hr
  rw [hmap] at hc
  rw [addRequests_route reqs (fun r hr => (hreqs r hr).1)] at hr
  obtain ⟨flat, s1, hf, hg⟩ := flatten_ok_of_spec m hm _ [n] hn
  have hsplit : split n.route = "" :: List.replicate (maxDepth reqs) "xxx" := by
    rw [hr]
    refine split_join _ (by simp) ?_
    intro r hmem
    rcases List.mem_cons.1 hmem with rfl | hmem
    · unfold noSlash
      decide
    · rw [List.eq_of_mem_replicate hmem]
      exact noSlash_xxx
  refine ⟨n, flattenRows_of_ok m _ s1 flat [n] hf hg, hr, hsplit, ?_, hc, ?_⟩
  · constructor
    · intro h0
      rw [h0] at hsplit
      have h1 : split "" = [""] := by decide
      rw [h1] at hsplit
      simp only [List.cons.injEq, true_and] at hsplit
      cases hj : maxDepth reqs with
      | zero => rfl
      | succ j =>
        rw [hj] at hsplit
        simp [List.replicate_succ] at hsplit
    · intro h0
      rw [hr, h0]
      rfl
  · intro hnil
    rw [flattenSpec_leaf m _ hnil] at hn
    simp only [Option.some.injEq, List.cons.injEq, and_true] at hn
    rw [← hn]
    exact addRequests_route reqs (fun r hr => (hreqs r hr).1)

/-- C19 for the two requests "/a/b" and "/c", with `RouteMergeFactor = 10`: the
deepest request has two segments, so the route of the row is "/xxx/xxx", and
one request goes that deep. -/
theorem low_volume_single_row_witness :
    (([("/a/b", "200", (0 : Nat)), ("/c", "404", 0)].length : Nat) : Int) < 10 ∧
      (∀ r ∈ [("/a/b", "200", (0 : Nat)), ("/c", "404", 0)],
        r.1.data.head? = some '/' ∧ "xxx" ∉ (split r.1).tail) ∧
      (maxDepth [("/a/b", "200", (0 : Nat)), ("/c", "404", 0)] = 2 ∧
        join ("" :: List.replicate 2 "xxx") = "/xxx/xxx" ∧
        countAt 2 ([("/a/b", "200", (0 : Nat)), ("/c", "404", 0)].map
          (fun r => (split r.1).tail)) = 1) ∧
      ∃ n, flattenRows 10 (addRequests (Stats.empty : Stats Nat)
          [("/a/b", "200", 0), ("/c", "404", 0)]) = .ok [n] ∧
        n.route = join ("" :: List.replicate
          (maxDepth [("/a/b", "200", (0 : Nat)), ("/c", "404", 0)]) "xxx") ∧
        split n.route = "" :: List.replicate
          (maxDepth [("/a/b", "200", (0 : Nat)), ("/c", "404", 0)]) "xxx" ∧
        (n.route = "" ↔ maxDepth [("/a/b", "200", (0 : Nat)), ("/c", "404", 0)] = 0) ∧
        n.call = countAt (maxDepth [("/a/b", "200", (0 : Nat)), ("/c", "404", 0)])
          ([("/a/b", "200", (0 : Nat)), ("/c", "404", 0)].map (fun r => (split r.1).tail)) ∧
        ((addRequests (Stats.empty : Stats Nat)
          [("/a/b", "200", 0), ("/c", "404", 0)]).subRoutes = [] → n.route = "") :=
  ⟨by decide, by decide, ⟨by decide, by decide, by decide⟩,
    low_volume_single_row [("/a/b", "200", (0 : Nat)), ("/c", "404", 0)] 10 (by decide)
      (by decide)⟩

/-- C20. One request can create exponentially many nodes: a single
`addRequest` on an empty root for the path "/s1/.../sd", whose `d` segments are
non-empty, are not "xxx" and are not high-cardinality, builds a tree of
exactly `2^(d+1) - 1` nodes, each with `call = 1`. -/
theorem one_request_tree_size [Add F] [Zero F] (segs : List String) (status : String) (d : F)
    (h : ∀ p ∈ segs, p ≠ "" ∧ p ≠ "xxx" ∧ highCard p = false ∧ noSlash p) :
    (addRequest (Stats.empty : Stats F) ("/" ++ join segs) status d).nodes.length =
        2 ^ (segs.length + 1) - 1 ∧
      ∀ n ∈ (addRequest (Stats.empty : Stats F) ("/" ++ join segs) status d).nodes,
        n.call = 1 := by
  have hplain : ∀ p ∈ segs, p ≠ "" ∧ p ≠ "xxx" ∧ highCard p = false := fun p hp =>
    ⟨(h p hp).1, (h p hp).2.1, (h p hp).2.2.1⟩
  cases segs with
  | nil =>
    have hs : split ("/" ++ join []) = ["", ""] := by decide
    rw [addRequest_eq, hs]
    unfold Stats.empty
    simp only [List.tail_cons, List.headD_cons, addParts_cons_stop]
    simp [Stats.nodes, nodesOf, call_mk]
  | cons p rest =>
    have hs : split ("/" ++ join (p :: rest)) = "" :: p :: rest := by
      have h1 := split_child "" (p :: rest) (by unfold noSlash; decide)
        (fun r hr => (h r hr).2.2.2)
      have h2 : "" ++ subUrl (p :: rest) = "/" ++ join (p :: rest) := by
        simp [subUrl]
      rw [← h2]
      exact h1
    rw [addRequest_eq, hs]
    simp only [List.tail_cons, List.headD_cons]
    exact addParts_empty_nodes (p :: rest) hplain "" status d

/-- C20 for the path "/a/b/c": 15 nodes. -/
theorem one_request_tree_size_witness :
    (∀ p ∈ ["a", "b", "c"], p ≠ "" ∧ p ≠ "xxx" ∧ highCard p = false ∧ noSlash p) ∧
      ((addRequest (Stats.empty : Stats Nat) ("/" ++ join ["a", "b", "c"]) "200" 0).nodes.length
          = 2 ^ (["a", "b", "c"].length + 1) - 1 ∧
        ∀ n ∈ (addRequest (Stats.empty : Stats Nat) ("/" ++ join ["a", "b", "c"]) "200"
          0).nodes, n.call = 1) :=
  ⟨by unfold noSlash; decide,
    one_request_tree_size ["a", "b", "c"] "200" (0 : Nat) (by unfold noSlash; decide)⟩

end Claims

end LogAnalyzer
